import Mathlib

set_option autoImplicit false

/-!
# tinyrenderer: command-line parameter acquisition

A shallow embedding of the parameter-acquisition code of `src/main.cpp`
(`Getopt`, `IsLetter`, `IsNumber`, `TryStoi`, `TryStod`, `InitGlobalParam`)
together with the library operations that code calls (`std::map`,
`std::stoi`, `std::stod`), and theorems about them.

Conventions of the embedding:

* a `std::string` is the list of its characters (`Str`); every test the code
  makes on a character is a comparison with an ASCII constant;
* a `std::map<string, vector<string>>` is an association list whose keys are
  strictly ascending in the order of `std::string::operator<` (`CmdMap`);
* an exception thrown by a library conversion is the value `none`;
* a `double` is a rational number, an infinity or a NaN (`Dbl`); `std::stod`
  and the arithmetic of the colour computation round to the nearest double
  (`binary64`);
* the global variables written by `InitGlobalParam` are the fields of the
  record `Globals`, passed in and returned.
-/

namespace TinyRenderer

/-! ## Strings and character classes -/

/-- A `std::string`: the list of its characters. -/
abbrev Str := List Char

/-- The order `std::string::operator<`: lexicographic on character codes, a
proper prefix being smaller. This is the key order of `std::map<string, _>`. -/
def strLt : Str → Str → Bool
  | [], [] => false
  | [], _ :: _ => true
  | _ :: _, [] => false
  | a :: as, b :: bs =>
    if a.toNat < b.toNat then true
    else if b.toNat < a.toNat then false
    else strLt as bs

/-- The character test in the loop of `IsLetter` (main.cpp line 174). -/
def isLetterChar (ch : Char) : Bool :=
  ('A' ≤ ch && ch ≤ 'Z') || ('a' ≤ ch && ch ≤ 'z') || ('.' == ch) || ('_' == ch)

/-- The character test in the loop of `IsNumber` (main.cpp line 192). -/
def isNumberChar (ch : Char) : Bool :=
  ('0' ≤ ch && ch ≤ '9') || ('-' == ch)

/-- `IsLetter` (main.cpp lines 169-185): `flag` starts `true`; the loop leaves
with `false` at the first character that fails the test. -/
def IsLetter : Str → Bool
  | [] => true
  | ch :: rest => if isLetterChar ch then IsLetter rest else false

/-- `IsNumber` (main.cpp lines 187-203): same loop with the digit-or-minus test. -/
def IsNumber : Str → Bool
  | [] => true
  | ch :: rest => if isNumberChar ch then IsNumber rest else false

/-! ## The parameter group table (`std::map<string, vector<string>>`) -/

/-- The table: key/value-list pairs, keys strictly ascending for `strLt`. -/
abbrev CmdMap := List (Str × List Str)

/-- `m.find(k)`: the value list stored under `k`, `none` for `m.end()`. -/
def mapFind : CmdMap → Str → Option (List Str)
  | [], _ => none
  | (k', vs) :: rest, k => if k' = k then some vs else mapFind rest k

/-- `m.insert({k, vs})`: adds the pair at its place in key order; when the key
is already present the map is left as it is (`std::map::insert` does not
overwrite). -/
def mapInsert : CmdMap → Str → List Str → CmdMap
  | [], k, vs => [(k, vs)]
  | (k', vs') :: rest, k, vs =>
    if strLt k k' then (k, vs) :: (k', vs') :: rest
    else if strLt k' k then (k', vs') :: mapInsert rest k vs
    else (k', vs') :: rest

/-- `m[k].push_back(v)`: `operator[]` default-inserts an empty vector when the
key is absent, then `v` is appended to the vector under `k`. -/
def mapPushBack : CmdMap → Str → Str → CmdMap
  | [], k, v => [(k, [v])]
  | (k', vs') :: rest, k, v =>
    if strLt k k' then (k, [v]) :: (k', vs') :: rest
    else if strLt k' k then (k', vs') :: mapPushBack rest k v
    else (k', vs' ++ [v]) :: rest

/-- The keys of a table, in table order. -/
def mapKeys (m : CmdMap) : List Str := m.map Prod.fst

/-- Well-formedness of a table: the keys are strictly ascending (so no key
occurs twice), as in every `std::map`. -/
def mapSorted (m : CmdMap) : Prop := m.Pairwise (fun p q => strLt p.1 q.1 = true)

/-! ## `Getopt` -/

/-- The variables of the loop of `Getopt`: the table being built and `cur`,
the name of the current group (`""` when none is set). -/
structure GetoptState where
  retCmdValueMap : CmdMap
  cur : Str
deriving DecidableEq

/-- One iteration of the `while` loop of `Getopt` (main.cpp lines 135-164) on
the token `str = argv[ops++]`. -/
def GetoptStep (st : GetoptState) (str : Str) : GetoptState :=
  match str with
  | [] => st
  | c :: subStr =>
    if c = '-' then
      if 1 < str.length then
        if IsLetter subStr then
          { retCmdValueMap := mapInsert st.retCmdValueMap subStr [], cur := subStr }
        else if st.cur ≠ [] ∧ IsNumber str then
          { st with retCmdValueMap := mapPushBack st.retCmdValueMap st.cur str }
        else st
      else st
    else if st.cur ≠ [] then
      { st with retCmdValueMap := mapPushBack st.retCmdValueMap st.cur str }
    else st

/-- The loop of `Getopt` run over the tokens `argv[ops], argv[ops+1], ...`. -/
def GetoptLoop (st : GetoptState) (toks : List Str) : GetoptState :=
  toks.foldl GetoptStep st

/-- The state before the loop: empty table, `cur = ""`. -/
def GetoptInit : GetoptState := { retCmdValueMap := [], cur := [] }

/-- `Getopt(argc, argv)` (main.cpp lines 127-167), `argv` given as the list of
its `argc` strings: the loop starts at `ops = 1`, so `argv[0]` is skipped. -/
def Getopt (argv : List Str) : CmdMap :=
  (GetoptLoop GetoptInit argv.tail).retCmdValueMap

/-! ## Numeric conversions (`std::stoi`, `std::stod`) and their wrappers -/

/-- The white space `strtol` and `strtod` skip (`isspace` in the C locale). -/
def isSpaceChar (c : Char) : Bool :=
  c = ' ' || c = '\t' || c = '\n' || c = '\x0b' || c = '\x0c' || c = '\r'

/-- A decimal digit. -/
def isDigitChar (c : Char) : Bool := '0' ≤ c && c ≤ '9'

/-- A hexadecimal digit. -/
def isHexChar (c : Char) : Bool :=
  isDigitChar c || ('a' ≤ c && c ≤ 'f') || ('A' ≤ c && c ≤ 'F')

/-- The value of a hexadecimal (in particular of a decimal) digit. -/
def digitVal (c : Char) : Nat :=
  if 'a' ≤ c && c ≤ 'f' then c.toNat - 'a'.toNat + 10
  else if 'A' ≤ c && c ≤ 'F' then c.toNat - 'A'.toNat + 10
  else c.toNat - '0'.toNat

/-- The number a digit string accumulates to in base `b`, left to right. -/
def digitsVal (b : Nat) (ds : List Char) : Nat :=
  ds.foldl (fun acc c => b * acc + digitVal c) 0

/-- The optional sign in front of a number: whether it is `-`, and the rest. -/
def takeSign : Str → Bool × Str
  | '-' :: r => (true, r)
  | '+' :: r => (false, r)
  | s => (false, s)

/-- The least and the greatest `int`. -/
def INT_MIN : Int := -2147483648
def INT_MAX : Int := 2147483647

/-- `std::stoi(str)` (base 10, position not requested): leading white space is
skipped, an optional sign is read, then the longest run of digits; what follows
the digits is ignored. `none` stands for the exception thrown:
`invalid_argument` when there is no digit, `out_of_range` when the value is not
an `int`. -/
def stoi (str : Str) : Option Int :=
  let sb := takeSign (str.dropWhile isSpaceChar)
  let ds := sb.2.takeWhile isDigitChar
  if ds = [] then none
  else
    let v : Int := if sb.1 then -(digitsVal 10 ds : Int) else (digitsVal 10 ds : Int)
    if INT_MIN ≤ v ∧ v ≤ INT_MAX then some v else none

/-- `TryStoi` (main.cpp lines 205-215): the value of `stoi`, `0` when it throws. -/
def TryStoi (str : Str) : Int :=
  match stoi str with
  | some v => v
  | none => 0

/-- A `double`. A finite value is held as a rational number (the finite doubles
are the rationals that `roundQ` leaves unchanged); the two zeros are not
distinguished. -/
inductive Dbl where
  | fin (q : ℚ)
  | inf (neg : Bool)
  | nan
deriving DecidableEq

/-- Numerals denote finite doubles. -/
instance (n : Nat) : OfNat Dbl n := ⟨Dbl.fin n⟩

/-- An ASCII letter in lower case (other characters unchanged). -/
def lowerChar (c : Char) : Char :=
  if 'A' ≤ c && c ≤ 'Z' then Char.ofNat (c.toNat + 32) else c

/-- Whether `s` starts with the word `w` (given in lower case), case ignored. -/
def startsWithNoCase (w : Str) (s : Str) : Bool :=
  (s.take w.length).map lowerChar == w

/-- An exponent part `e[+-]digits` (`e` being one of the two marker characters
`lo`, `up`): its value, or `0` when the text does not start with a complete
exponent part (then nothing of it is read). -/
def exponentPart (lo up : Char) (s : Str) : Int :=
  match s with
  | [] => 0
  | c :: r =>
    if c = lo ∨ c = up then
      let sb := takeSign r
      let ds := sb.2.takeWhile isDigitChar
      if ds = [] then 0
      else if sb.1 then -(digitsVal 10 ds : Int) else (digitsVal 10 ds : Int)
    else 0

/-- A mantissa whose digits satisfy `isDig`: the digits before the point, the
digits after it (none when no point follows the first digits) and the text
that follows the mantissa. -/
def mantissa (isDig : Char → Bool) (s : Str) : List Char × List Char × Str :=
  let ip := s.takeWhile isDig
  let r := s.dropWhile isDig
  match r with
  | c :: r2 =>
    if c = '.' then (ip, r2.takeWhile isDig, r2.dropWhile isDig) else (ip, [], r)
  | [] => (ip, [], [])

/-- A hexadecimal floating literal `0x h.h p±d` at the start of the text: its
value, or `none` when the text does not start with `0x` followed by a
hexadecimal digit sequence. -/
def readHex (s : Str) : Option ℚ :=
  match s with
  | c0 :: x :: r =>
    if c0 = '0' ∧ (x = 'x' ∨ x = 'X') then
      let m := mantissa isHexChar r
      if m.1 ++ m.2.1 = [] then none
      else some ((digitsVal 16 (m.1 ++ m.2.1) : ℚ)
                  * (2 : ℚ) ^ (exponentPart 'p' 'P' m.2.2 - 4 * (m.2.1.length : Int)))
    else none
  | _ => none

/-- A decimal floating literal `d.d e±d` at the start of the text: its value,
or `none` when there is no digit. -/
def readDecimal (s : Str) : Option ℚ :=
  let m := mantissa isDigitChar s
  if m.1 ++ m.2.1 = [] then none
  else some ((digitsVal 10 (m.1 ++ m.2.1) : ℚ)
              * (10 : ℚ) ^ (exponentPart 'e' 'E' m.2.2 - (m.2.1.length : Int)))

/-- The finite number read by `strtod` from text that is neither an infinity nor
a NaN: a hexadecimal floating literal when the text starts with one, else a
decimal floating literal; `none` when there is no digit. -/
def readFinite (s : Str) : Option ℚ :=
  match readHex s with
  | some v => some v
  | none => readDecimal s

/-- The integer nearest to `x`; of the two integers equally near, the even one. -/
def roundHalfEven (x : ℚ) : Int :=
  if x - Int.floor x < 1 / 2 then Int.floor x
  else if 1 / 2 < x - Int.floor x then Int.floor x + 1
  else if Int.floor x % 2 = 0 then Int.floor x else Int.floor x + 1

/-- Binary search for an exponent: the greatest `e` in `[lo, lo + 2^k)` with
`2^e ≤ q`, and `lo` when there is none. -/
def expSearch (q : ℚ) : Nat → Int → Int
  | 0, lo => lo
  | k + 1, lo =>
    if (2 : ℚ) ^ (lo + 2 ^ k) ≤ q then expSearch q k (lo + 2 ^ k) else expSearch q k lo

/-- The binary exponent of the doubles around `q`: the `e` with
`2^e ≤ |q| < 2^(e+1)`, and the least exponent `-1022` when `|q|` is smaller
(the subnormal doubles share the exponent of the least normal ones). -/
def binade (q : ℚ) : Int := expSearch |q| 11 (-1022)

/-- The distance between neighbouring doubles around `q` (53 significant bits). -/
def ulp (q : ℚ) : ℚ := (2 : ℚ) ^ (binade q - 52)

/-- The value `q` rounded to the nearest multiple of `ulp q`, ties to the even
multiple: round-to-nearest-even at binary64 precision, exponent unbounded
above. -/
def roundQ (q : ℚ) : ℚ := roundHalfEven (q / ulp q) * ulp q

/-- The magnitude from which a value rounds to infinity (`DBL_MAX` plus half a
unit in its last place), and the least normal magnitude (`DBL_MIN`). -/
def dblOverflow : ℚ := 2 ^ 1024 - 2 ^ 970
def dblMinNormal : ℚ := 1 / 2 ^ 1022

/-- The double nearest to `q` (IEEE 754 binary64, round to nearest, ties to
even): an infinity from `dblOverflow` on. -/
def binary64 (q : ℚ) : Dbl :=
  if dblOverflow ≤ |q| then Dbl.inf (decide (q < 0))
  else Dbl.fin (if q < 0 then -roundQ (-q) else roundQ q)

/-- Whether `strtod` reports a range error (`ERANGE`) for the exact
magnitude `q` it has read, which makes `stod` throw `out_of_range`. An overflow
is always reported. Whether an underflow is reported is left to the C library:
the rule here is that of the GNU C library on x86-64, which reports it when
the result is inexact and tiny, that is, when `q` rounded to 53 bits with an
unbounded exponent is still below `DBL_MIN`. -/
def dblRangeError (q : ℚ) : Bool :=
  dblOverflow ≤ |q| || (|q| < dblMinNormal - 1 / 2 ^ 1076 && roundQ |q| != |q|)

/-- The values for which no C library reports a range error: zero and the
magnitudes in the range of the normal doubles. -/
def dblInRange (q : ℚ) : Bool :=
  q = 0 || (dblMinNormal ≤ |q| && |q| < dblOverflow)

/-- `std::stod(str)` (position not requested): leading white space is skipped,
an optional sign is read, then the longest text that is an infinity (`inf`,
`infinity`), a NaN (`nan`), or a hexadecimal or decimal floating literal; what
follows is ignored. The result is the double nearest to the number read.
`none` stands for the exception thrown: `invalid_argument` when no number can
be read, `out_of_range` on a range error. -/
def stod (str : Str) : Option Dbl :=
  let sb := takeSign (str.dropWhile isSpaceChar)
  if startsWithNoCase ['i', 'n', 'f'] sb.2 then some (Dbl.inf sb.1)
  else if startsWithNoCase ['n', 'a', 'n'] sb.2 then some Dbl.nan
  else
    match readFinite sb.2 with
    | none => none
    | some v =>
      if dblRangeError v then none else some (binary64 (if sb.1 then -v else v))

/-- `TryStod` (main.cpp lines 217-227): the value of `stod`, `0.0` when it throws. -/
def TryStod (str : Str) : Dbl :=
  match stod str with
  | some v => v
  | none => Dbl.fin 0

/-- The implicit conversion `double -> uint8_t` of an assignment
`new_bgra[i] = TryStod(..)`: the fractional part is discarded; the language
defines the result only when the truncated value is one of `0..255`, and
`none` stands for a conversion it leaves undefined. -/
def toUint8 : Dbl → Option Nat
  | Dbl.fin q =>
    let t : Int := Int.tdiv q.num q.den
    if 0 ≤ t ∧ t ≤ 255 then some t.toNat else none
  | _ => none

/-! ## The scene configuration and `InitGlobalParam` -/

/-- A `vec3`: three doubles, indexed `[0]`, `[1]`, `[2]`. -/
structure Vec3 where
  x : Dbl
  y : Dbl
  z : Dbl
deriving DecidableEq

/-- The `vector<uint8_t> new_bgra(4, 0)`: four bytes, indexed `[0]` to `[3]`
(blue, green, red, alpha). An entry is `none` when it was assigned from a
conversion the language leaves undefined (see `toUint8`). -/
structure Bgra where
  b : Option Nat
  g : Option Nat
  r : Option Nat
  a : Option Nat
deriving DecidableEq

/-- The global scene configuration (main.cpp lines 29-41). -/
structure Globals where
  obj : Str
  width : Int
  height : Int
  light_dir : Vec3
  eye : Vec3
  center : Vec3
  up : Vec3
  new_bgra : Bgra
deriving DecidableEq

/-- The globals at program start: `obj = ""`, the numbers zero-initialised,
`new_bgra(4, 0)`. -/
def Globals.init : Globals :=
  { obj := [], width := 0, height := 0,
    light_dir := ⟨0, 0, 0⟩, eye := ⟨0, 0, 0⟩, center := ⟨0, 0, 0⟩, up := ⟨0, 0, 0⟩,
    new_bgra := ⟨some 0, some 0, some 0, some 0⟩ }

/-- `Cmds[k][i]` for an index the size test has shown to be in range. -/
def idx (vs : List Str) (i : Nat) : Str := vs.getD i []

/-- One of the eight blocks of `InitGlobalParam`, for the group `k` of arity
`n`: when `Cmds.end() != Cmds.find(k)` and `n == Cmds[k].size()` the block
assigns its globals from the value list (`assign`) and sets its flag; otherwise
the globals are untouched and the flag stays `false`. -/
def initGroup (Cmds : CmdMap) (k : Str) (n : Nat)
    (assign : List Str → Globals → Globals) (g : Globals) : Bool × Globals :=
  match mapFind Cmds k with
  | some vs => if n = vs.length then (true, assign vs g) else (false, g)
  | none => (false, g)

/-- The three assignments `v[0] = TryStod(Cmds[k][0])`, `v[1] = ..`, `v[2] = ..`. -/
def readVec3 (vs : List Str) : Vec3 :=
  ⟨TryStod (idx vs 0), TryStod (idx vs 1), TryStod (idx vs 2)⟩

/-- The four assignments `new_bgra[i] = TryStod(Cmds["new_bgra"][i])`, each
converting the `double` to `uint8_t`. -/
def readBgra (vs : List Str) : Bgra :=
  ⟨toUint8 (TryStod (idx vs 0)), toUint8 (TryStod (idx vs 1)),
   toUint8 (TryStod (idx vs 2)), toUint8 (TryStod (idx vs 3))⟩

/-- `InitGlobalParam` (main.cpp lines 242-330): the eight blocks in source
order, each working on the globals the previous one left. The result is the
returned conjunction of the eight flags, and the globals after the call. -/
def InitGlobalParam (Cmds : CmdMap) (g : Globals) : Bool × Globals :=
  let r0 := initGroup Cmds "obj".toList 1 (fun vs g => { g with obj := idx vs 0 }) g
  let r1 := initGroup Cmds "width".toList 1
    (fun vs g => { g with width := TryStoi (idx vs 0) }) r0.2
  let r2 := initGroup Cmds "height".toList 1
    (fun vs g => { g with height := TryStoi (idx vs 0) }) r1.2
  let r3 := initGroup Cmds "light_dir".toList 3
    (fun vs g => { g with light_dir := readVec3 vs }) r2.2
  let r4 := initGroup Cmds "eye".toList 3 (fun vs g => { g with eye := readVec3 vs }) r3.2
  let r5 := initGroup Cmds "center".toList 3
    (fun vs g => { g with center := readVec3 vs }) r4.2
  let r6 := initGroup Cmds "up".toList 3 (fun vs g => { g with up := readVec3 vs }) r5.2
  let r7 := initGroup Cmds "new_bgra".toList 4
    (fun vs g => { g with new_bgra := readBgra vs }) r6.2
  (r0.1 && r1.1 && r2.1 && r3.1 && r4.1 && r5.1 && r6.1 && r7.1, r7.2)

/-- The table holds the key `k` with a value list of exactly `n` entries. -/
def hasGroup (Cmds : CmdMap) (k : Str) (n : Nat) : Prop :=
  ∃ vs, mapFind Cmds k = some vs ∧ vs.length = n

/-- The value list of the group `k` when the table holds it with exactly `n`
entries (the group is accepted), `none` when the key is missing or has another
number of values. -/
def acceptedGroup (Cmds : CmdMap) (k : Str) (n : Nat) : Option (List Str) :=
  match mapFind Cmds k with
  | some vs => if vs.length = n then some vs else none
  | none => none

/-- The eight required groups with their arities (the menu of `ShowMenu`,
main.cpp lines 370-377). -/
def requiredGroups : List (Str × Nat) :=
  [("obj".toList, 1), ("width".toList, 1), ("height".toList, 1),
   ("light_dir".toList, 3), ("eye".toList, 3), ("center".toList, 3),
   ("up".toList, 3), ("new_bgra".toList, 4)]

/-- Parameter acquisition as `main` performs it (main.cpp lines 91-95):
`Getopt` on the arguments, then `InitGlobalParam` on its table, starting from
the globals `g`. -/
def acquire (argv : List Str) (g : Globals) : Bool × Globals :=
  InitGlobalParam (Getopt argv) g

/-- The program's argument vector for the tokens `args`: a program name
`argv[0]`, which `Getopt` skips, then the tokens. -/
def withProg (prog : Str) (args : List Str) : List Str := prog :: args

/-! ## `CreateTgaFiles` and `main` -/

/-- `s.find_last_of(".")`: the index of the last `.` of `s`, `none` for `npos`. -/
def find_last_of_dot : Str → Option Nat
  | [] => none
  | c :: rest =>
    match find_last_of_dot rest with
    | some i => some (i + 1)
    | none => if c = '.' then some 0 else none

/-- `CreateTgaFiles` (main.cpp lines 380-409), as the list of the file names it
opens, in order. The function reads the global `obj`, not its parameter; it
returns before opening anything when `obj` has no `.`; otherwise each name is
`obj.substr(0, dot)` followed by a fixed suffix. (On that second path the
function ends without a `return`, see `CreateTgaFilesReturns`.) -/
def CreateTgaFiles (_filename : Str) (obj : Str) : List Str :=
  match find_last_of_dot obj with
  | none => []
  | some dot =>
    [obj.take dot ++ "_diffuse.tga".toList, obj.take dot ++ "_nm_tangent.tga".toList,
     obj.take dot ++ "_spec.tga".toList]

/-- What a run depends on besides the arguments: the number of faces the mesh
provider reports for a path, whether the constructor of the external image
buffer returns for a width and a height (it may throw, for instance
`std::bad_alloc`), and whether the memory for a depth buffer of a given number
of doubles can be allocated. -/
structure Env where
  nfaces : Str → Nat
  framebufferOk : Int → Int → Bool
  zbufferOk : Int → Bool

/-- An environment in which every model has one face, the constructor of the
image buffer always returns and every depth buffer can be allocated. -/
def Env.ok : Env :=
  { nfaces := fun _ => 1, framebufferOk := fun _ _ => true, zbufferOk := fun _ => true }

/-- The final component of a path: what follows its last `/`. -/
def finalComponent : Str → Str
  | [] => []
  | c :: rest =>
    if c = '/' then finalComponent rest
    else if rest.contains '/' then finalComponent rest
    else c :: rest

/-- The base name the placeholder files are documented to carry: the path with
the extension of its final path component removed (the whole path when that
component has no `.`). The final component starts after the last `/`. -/
def baseName : Str → Str
  | [] => []
  | c :: rest =>
    if c = '/' then c :: baseName rest
    else if rest.contains '/' then c :: baseName rest
    else
      match find_last_of_dot (c :: rest) with
      | some dot => (c :: rest).take dot
      | none => c :: rest

/-! ## The shading stages

The geometry of the shading stages (the vertex stage, the matrix of the
tangent basis, the diffuse term of unit vectors) is taken in an ordered field
`K` (the reals, or the rationals, which hold every finite `double`): sums and
products are exact, rounding is not modelled. The colour computation of the
fragment stage is given on doubles further down. Vectors are functions on
`Fin n`, and a `mat<nrows, ncols>` is a `Matrix` whose entry `M i j` is
`M[i][j]`. -/

/-- A `vec2`. -/
abbrev vec2 (K : Type) := Fin 2 → K

/-- A `vec3` of the shading stages. -/
abbrev vec3 (K : Type) := Fin 3 → K

/-- A `vec4`. -/
abbrev vec4 (K : Type) := Fin 4 → K

/-- A `mat<nrows, ncols>`. -/
abbrev mat (nrows ncols : Nat) (K : Type) := Matrix (Fin nrows) (Fin ncols) K

/-- `M.col(idx)`: the column `idx` of a matrix. -/
def col {K : Type} {nrows ncols : Nat} (M : mat nrows ncols K) (idx : Fin ncols) :
    Fin nrows → K :=
  fun i => M i idx

/-- `M.set_col(idx, v)`: the matrix with `v` in column `idx` and its other
columns as they were. -/
def set_col {K : Type} {nrows ncols : Nat} (M : mat nrows ncols K) (idx : Fin ncols)
    (v : Fin nrows → K) : mat nrows ncols K :=
  fun i j => if j = idx then v i else M i j

/-- `embed<4>(v, fill)`: the vector with `fill` as fourth component. -/
def embed4 {K : Type} (v : vec3 K) (fill : K) : vec4 K := ![v 0, v 1, v 2, fill]

/-- `proj<3>(v)`: the first three components. -/
def proj3 {K : Type} (v : vec4 K) : vec3 K := ![v 0, v 1, v 2]

/-- The accessors of the mesh provider the vertex stage reads, by face index
and vertex index within the face. -/
structure Model (K : Type) where
  uv : Int → Fin 3 → vec2 K
  normal : Int → Fin 3 → vec3 K
  vert : Int → Fin 3 → vec3 K

/-- The state of a `Shader` (main.cpp lines 45-48). -/
structure Shader (K : Type) where
  uniform_l : vec3 K
  varying_uv : mat 2 3 K
  varying_nrm : mat 3 3 K
  view_tri : mat 3 3 K

/-- `Shader::vertex(iface, nthvert, gl_Position)` (main.cpp lines 54-60): the
shader state after the call and the clip-space position it leaves in
`gl_Position`. `ModelView` and `Projection` are the global matrices and
`invert_transpose` the matrix operation of that name; `nthvert` is one of
0, 1, 2, as in every call `main` makes. -/
def vertex {K : Type} [Field K] (model : Model K) (ModelView Projection : mat 4 4 K)
    (invert_transpose : mat 4 4 K → mat 4 4 K) (sh : Shader K) (iface : Int)
    (nthvert : Fin 3) : Shader K × vec4 K :=
  let varying_uv := set_col sh.varying_uv nthvert (model.uv iface nthvert)
  let varying_nrm := set_col sh.varying_nrm nthvert
    (proj3 (Matrix.mulVec (invert_transpose ModelView) (embed4 (model.normal iface nthvert) 0)))
  let gl_Position := Matrix.mulVec ModelView (embed4 (model.vert iface nthvert) 1)
  let view_tri := set_col sh.view_tri nthvert (proj3 gl_Position)
  ({ uniform_l := sh.uniform_l, varying_uv := varying_uv, varying_nrm := varying_nrm,
     view_tri := view_tri },
   Matrix.mulVec Projection gl_Position)

/-- The three calls `vertex(iface, 0, _)`, `vertex(iface, 1, _)`,
`vertex(iface, 2, _)` that `main` makes before it calls `triangle` (main.cpp
lines 115-116): the shader state they leave. -/
def vertexStage {K : Type} [Field K] (model : Model K) (ModelView Projection : mat 4 4 K)
    (invert_transpose : mat 4 4 K → mat 4 4 K) (sh : Shader K) (iface : Int) : Shader K :=
  let s0 := (vertex model ModelView Projection invert_transpose sh iface 0).1
  let s1 := (vertex model ModelView Projection invert_transpose s0 iface 1).1
  (vertex model ModelView Projection invert_transpose s1 iface 2).1

/-- The product `a*b` of two `vec3`: their dot product. -/
def dot {K : Type} [Field K] (a b : vec3 K) : K := a 0 * b 0 + a 1 * b 1 + a 2 * b 2

/-- The cross product of two `vec3`. -/
def cross {K : Type} [Field K] (a b : vec3 K) : vec3 K :=
  ![a 1 * b 2 - a 2 * b 1, a 2 * b 0 - a 0 * b 2, a 0 * b 1 - a 1 * b 0]

/-- The matrix the fragment stage inverts (main.cpp line 68): its rows are
`view_tri.col(1) - view_tri.col(0)`, `view_tri.col(2) - view_tri.col(0)` and
the interpolated normal `bn`. -/
def tangentMatrix {K : Type} [Field K] (view_tri : mat 3 3 K) (bn : vec3 K) : mat 3 3 K :=
  Matrix.of ![col view_tri 1 - col view_tri 0, col view_tri 2 - col view_tri 0, bn]

/-- Three positions on one line (two of them may coincide). -/
def collinear3 {K : Type} [Field K] (p0 p1 p2 : vec3 K) : Prop :=
  cross (p1 - p0) (p2 - p0) = 0

/-- Three texture coordinates on one line. -/
def collinear2 {K : Type} [Field K] (u0 u1 u2 : vec2 K) : Prop :=
  (u1 0 - u0 0) * (u2 1 - u0 1) - (u1 1 - u0 1) * (u2 0 - u0 0) = 0

/-- The diffuse term `std::max(0., n*uniform_l)` (main.cpp line 74). -/
def diffuseTerm {K : Type} [LinearOrderedField K] (n l : vec3 K) : K := max 0 (dot n l)

/-- The number `x` with its fractional part discarded (rounding toward 0). -/
def trunc {K : Type} [LinearOrderedField K] [FloorRing K] (x : K) : Int :=
  if 0 ≤ x then Int.floor x else Int.ceil x

/-- The value `clamp(t, lo, hi)`: `t` brought into `[lo, hi]`. -/
def clamp (t lo hi : Int) : Int := if t < lo then lo else if hi < t then hi else t

/-- The conversion `int -> uint8_t` of the assignment to a colour channel. -/
def intToUint8 (t : Int) : Nat := (t % 256).toNat

/-! ### The colour computation in double arithmetic

The lines 74 to 80 of the fragment stage on doubles (IEEE 754 binary64): a
finite result is rounded to the nearest double, an operation on a NaN gives a
NaN, and a comparison with a NaN is false. -/

/-- The comparison `a < b` of two doubles: false when one of them is a NaN. -/
def Dbl.lt : Dbl → Dbl → Bool
  | Dbl.fin a, Dbl.fin b => decide (a < b)
  | Dbl.fin _, Dbl.inf neg => !neg
  | Dbl.inf neg, Dbl.fin _ => neg
  | Dbl.inf a, Dbl.inf b => a && !b
  | _, _ => false

/-- The comparison `a <= b` of two doubles: false when one of them is a NaN. -/
def Dbl.le : Dbl → Dbl → Bool
  | Dbl.fin a, Dbl.fin b => decide (a ≤ b)
  | Dbl.fin _, Dbl.inf neg => !neg
  | Dbl.inf neg, Dbl.fin _ => neg
  | Dbl.inf a, Dbl.inf b => a || !b
  | _, _ => false

/-- `std::max(a, b)`, which is `(a < b) ? b : a`: when the comparison is false
because of a NaN, the first argument is returned. -/
def stdMax (a b : Dbl) : Dbl := if Dbl.lt a b then b else a

/-- The negation `-a` of a double. -/
def Dbl.neg : Dbl → Dbl
  | Dbl.fin q => Dbl.fin (-q)
  | Dbl.inf neg => Dbl.inf (!neg)
  | Dbl.nan => Dbl.nan

/-- The sum `a + b` of two doubles. -/
def Dbl.add : Dbl → Dbl → Dbl
  | Dbl.fin a, Dbl.fin b => binary64 (a + b)
  | Dbl.fin _, Dbl.inf neg => Dbl.inf neg
  | Dbl.inf neg, Dbl.fin _ => Dbl.inf neg
  | Dbl.inf a, Dbl.inf b => if a = b then Dbl.inf a else Dbl.nan
  | _, _ => Dbl.nan

/-- The product `a * b` of two doubles. -/
def Dbl.mul : Dbl → Dbl → Dbl
  | Dbl.fin a, Dbl.fin b => binary64 (a * b)
  | Dbl.fin a, Dbl.inf neg => if a = 0 then Dbl.nan else Dbl.inf (xor (decide (a < 0)) neg)
  | Dbl.inf neg, Dbl.fin b => if b = 0 then Dbl.nan else Dbl.inf (xor neg (decide (b < 0)))
  | Dbl.inf a, Dbl.inf b => Dbl.inf (xor a b)
  | _, _ => Dbl.nan

/-- The quotient `a / b` of two doubles (the sign of a zero divisor is not
modelled: a non-zero value divided by zero is taken as the infinity of the
sign of the dividend). -/
def Dbl.div : Dbl → Dbl → Dbl
  | Dbl.fin a, Dbl.fin b =>
    if b = 0 then (if a = 0 then Dbl.nan else Dbl.inf (decide (a < 0))) else binary64 (a / b)
  | Dbl.fin _, Dbl.inf _ => Dbl.fin 0
  | Dbl.inf neg, Dbl.fin b => Dbl.inf (xor neg (decide (b < 0)))
  | _, _ => Dbl.nan

/-- `std::pow(base, n)` for a positive whole exponent `n`: a NaN for a NaN
base. The value the library returns for a finite base is given by `pw` (its
accuracy is left to the library). -/
def stdPow (pw : ℚ → Nat → Dbl) : Dbl → Nat → Dbl
  | Dbl.fin q, n => pw q n
  | Dbl.inf neg, n => Dbl.inf (neg && decide (n % 2 = 1))
  | Dbl.nan, _ => Dbl.nan

/-- A library `pow` that rounds correctly: the double nearest to `q ^ n`. -/
def powRounded (q : ℚ) (n : Nat) : Dbl := binary64 (q ^ n)

/-- The diffuse term `diff = std::max(0., n*uniform_l)` (main.cpp line 74) on
doubles, `nl` being the value of `n*uniform_l`. -/
def diff (nl : Dbl) : Dbl := stdMax (Dbl.fin 0) nl

/-- The specular term `spec = std::pow(std::max(-r.z, 0.), 5 + s)` (main.cpp
line 76) on doubles, `rz` being `r.z` and `s` the channel 0 of the specular
map sample, a byte. -/
def spec (pw : ℚ → Nat → Dbl) (rz : Dbl) (s : Nat) : Dbl :=
  stdPow pw (stdMax (Dbl.neg rz) (Dbl.fin 0)) (5 + s)

/-- The double `10 + c[i]*(diff + spec)` of main.cpp line 80, `c` being the
byte of the diffuse map (the `int`s `c[i]` and `10` are converted to
`double` exactly). -/
def channelValue (c : Nat) (d s : Dbl) : Dbl :=
  Dbl.add (Dbl.fin 10) (Dbl.mul (Dbl.fin c) (Dbl.add d s))

/-- The conversion `double -> int`: the fractional part is discarded; the
language defines the result only for a finite value whose truncation is an
`int`, and `none` stands for a conversion it leaves undefined. -/
def toInt : Dbl → Option Int
  | Dbl.fin q => if INT_MIN ≤ trunc q ∧ trunc q ≤ INT_MAX then some (trunc q) else none
  | _ => none

/-- One channel of the fragment colour (main.cpp line 80):
`gl_FragColor[i] = std::min<int>(10 + c[i]*(diff + spec), 255)`. The `double`
is converted to `int` for `std::min<int>` and the result to `uint8_t` by the
assignment; `none` when the conversion to `int` is undefined. -/
def fragColorChannel (c : Nat) (d s : Dbl) : Option Nat :=
  match toInt (channelValue c d s) with
  | some t => some (intToUint8 (min t 255))
  | none => none

/-- The relation `bn = v.normalized()`: `bn` is the unit vector in the
direction of `v`. -/
def isNormalized {K : Type} [LinearOrderedField K] (v bn : vec3 K) : Prop :=
  dot bn bn = 1 ∧ ∃ k : K, 0 < k ∧ v = k • bn

/-- A mesh of one face with the positions (0,0,0), (1,0,0), (0,1,0), the
texture coordinates (0,0), (1,0), (0,1), and at each of its three vertices the
normal (1,0,0), a direction in the plane of the face. -/
def inPlaneNormalModel : Model ℚ where
  uv := fun _ k => ![![0, 0], ![1, 0], ![0, 1]] k
  normal := fun _ _ => ![1, 0, 0]
  vert := fun _ k => ![![0, 0, 0], ![1, 0, 0], ![0, 1, 0]] k

/-- The shader state after the vertex stage on the face of
`inPlaneNormalModel`, with the identity as `ModelView` (the inverse transpose
of the identity is the identity) and as `Projection`. -/
def inPlaneNormalShader : Shader ℚ :=
  vertexStage inPlaneNormalModel 1 1 (fun _ => 1)
    { uniform_l := ![0, 0, 1], varying_uv := 0, varying_nrm := 0, view_tri := 0 } 0

/-! ## Vocabulary of the claims about `Getopt` -/

/-- A group-starting token: `-` followed by one or more characters that are
all letters, `.` or `_`. -/
def isGroupStart : Str → Bool
  | [] => false
  | c :: name => c = '-' && name ≠ [] && name.all isLetterChar

/-- A token that is stored as a value when a group is current: a non-empty
token that does not begin with `-`, or a token of two or more characters that
begins with `-` and has only digits and `-` characters. -/
def isStoredValue : Str → Bool
  | [] => false
  | c :: rest => if c = '-' then rest ≠ [] && (c :: rest).all isNumberChar else true

/-- A signed integer literal: an optional single leading minus followed by one
or more digits. -/
def isSignedIntLit : Str → Bool
  | '-' :: ds => ds ≠ [] && ds.all isDigitChar
  | ds => ds ≠ [] && ds.all isDigitChar

/-- The names of the groups started in a token list, in order of occurrence. -/
def flagNames (toks : List Str) : List Str :=
  (toks.filter isGroupStart).map List.tail

/-- The group named by the last group-starting token of a token list. -/
def lastGroup (toks : List Str) : Option Str :=
  (flagNames toks).getLast?

/-- The value tokens of the group `k` in a token list read with `cur` as the
current group at its start: the stored-value tokens met while `k` is the
current group, in argument order. -/
def groupValues (k : Str) : Str → List Str → List Str
  | _, [] => []
  | cur, tok :: rest =>
    if isGroupStart tok then groupValues k tok.tail rest
    else if cur ≠ [] ∧ cur = k ∧ isStoredValue tok then tok :: groupValues k cur rest
    else groupValues k cur rest

/-- A reachable loop state of `Getopt`: the table is well-formed and the
current group, when one is set, is a key of the table. -/
def GetoptState.wf (st : GetoptState) : Prop :=
  mapSorted st.retCmdValueMap ∧
    (st.cur ≠ [] → (mapFind st.retCmdValueMap st.cur).isSome = true)

/-- A flag block: a group name and the tokens that follow its flag. -/
abbrev Block := Str × List Str

/-- The tokens of a list of flag blocks: for each block the flag `-name`, then
its tokens. -/
def blockTokens (bs : List Block) : List Str :=
  bs.flatMap (fun b => ('-' :: b.1) :: b.2)

/-- A list of flag blocks as the claims mean it: every flag is a
group-starting token, no token after a flag is itself group-starting, and the
flag names are pairwise distinct. -/
def blocksOk (bs : List Block) : Prop :=
  (∀ b ∈ bs, isGroupStart ('-' :: b.1) = true ∧ ∀ t ∈ b.2, isGroupStart t = false) ∧
    (bs.map Prod.fst).Nodup

/-- The value tokens the blocks named `k` contribute: their stored-value
tokens, in argument order. -/
def blockValues (k : Str) (bs : List Block) : List Str :=
  (bs.filter (fun b => b.1 = k)).flatMap (fun b => b.2.filter isStoredValue)

/-! ## Vocabulary of the claims about numeric literals -/

/-- A digit string: one or more decimal digits. -/
def isDigits (ds : Str) : Bool := ds ≠ [] && ds.all isDigitChar

/-- The natural number a digit string denotes in decimal positional notation. -/
def decimalValue (ds : Str) : Nat :=
  Nat.ofDigits 10 ((ds.map (fun c => c.toNat - '0'.toNat)).reverse)

/-- A decimal integer literal: an optional minus sign and a digit string. -/
structure IntLit where
  neg : Bool
  digits : Str

/-- The text of an integer literal. -/
def IntLit.token (l : IntLit) : Str := if l.neg then '-' :: l.digits else l.digits

/-- The integer an integer literal denotes. -/
def IntLit.value (l : IntLit) : Int :=
  if l.neg then -(decimalValue l.digits : Int) else (decimalValue l.digits : Int)

/-- The text of an optional sign: none, `-` (`some true`) or `+` (`some false`). -/
def signText : Option Bool → Str
  | none => []
  | some true => ['-']
  | some false => ['+']

/-- The exponent part of a decimal floating literal: the letter `e` or `E`, an
optional sign and a digit string. -/
structure ExpLit where
  upper : Bool
  sign : Option Bool
  digits : Str

/-- The text of an exponent part. -/
def ExpLit.text (x : ExpLit) : Str :=
  (if x.upper then 'E' else 'e') :: (signText x.sign ++ x.digits)

/-- The integer an exponent part denotes. -/
def ExpLit.value (x : ExpLit) : Int :=
  if x.sign = some true then -(decimalValue x.digits : Int) else (decimalValue x.digits : Int)

/-- A decimal floating literal: an optional sign, the digits before the point,
whether there is a point, the digits after it, and an optional exponent part
(`-1`, `0.5`, `.5`, `5.`, `+2`, `1e3`, `2.5E-3`). -/
structure DecLit where
  sign : Option Bool
  intPart : Str
  point : Bool
  fracPart : Str
  exp : Option ExpLit

/-- The text of the exponent part of a literal (empty when it has none). -/
def DecLit.expText (l : DecLit) : Str :=
  match l.exp with
  | none => []
  | some x => x.text

/-- The exponent of a literal (0 when it has no exponent part). -/
def DecLit.expValue (l : DecLit) : Int :=
  match l.exp with
  | none => 0
  | some x => x.value

/-- The text of a decimal literal. -/
def DecLit.token (l : DecLit) : Str :=
  signText l.sign ++ l.intPart ++ (if l.point then '.' :: l.fracPart else []) ++ l.expText

/-- The magnitude a decimal literal denotes. -/
def DecLit.magnitude (l : DecLit) : ℚ :=
  ((decimalValue l.intPart : ℚ) + (decimalValue l.fracPart : ℚ) / 10 ^ l.fracPart.length)
    * (10 : ℚ) ^ l.expValue

/-- The number a decimal literal denotes. -/
def DecLit.value (l : DecLit) : ℚ :=
  if l.sign = some true then -l.magnitude else l.magnitude

/-- A well-formed decimal literal: digits only in its parts, at least one
digit before or after the point, digits after the point only when there is a
point, and at least one digit in the exponent part. -/
def DecLit.wf (l : DecLit) : Bool :=
  l.intPart.all isDigitChar && l.fracPart.all isDigitChar &&
  decide (l.intPart ++ l.fracPart ≠ []) && (l.point || decide (l.fracPart = [])) &&
  (match l.exp with
   | none => true
   | some x => isDigits x.digits)

/-- Text that cannot continue a number: it is empty or its first character is
none of a digit, `.`, `e`, `E`, `x`, `X`. -/
def endsNumber (rest : Str) : Bool :=
  match rest with
  | [] => true
  | c :: _ => !(isDigitChar c || c = '.' || c = 'e' || c = 'E' || c = 'x' || c = 'X')

/-- Text with no digit at its start: it is empty or its first character is not
a digit. -/
def noDigitAhead (s : Str) : Bool :=
  match s with
  | [] => true
  | c :: _ => !isDigitChar c

/-- Text that starts no number for `stod` once white space and sign are read:
it is empty or its first character is neither a digit, nor `.`, nor the first
letter of `inf` or `nan` in either case. -/
def noFloatAhead (s : Str) : Bool :=
  match s with
  | [] => true
  | c :: _ => !(isDigitChar c || c = '.' || c = 'i' || c = 'I' || c = 'n' || c = 'N')

/-- Text that is neither white space nor a sign at its start. -/
def noSpaceOrSignAhead (s : Str) : Bool :=
  match s with
  | [] => true
  | c :: _ => !(isSpaceChar c || c = '-' || c = '+')

/-- An integer literal that `stoi` converts without a range error. -/
def IntLit.ok (l : IntLit) : Prop :=
  isDigits l.digits = true ∧ INT_MIN ≤ l.value ∧ l.value ≤ INT_MAX

instance (l : IntLit) : Decidable l.ok :=
  inferInstanceAs (Decidable (isDigits l.digits = true ∧ INT_MIN ≤ l.value ∧ l.value ≤ INT_MAX))

/-- A decimal literal that `Getopt` stores and `stod` converts without a range
error: well-formed; when it begins with `-`, made of `-` and digits only (no
point, no exponent part); and zero or in the range of the normal doubles. -/
def DecLit.ok (l : DecLit) : Prop :=
  l.wf = true ∧ (l.sign = some true → l.point = false ∧ l.exp.isNone = true) ∧
  dblInRange l.magnitude = true

instance (l : DecLit) : Decidable l.ok :=
  inferInstanceAs (Decidable
    (l.wf = true ∧ (l.sign = some true → l.point = false ∧ l.exp.isNone = true) ∧
     dblInRange l.magnitude = true))

/-- The three literals of a vector-valued group. -/
structure VecLit where
  x : DecLit
  y : DecLit
  z : DecLit

/-- The three components are literals `Getopt` stores and `stod` converts. -/
def VecLit.ok (v : VecLit) : Prop := v.x.ok ∧ v.y.ok ∧ v.z.ok

instance (v : VecLit) : Decidable v.ok :=
  inferInstanceAs (Decidable (v.x.ok ∧ v.y.ok ∧ v.z.ok))

/-- The value tokens of a vector-valued group, in argument order. -/
def VecLit.tokens (v : VecLit) : List Str := [v.x.token, v.y.token, v.z.token]

/-- The four digit strings of the group `new_bgra`. -/
structure ColorLit where
  b : Str
  g : Str
  r : Str
  a : Str

/-- Each channel is a digit string that denotes a number in `0..255`. -/
def ColorLit.ok (c : ColorLit) : Prop :=
  (isDigits c.b = true ∧ decimalValue c.b ≤ 255) ∧
  (isDigits c.g = true ∧ decimalValue c.g ≤ 255) ∧
  (isDigits c.r = true ∧ decimalValue c.r ≤ 255) ∧
  (isDigits c.a = true ∧ decimalValue c.a ≤ 255)

instance (c : ColorLit) : Decidable c.ok :=
  inferInstanceAs (Decidable
    ((isDigits c.b = true ∧ decimalValue c.b ≤ 255) ∧
     (isDigits c.g = true ∧ decimalValue c.g ≤ 255) ∧
     (isDigits c.r = true ∧ decimalValue c.r ≤ 255) ∧
     (isDigits c.a = true ∧ decimalValue c.a ≤ 255)))

/-- The value tokens of the group `new_bgra`, in argument order. -/
def ColorLit.tokens (c : ColorLit) : List Str := [c.b, c.g, c.r, c.a]

/-- The four bytes the digit strings denote. -/
def ColorLit.value (c : ColorLit) : Bgra :=
  ⟨some (decimalValue c.b), some (decimalValue c.g),
   some (decimalValue c.r), some (decimalValue c.a)⟩

/-- The eight flag blocks of a complete argument list, in the order of the
menu: each flag with the tokens of its literals. -/
def requiredBlocks (p : Str) (w h : IntLit) (l e c u : VecLit) (bg : ColorLit) :
    List Block :=
  [("obj".toList, [p]), ("width".toList, [w.token]), ("height".toList, [h.token]),
   ("light_dir".toList, l.tokens), ("eye".toList, e.tokens),
   ("center".toList, c.tokens), ("up".toList, u.tokens),
   ("new_bgra".toList, bg.tokens)]

/-- The example argument list with the light direction `-0.5 1 1`. -/
def exampleArgsNegFraction : List Str :=
  ["-obj", "head.obj", "-width", "800", "-height", "800",
   "-light_dir", "-0.5", "1", "1", "-eye", "0", "0", "3",
   "-center", "0", "0", "0", "-up", "0", "1", "0",
   "-new_bgra", "0", "0", "0", "255"].map String.toList

/-- The number of entries of a table: its keys plus all its stored values. -/
def tableSize (m : CmdMap) : Nat := m.length + (m.map (fun p => p.2.length)).sum

/-- The argument list of the specification's example (the tokens after the
program name). -/
def exampleArgs : List Str :=
  ["-obj", "head.obj", "-width", "800", "-height", "800",
   "-light_dir", "1", "1", "1", "-eye", "0", "0", "3",
   "-center", "0", "0", "0", "-up", "0", "1", "0",
   "-new_bgra", "0", "0", "0", "255"].map String.toList

/-- The example argument list without the group `-up`. -/
def exampleArgsWithoutUp : List Str :=
  ["-obj", "head.obj", "-width", "800", "-height", "800",
   "-light_dir", "1", "1", "1", "-eye", "0", "0", "3",
   "-center", "0", "0", "0", "-new_bgra", "0", "0", "0", "255"].map String.toList

/-- The example argument list with `-width 0` and `-height -5`. -/
def exampleArgsZeroWidth : List Str :=
  ["-obj", "head.obj", "-width", "0", "-height", "-5",
   "-light_dir", "1", "1", "1", "-eye", "0", "0", "3",
   "-center", "0", "0", "0", "-up", "0", "1", "0",
   "-new_bgra", "0", "0", "0", "255"].map String.toList

/-- The example argument list with the light direction `0 0 0`. -/
def exampleArgsZeroLight : List Str :=
  ["-obj", "head.obj", "-width", "800", "-height", "800",
   "-light_dir", "0", "0", "0", "-eye", "0", "0", "3",
   "-center", "0", "0", "0", "-up", "0", "1", "0",
   "-new_bgra", "0", "0", "0", "255"].map String.toList

theorem toNat_inj {a b : Char} (h : a.toNat = b.toNat) : a = b := by
  rw [← Char.ofNat_toNat a, ← Char.ofNat_toNat b, h]

theorem strLt_irrefl (a : Str) : strLt a a = false := by
  induction a with
  | nil => rfl
  | cons c cs ih => simp [strLt, ih]

theorem strLt_trans {a b c : Str} (hab : strLt a b = true) (hbc : strLt b c = true) :
    strLt a c = true := by
  induction a generalizing b c with
  | nil =>
    cases b with
    | nil => simp [strLt] at hab
    | cons y ys =>
      cases c with
      | nil => simp [strLt] at hbc
      | cons z zs => simp [strLt]
  | cons x xs ih =>
    cases b with
    | nil => simp [strLt] at hab
    | cons y ys =>
      cases c with
      | nil => simp [strLt] at hbc
      | cons z zs =>
        simp only [strLt] at hab hbc ⊢
        split_ifs at hab hbc ⊢ <;> first
          | rfl
          | omega
          | exact ih hab hbc

theorem strLt_asymm {a b : Str} (hab : strLt a b = true) : strLt b a = false := by
  cases h : strLt b a with
  | false => rfl
  | true =>
    have := strLt_trans hab h
    rw [strLt_irrefl] at this
    exact absurd this (by simp)

theorem strLt_ne {a b : Str} (hab : strLt a b = true) : a ≠ b := by
  intro h
  subst h
  rw [strLt_irrefl] at hab
  exact absurd hab (by simp)

theorem strLt_connex {a b : Str} (hab : strLt a b = false) (hba : strLt b a = false) :
    a = b := by
  induction a generalizing b with
  | nil =>
    cases b with
    | nil => rfl
    | cons y ys => simp [strLt] at hab
  | cons x xs ih =>
    cases b with
    | nil => simp [strLt] at hba
    | cons y ys =>
      have h1 : ¬ x.toNat < y.toNat := by
        intro h
        simp [strLt, h] at hab
      have h2 : ¬ y.toNat < x.toNat := by
        intro h
        simp [strLt, h] at hba
      have hxy : x = y := toNat_inj (by omega)
      subst hxy
      simp only [strLt, h1, if_false] at hab hba
      rw [ih hab hba]

/-! ### The table operations -/

theorem mapFind_none_of_lt {m : CmdMap} {k : Str}
    (h : ∀ p ∈ m, strLt k p.1 = true) : mapFind m k = none := by
  induction m with
  | nil => rfl
  | cons p rest ih =>
    obtain ⟨k', vs⟩ := p
    have hk : k' ≠ k := fun e => strLt_ne (h (k', vs) (by simp)) e.symm
    simp only [mapFind, hk, if_false]
    exact ih (fun q hq => h q (by simp [hq]))

theorem mapSorted_cons {p : Str × List Str} {m : CmdMap} :
    mapSorted (p :: m) ↔ (∀ q ∈ m, strLt p.1 q.1 = true) ∧ mapSorted m := by
  simp [mapSorted, List.pairwise_cons]

theorem mapSorted_nil : mapSorted [] := by simp [mapSorted]

theorem mem_mapInsert {m : CmdMap} {k : Str} {vs : List Str} {q : Str × List Str}
    (hq : q ∈ mapInsert m k vs) : q.1 = k ∨ q ∈ m := by
  induction m with
  | nil =>
    simp only [mapInsert, List.mem_singleton] at hq
    left
    rw [hq]
  | cons p rest ih =>
    obtain ⟨k', vs'⟩ := p
    simp only [mapInsert] at hq
    split_ifs at hq with h1 h2
    · rcases List.mem_cons.1 hq with h | h
      · left
        rw [h]
      · right
        exact h
    · rcases List.mem_cons.1 hq with h | h
      · right
        rw [h]
        simp
      · rcases ih h with h' | h'
        · left
          exact h'
        · right
          exact List.mem_cons_of_mem _ h'
    · right
      exact hq

theorem mapSorted_mapInsert {m : CmdMap} (hm : mapSorted m) (k : Str) (vs : List Str) :
    mapSorted (mapInsert m k vs) := by
  induction m with
  | nil => simp [mapInsert, mapSorted]
  | cons p rest ih =>
    obtain ⟨k', vs'⟩ := p
    obtain ⟨hlt, hrest⟩ := mapSorted_cons.1 hm
    simp only [mapInsert]
    split_ifs with h1 h2
    · refine mapSorted_cons.2 ⟨?_, hm⟩
      intro q hq
      rcases List.mem_cons.1 hq with h | h
      · rw [h]
        exact h1
      · exact strLt_trans h1 (hlt q h)
    · refine mapSorted_cons.2 ⟨?_, ih hrest⟩
      intro q hq
      rcases mem_mapInsert hq with h | h
      · rw [h]
        exact h2
      · exact hlt q h
    · exact hm

theorem mapFind_mapInsert {m : CmdMap} (hm : mapSorted m) (k : Str) (vs : List Str)
    (k2 : Str) :
    mapFind (mapInsert m k vs) k2 =
      if k2 = k then some ((mapFind m k).getD vs) else mapFind m k2 := by
  induction m with
  | nil =>
    by_cases h : k2 = k
    · simp [mapInsert, mapFind, h]
    · have h' : ¬ k = k2 := fun e => h e.symm
      simp [mapInsert, mapFind, h, h']
  | cons p rest ih =>
    obtain ⟨k', vs'⟩ := p
    obtain ⟨hlt, hrest⟩ := mapSorted_cons.1 hm
    by_cases h1 : strLt k k' = true
    · simp only [mapInsert, h1, if_true]
      by_cases h4 : k2 = k
      · subst h4
        have hne : k' ≠ k2 := fun e => strLt_ne h1 e.symm
        have hnone : mapFind rest k2 = none :=
          mapFind_none_of_lt (fun q hq => strLt_trans h1 (hlt q hq))
        simp [mapFind, hne, hnone]
      · have h' : ¬ k = k2 := fun e => h4 e.symm
        simp [mapFind, h', h4]
    · by_cases h2 : strLt k' k = true
      · simp only [mapInsert, h1, h2, if_true, if_false]
        have hne : k' ≠ k := strLt_ne h2
        by_cases h4 : k2 = k
        · subst h4
          simp only [mapFind, hne, if_false, if_true]
          rw [ih hrest]
          simp
        · simp only [mapFind, h4, if_false]
          rw [ih hrest]
          simp [h4]
      · have hk : k = k' :=
          strLt_connex (Bool.eq_false_iff.2 h1) (Bool.eq_false_iff.2 h2)
        subst hk
        simp only [mapInsert, h1, if_false]
        by_cases h4 : k2 = k
        · subst h4
          simp [mapFind]
        · simp [h4]

theorem mem_mapPushBack {m : CmdMap} {k v : Str} {q : Str × List Str}
    (hq : q ∈ mapPushBack m k v) : q.1 = k ∨ q ∈ m := by
  induction m with
  | nil =>
    simp only [mapPushBack, List.mem_singleton] at hq
    left
    rw [hq]
  | cons p rest ih =>
    obtain ⟨k', vs'⟩ := p
    by_cases h1 : strLt k k' = true
    · simp only [mapPushBack, h1, if_true] at hq
      rcases List.mem_cons.1 hq with h | h
      · left
        rw [h]
      · right
        exact h
    · by_cases h2 : strLt k' k = true
      · simp only [mapPushBack, h1, h2, if_true, if_false] at hq
        rcases List.mem_cons.1 hq with h | h
        · right
          rw [h]
          simp
        · rcases ih h with h' | h'
          · left
            exact h'
          · right
            exact List.mem_cons_of_mem _ h'
      · have hk : k = k' :=
          strLt_connex (Bool.eq_false_iff.2 h1) (Bool.eq_false_iff.2 h2)
        simp only [mapPushBack, h1, h2, if_false] at hq
        rcases List.mem_cons.1 hq with h | h
        · left
          rw [h, hk]
        · right
          exact List.mem_cons_of_mem _ h

theorem mapSorted_mapPushBack {m : CmdMap} (hm : mapSorted m) (k v : Str) :
    mapSorted (mapPushBack m k v) := by
  induction m with
  | nil => simp [mapPushBack, mapSorted]
  | cons p rest ih =>
    obtain ⟨k', vs'⟩ := p
    obtain ⟨hlt, hrest⟩ := mapSorted_cons.1 hm
    by_cases h1 : strLt k k' = true
    · simp only [mapPushBack, h1, if_true]
      refine mapSorted_cons.2 ⟨?_, hm⟩
      intro q hq
      rcases List.mem_cons.1 hq with h | h
      · rw [h]
        exact h1
      · exact strLt_trans h1 (hlt q h)
    · by_cases h2 : strLt k' k = true
      · simp only [mapPushBack, h1, h2, if_true, if_false]
        refine mapSorted_cons.2 ⟨?_, ih hrest⟩
        intro q hq
        rcases mem_mapPushBack hq with h | h
        · rw [h]
          exact h2
        · exact hlt q h
      · simp only [mapPushBack, h1, h2, if_false]
        exact mapSorted_cons.2 ⟨hlt, hrest⟩

theorem mapFind_mapPushBack {m : CmdMap} (hm : mapSorted m) (k v : Str) (k2 : Str) :
    mapFind (mapPushBack m k v) k2 =
      if k2 = k then some ((mapFind m k).getD [] ++ [v]) else mapFind m k2 := by
  induction m with
  | nil =>
    by_cases h : k2 = k
    · simp [mapPushBack, mapFind, h]
    · have h' : ¬ k = k2 := fun e => h e.symm
      simp [mapPushBack, mapFind, h, h']
  | cons p rest ih =>
    obtain ⟨k', vs'⟩ := p
    obtain ⟨hlt, hrest⟩ := mapSorted_cons.1 hm
    by_cases h1 : strLt k k' = true
    · simp only [mapPushBack, h1, if_true]
      by_cases h4 : k2 = k
      · subst h4
        have hne : k' ≠ k2 := fun e => strLt_ne h1 e.symm
        have hnone : mapFind rest k2 = none :=
          mapFind_none_of_lt (fun q hq => strLt_trans h1 (hlt q hq))
        simp [mapFind, hne, hnone]
      · have h' : ¬ k = k2 := fun e => h4 e.symm
        simp [mapFind, h', h4]
    · by_cases h2 : strLt k' k = true
      · simp only [mapPushBack, h1, h2, if_true, if_false]
        have hne : k' ≠ k := strLt_ne h2
        by_cases h4 : k2 = k
        · subst h4
          simp only [mapFind, hne, if_false, if_true]
          rw [ih hrest]
          simp
        · simp only [mapFind, h4, if_false]
          rw [ih hrest]
          simp [h4]
      · have hk : k = k' :=
          strLt_connex (Bool.eq_false_iff.2 h1) (Bool.eq_false_iff.2 h2)
        subst hk
        simp only [mapPushBack, h1, if_false]
        by_cases h4 : k2 = k
        · subst h4
          simp [mapFind]
        · have h' : ¬ k = k2 := fun e => h4 e.symm
          simp [mapFind, h4, h']

theorem mem_of_mapFind {m : CmdMap} {k : Str} {vs : List Str}
    (h : mapFind m k = some vs) : (k, vs) ∈ m := by
  induction m with
  | nil => simp [mapFind] at h
  | cons p rest ih =>
    obtain ⟨k', vs'⟩ := p
    by_cases hk : k' = k
    · simp only [mapFind, hk, if_true, Option.some.injEq] at h
      simp [hk, h]
    · simp only [mapFind, hk, if_false] at h
      exact List.mem_cons_of_mem _ (ih h)

theorem mapFind_of_mem {m : CmdMap} (hm : mapSorted m) {k : Str} {vs : List Str}
    (h : (k, vs) ∈ m) : mapFind m k = some vs := by
  induction m with
  | nil => simp at h
  | cons p rest ih =>
    obtain ⟨k', vs'⟩ := p
    obtain ⟨hlt, hrest⟩ := mapSorted_cons.1 hm
    rcases List.mem_cons.1 h with h | h
    · injection h with h1 h2
      simp [mapFind, h1, h2]
    · have hne : k' ≠ k := strLt_ne (hlt _ h)
      simp only [mapFind, hne, if_false]
      exact ih hrest h

/-- Two well-formed tables that answer every `find` alike are the same table. -/
theorem mapSorted_ext {m1 m2 : CmdMap} (h1 : mapSorted m1) (h2 : mapSorted m2)
    (h : ∀ k, mapFind m1 k = mapFind m2 k) : m1 = m2 := by
  have hmem : ∀ q : Str × List Str, q ∈ m1 ↔ q ∈ m2 := by
    intro q
    obtain ⟨k, vs⟩ := q
    constructor
    · intro hq
      exact mem_of_mapFind ((h k) ▸ mapFind_of_mem h1 hq)
    · intro hq
      exact mem_of_mapFind ((h k).symm ▸ mapFind_of_mem h2 hq)
  have asymm : ∀ p q : Str × List Str, p ∈ m1 → q ∈ m2 →
      strLt p.1 q.1 = true → strLt q.1 p.1 = true → p = q := by
    intro p q _ _ hpq hqp
    rw [strLt_asymm hpq] at hqp
    exact absurd hqp (by simp)
  have hnd1 : m1.Nodup := by
    refine List.Pairwise.imp ?_ h1
    intro p q hpq e
    exact strLt_ne hpq (congrArg Prod.fst e)
  have hnd2 : m2.Nodup := by
    refine List.Pairwise.imp ?_ h2
    intro p q hpq e
    exact strLt_ne hpq (congrArg Prod.fst e)
  have hperm : m1.Perm m2 := (List.perm_ext_iff_of_nodup hnd1 hnd2).2 hmem
  exact List.Perm.eq_of_sorted asymm h1 h2 hperm

/-! ### Character classes -/

theorem char_le_iff (a b : Char) : a ≤ b ↔ a.toNat ≤ b.toNat := Iff.rfl

theorem char_eq_iff (a b : Char) : a = b ↔ a.toNat = b.toNat :=
  ⟨fun h => by rw [h], toNat_inj⟩

theorem IsLetter_eq_all (s : Str) : IsLetter s = s.all isLetterChar := by
  induction s with
  | nil => rfl
  | cons c cs ih =>
    by_cases h : isLetterChar c = true
    · simp [IsLetter, h, ih]
    · simp [IsLetter, h]

theorem IsNumber_eq_all (s : Str) : IsNumber s = s.all isNumberChar := by
  induction s with
  | nil => rfl
  | cons c cs ih =>
    by_cases h : isNumberChar c = true
    · simp [IsNumber, h, ih]
    · simp [IsNumber, h]

theorem isLetterChar_false_of_isNumberChar {c : Char} (h : isNumberChar c = true) :
    isLetterChar c = false := by
  rw [Bool.eq_false_iff]
  intro hl
  simp only [isNumberChar, isLetterChar, Bool.or_eq_true, Bool.and_eq_true,
    decide_eq_true_eq, beq_iff_eq, char_le_iff, char_eq_iff] at h hl
  have e0 : '0'.toNat = 48 := rfl
  have e9 : '9'.toNat = 57 := rfl
  have eA : 'A'.toNat = 65 := rfl
  have eZ : 'Z'.toNat = 90 := rfl
  have ea : 'a'.toNat = 97 := rfl
  have ez : 'z'.toNat = 122 := rfl
  have em : '-'.toNat = 45 := rfl
  have ed : '.'.toNat = 46 := rfl
  have eu : '_'.toNat = 95 := rfl
  omega

theorem isNumberChar_of_isDigitChar {c : Char} (h : isDigitChar c = true) :
    isNumberChar c = true := by
  simp only [isDigitChar, Bool.and_eq_true, decide_eq_true_eq] at h
  simp [isNumberChar, h]

theorem isDigitChar_ne_minus {c : Char} (h : isDigitChar c = true) : c ≠ '-' := by
  intro e
  subst e
  revert h
  decide

/-! ### The loop of `Getopt` -/

/-- One iteration of the loop, in the vocabulary of the claims: a
group-starting token registers its group and makes it current; a stored-value
token is appended to the current group when one is set; any other token leaves
the state as it is. -/
theorem GetoptStep_eq (st : GetoptState) (tok : Str) :
    GetoptStep st tok =
      if isGroupStart tok then
        { retCmdValueMap := mapInsert st.retCmdValueMap tok.tail [], cur := tok.tail }
      else if st.cur ≠ [] ∧ isStoredValue tok then
        { st with retCmdValueMap := mapPushBack st.retCmdValueMap st.cur tok }
      else st := by
  cases tok with
  | nil => simp [GetoptStep, isGroupStart, isStoredValue]
  | cons c rest =>
    by_cases hc : c = '-'
    · subst hc
      cases rest with
      | nil => simp [GetoptStep, isGroupStart, isStoredValue]
      | cons d rest2 =>
        by_cases hl : IsLetter (d :: rest2) = true
        · have hl2 := hl
          rw [IsLetter_eq_all] at hl2
          simp only [List.all_cons, Bool.and_eq_true] at hl2
          simp [GetoptStep, isGroupStart, hl, hl2.1, hl2.2]
        · have hl2 := hl
          rw [IsLetter_eq_all] at hl2
          have hg : isGroupStart ('-' :: d :: rest2) = false := by
            rw [Bool.eq_false_iff]
            intro hg
            apply hl2
            simpa [isGroupStart] using hg
          simp only [GetoptStep, hl, hg, if_false, Bool.false_eq_true]
          simp [isStoredValue, IsNumber_eq_all]
    · simp [GetoptStep, isGroupStart, isStoredValue, hc]

theorem GetoptLoop_nil (st : GetoptState) : GetoptLoop st [] = st := rfl

theorem GetoptLoop_cons (st : GetoptState) (tok : Str) (toks : List Str) :
    GetoptLoop st (tok :: toks) = GetoptLoop (GetoptStep st tok) toks := rfl

theorem GetoptLoop_append (st : GetoptState) (as bs : List Str) :
    GetoptLoop st (as ++ bs) = GetoptLoop (GetoptLoop st as) bs := by
  simp [GetoptLoop, List.foldl_append]

theorem isGroupStart_tail_ne {tok : Str} (h : isGroupStart tok = true) : tok.tail ≠ [] := by
  cases tok with
  | nil => simp [isGroupStart] at h
  | cons c rest =>
    simp only [isGroupStart, Bool.and_eq_true, decide_eq_true_eq] at h
    exact h.1.2

theorem GetoptInit_wf : GetoptInit.wf := by
  simp [GetoptState.wf, GetoptInit, mapSorted]

theorem GetoptStep_wf {st : GetoptState} (h : st.wf) (tok : Str) : (GetoptStep st tok).wf := by
  obtain ⟨hs, hc⟩ := h
  rw [GetoptStep_eq]
  split_ifs with h1 h2
  · refine ⟨mapSorted_mapInsert hs _ _, fun _ => ?_⟩
    simp [mapFind_mapInsert hs]
  · refine ⟨mapSorted_mapPushBack hs _ _, fun _ => ?_⟩
    simp [mapFind_mapPushBack hs]
  · exact ⟨hs, hc⟩

theorem GetoptLoop_wf {st : GetoptState} (h : st.wf) (toks : List Str) :
    (GetoptLoop st toks).wf := by
  induction toks generalizing st with
  | nil => exact h
  | cons tok rest ih => exact ih (GetoptStep_wf h tok)

theorem Getopt_sorted (argv : List Str) : mapSorted (Getopt argv) :=
  (GetoptLoop_wf GetoptInit_wf argv.tail).1

theorem flagNames_cons (tok : Str) (toks : List Str) :
    flagNames (tok :: toks) =
      if isGroupStart tok then tok.tail :: flagNames toks else flagNames toks := by
  by_cases h : isGroupStart tok = true <;> simp [flagNames, List.filter_cons, h]

theorem flagNames_append (as bs : List Str) :
    flagNames (as ++ bs) = flagNames as ++ flagNames bs := by
  simp [flagNames]

/-- The current group after the loop: the group of the last group-starting
token, the group that was current before when there is none. -/
theorem GetoptLoop_cur (st : GetoptState) (toks : List Str) :
    (GetoptLoop st toks).cur = (lastGroup toks).getD st.cur := by
  induction toks generalizing st with
  | nil => rfl
  | cons tok rest ih =>
    rw [GetoptLoop_cons, ih, GetoptStep_eq]
    simp only [lastGroup, flagNames_cons]
    split_ifs with h1 h2
    · cases h : (flagNames rest).getLast? with
      | none => simp [List.getLast?_cons, h]
      | some x => simp [List.getLast?_cons, h]
    · rfl
    · rfl

/-- What `find` answers on the table after the loop, for every key: the key is
present when it was present before or a token of the list starts its group, and
its value list is the one it had, followed by the value tokens of the group. -/
theorem GetoptLoop_find {st : GetoptState} (h : st.wf) (toks : List Str) (k : Str) :
    mapFind (GetoptLoop st toks).retCmdValueMap k =
      if (mapFind st.retCmdValueMap k).isSome = true ∨ k ∈ flagNames toks then
        some ((mapFind st.retCmdValueMap k).getD [] ++ groupValues k st.cur toks)
      else none := by
  induction toks generalizing st with
  | nil =>
    cases hf : mapFind st.retCmdValueMap k <;>
      simp [GetoptLoop_nil, flagNames, groupValues, hf]
  | cons tok rest ih =>
    rw [GetoptLoop_cons, ih (GetoptStep_wf h tok), GetoptStep_eq]
    obtain ⟨hs, hc⟩ := h
    simp only [flagNames_cons, groupValues]
    by_cases h1 : isGroupStart tok = true
    · simp only [h1, if_true, mapFind_mapInsert hs, List.mem_cons]
      by_cases hk : k = tok.tail
      · subst hk
        simp
      · simp [hk]
    · simp only [h1, if_false, Bool.false_eq_true]
      by_cases h2 : st.cur ≠ [] ∧ isStoredValue tok = true
      · simp only [h2, and_self, if_true, mapFind_mapPushBack hs, ne_eq, not_false_eq_true,
          true_and]
        by_cases hk : k = st.cur
        · subst hk
          have := hc h2.1
          cases hf : mapFind st.retCmdValueMap st.cur with
          | none => simp [hf] at this
          | some vs => simp
        · have hk' : ¬ st.cur = k := fun e => hk e.symm
          simp [hk, hk']
      · have h3 : ¬ (st.cur ≠ [] ∧ st.cur = k ∧ isStoredValue tok = true) :=
          fun h => h2 ⟨h.1, h.2.2⟩
        simp only [h2, h3, if_false]

/-- What `find` answers on the table `Getopt` returns. -/
theorem Getopt_find (prog : Str) (args : List Str) (k : Str) :
    mapFind (Getopt (prog :: args)) k =
      if k ∈ flagNames args then some (groupValues k [] args) else none := by
  have := GetoptLoop_find GetoptInit_wf args k
  simpa [Getopt, GetoptInit, mapFind] using this

theorem ne_nil_of_mem_flagNames {k : Str} {toks : List Str} (h : k ∈ flagNames toks) :
    k ≠ [] := by
  simp only [flagNames, List.mem_map, List.mem_filter] at h
  obtain ⟨tok, ⟨_, hg⟩, rfl⟩ := h
  exact isGroupStart_tail_ne hg

theorem isGroupStart_false_of_head {v : Str} (hd : v.head? ≠ some '-') :
    isGroupStart v = false := by
  cases v with
  | nil => rfl
  | cons c rest =>
    have hc : c ≠ '-' := fun e => hd (by simp [e])
    simp [isGroupStart, hc]

theorem isStoredValue_of_head {v : Str} (hv : v ≠ []) (hd : v.head? ≠ some '-') :
    isStoredValue v = true := by
  cases v with
  | nil => exact absurd rfl hv
  | cons c rest =>
    have hc : c ≠ '-' := fun e => hd (by simp [e])
    simp [isStoredValue, hc]

/-! ### C6 to C9: the tokenizer, token by token -/

/-- C6 (as stated, refuted). The token `--` begins with `-`, has length 2, its
remainder `-` is not purely alphabetic and it is not a signed integer literal;
yet with the group `eye` current it is stored: `-eye --` yields `eye = ["--"]`.
The same holds for `-1-2` and `-5-`. -/
theorem double_dash_is_stored :
    IsLetter "-".toList = false ∧ isSignedIntLit "--".toList = false ∧
    Getopt (["prog", "-eye", "--"].map String.toList) =
      [("eye".toList, ["--".toList])] ∧
    isSignedIntLit "-1-2".toList = false ∧ isSignedIntLit "-5-".toList = false ∧
    Getopt (["prog", "-eye", "-1-2", "-5-"].map String.toList) =
      [("eye".toList, ["-1-2".toList, "-5-".toList])] := by
  decide

/-- C6 (amended). For every token `-rest` of length at least 2 whose remainder
`rest` is not purely alphabetic, and every loop state with a well-formed table:
the token is appended to the value list of the current group if and only if a
current group is set and every character of the token is a digit or `-` (the
test of `IsNumber`); then `cur` is unchanged, the current group's list gains
the token at its end and every other key is as before. In every other case the
state is unchanged. In particular `-0.5` is never stored. -/
theorem dash_token_stored_iff_number_chars (st : GetoptState) (rest : Str)
    (hs : mapSorted st.retCmdValueMap) (hne : rest ≠ []) (hl : IsLetter rest = false) :
    (st.cur ≠ [] ∧ ('-' :: rest).all isNumberChar = true →
      (GetoptStep st ('-' :: rest)).cur = st.cur ∧
      (GetoptStep st ('-' :: rest)).retCmdValueMap =
        mapPushBack st.retCmdValueMap st.cur ('-' :: rest) ∧
      mapFind (GetoptStep st ('-' :: rest)).retCmdValueMap st.cur =
        some ((mapFind st.retCmdValueMap st.cur).getD [] ++ ['-' :: rest]) ∧
      ∀ k, k ≠ st.cur →
        mapFind (GetoptStep st ('-' :: rest)).retCmdValueMap k =
          mapFind st.retCmdValueMap k) ∧
    (¬ (st.cur ≠ [] ∧ ('-' :: rest).all isNumberChar = true) →
      GetoptStep st ('-' :: rest) = st) ∧
    (∀ st2 : GetoptState, GetoptStep st2 "-0.5".toList = st2) := by
  have hg : isGroupStart ('-' :: rest) = false := by
    rw [IsLetter_eq_all] at hl
    simp [isGroupStart, hl]
  have hv : isStoredValue ('-' :: rest) = ('-' :: rest).all isNumberChar := by
    simp [isStoredValue, hne]
  refine ⟨?_, ?_, ?_⟩
  · intro h
    have h' : st.cur ≠ [] ∧ isStoredValue ('-' :: rest) = true := ⟨h.1, by rw [hv]; exact h.2⟩
    have he : GetoptStep st ('-' :: rest) =
        { st with retCmdValueMap := mapPushBack st.retCmdValueMap st.cur ('-' :: rest) } := by
      rw [GetoptStep_eq, if_neg (by simp [hg]), if_pos h']
    rw [he]
    refine ⟨rfl, rfl, ?_, ?_⟩
    · simp [mapFind_mapPushBack hs]
    · intro k hk
      simp [mapFind_mapPushBack hs, hk]
  · intro h
    have h' : ¬ (st.cur ≠ [] ∧ isStoredValue ('-' :: rest) = true) := by
      rw [hv]
      exact h
    rw [GetoptStep_eq, if_neg (by simp [hg]), if_neg h']
  · intro st2
    have h1 : isGroupStart "-0.5".toList = false := by decide
    have h2 : isStoredValue "-0.5".toList = false := by decide
    rw [GetoptStep_eq, if_neg (by rw [h1]; simp), if_neg (by rw [h2]; simp)]

/-- Witness of C6 (amended): with `eye` current and holding `["1"]`, the token
`-1-2` is appended. -/
theorem dash_token_stored_iff_number_chars_witness :
    (GetoptStep ⟨[("eye".toList, ["1".toList])], "eye".toList⟩ "-1-2".toList).retCmdValueMap =
      mapPushBack [("eye".toList, ["1".toList])] "eye".toList "-1-2".toList ∧
    mapFind (GetoptStep ⟨[("eye".toList, ["1".toList])], "eye".toList⟩
      "-1-2".toList).retCmdValueMap "eye".toList = some ["1".toList, "-1-2".toList] :=
  have h := (dash_token_stored_iff_number_chars
    ⟨[("eye".toList, ["1".toList])], "eye".toList⟩ "1-2".toList
    (by simp [mapSorted]) (by decide) (by decide)).1 ⟨by decide, by decide⟩
  ⟨h.2.1, h.2.2.1⟩

/-- C7 (as stated, refuted). With `eye` already holding `["1", "2"]`, the
token `-eye` does not leave an empty value list under `eye`, and the argument
list `-eye 1 2 -eye 3` yields `eye = ["1", "2", "3"]`, not `["3"]`. -/
theorem repeated_flag_keeps_values :
    mapFind (GetoptLoop GetoptInit
      (["-eye", "1", "2", "-eye"].map String.toList)).retCmdValueMap "eye".toList =
        some ["1".toList, "2".toList] ∧
    Getopt (["prog", "-eye", "1", "2", "-eye", "3"].map String.toList) =
      [("eye".toList, ["1".toList, "2".toList, "3".toList])] ∧
    Getopt (["prog", "-eye", "1", "2", "-eye", "3"].map String.toList) ≠
      [("eye".toList, ["3".toList])] := by
  decide

/-- C7 (amended). Every token `-name`, `name` being one or more characters that
are all letters, `.` or `_`, makes `name` the current group and a key of the
table: with the empty value list when `name` was not a key, with the value list
it already had when it was (nothing is reset); every other key is as before.
Hence for every argument list the final value list of a group is made of the
value tokens stored after every occurrence of its flag, in argument order. -/
theorem group_start_registers_and_keeps (st : GetoptState) (name : Str)
    (hs : mapSorted st.retCmdValueMap) (hne : name ≠ [])
    (hl : name.all isLetterChar = true) :
    (GetoptStep st ('-' :: name)).cur = name ∧
    mapFind (GetoptStep st ('-' :: name)).retCmdValueMap name =
      some ((mapFind st.retCmdValueMap name).getD []) ∧
    (∀ k, k ≠ name →
      mapFind (GetoptStep st ('-' :: name)).retCmdValueMap k =
        mapFind st.retCmdValueMap k) ∧
    (∀ (prog : Str) (args : List Str) (k : Str),
      mapFind (Getopt (prog :: args)) k =
        if k ∈ flagNames args then some (groupValues k [] args) else none) := by
  have hg : isGroupStart ('-' :: name) = true := by simp [isGroupStart, hne, hl]
  have he : GetoptStep st ('-' :: name) =
      { retCmdValueMap := mapInsert st.retCmdValueMap name [], cur := name } := by
    rw [GetoptStep_eq]
    simp [hg]
  rw [he]
  refine ⟨rfl, ?_, ?_, Getopt_find⟩
  · simp [mapFind_mapInsert hs]
  · intro k hk
    simp [mapFind_mapInsert hs, hk]

/-- Witness of C7 (amended): `-eye` on the state reached by `-eye 1 2`. -/
theorem group_start_registers_and_keeps_witness :
    (GetoptStep ⟨[("eye".toList, ["1".toList, "2".toList])], "eye".toList⟩
      "-eye".toList).cur = "eye".toList ∧
    mapFind (GetoptStep ⟨[("eye".toList, ["1".toList, "2".toList])], "eye".toList⟩
      "-eye".toList).retCmdValueMap "eye".toList = some ["1".toList, "2".toList] :=
  have h := group_start_registers_and_keeps
    ⟨[("eye".toList, ["1".toList, "2".toList])], "eye".toList⟩ "eye".toList
    (by simp [mapSorted]) (by decide) (by decide)
  ⟨h.1, h.2.1⟩

/-- C8. For every argument list `args` and every non-empty token `v` that does
not begin with `-`: when `args` has a group-starting token, `Getopt` of
`args ++ [v]` is `Getopt` of `args` with `v` appended at the end of the value
list of the group `k` named by the last group-starting token (`k` is a key, its
list gains `v` at the end, every other key answers as before); when `args` has
no group-starting token the two tables are equal. -/
theorem value_token_appended_to_last_group (prog : Str) (args : List Str) (v : Str)
    (hv : v ≠ []) (hd : v.head? ≠ some '-') :
    match lastGroup args with
    | some k =>
      Getopt (prog :: (args ++ [v])) = mapPushBack (Getopt (prog :: args)) k v ∧
      ∃ vs, mapFind (Getopt (prog :: args)) k = some vs ∧
        mapFind (Getopt (prog :: (args ++ [v]))) k = some (vs ++ [v]) ∧
        ∀ k2, k2 ≠ k →
          mapFind (Getopt (prog :: (args ++ [v]))) k2 = mapFind (Getopt (prog :: args)) k2
    | none => Getopt (prog :: (args ++ [v])) = Getopt (prog :: args) := by
  have hwf := GetoptLoop_wf GetoptInit_wf args
  have hcur := GetoptLoop_cur GetoptInit args
  have hstep : Getopt (prog :: (args ++ [v])) =
      (GetoptStep (GetoptLoop GetoptInit args) v).retCmdValueMap := by
    simp [Getopt, GetoptLoop_append, GetoptLoop_cons, GetoptLoop_nil]
  have hold : Getopt (prog :: args) = (GetoptLoop GetoptInit args).retCmdValueMap := rfl
  rw [hstep, hold, GetoptStep_eq, if_neg (by simp [isGroupStart_false_of_head hd])]
  cases hlg : lastGroup args with
  | none =>
    rw [hlg] at hcur
    have hc : (GetoptLoop GetoptInit args).cur = [] := by simpa [GetoptInit] using hcur
    simp [hc]
  | some k =>
    rw [hlg] at hcur
    have hc : (GetoptLoop GetoptInit args).cur = k := by simpa using hcur
    have hk : k ≠ [] :=
      @ne_nil_of_mem_flagNames k args (List.mem_of_getLast?_eq_some hlg)
    have hsome := hwf.2 (by rw [hc]; exact hk)
    rw [hc] at hsome
    rw [if_pos ⟨by rw [hc]; exact hk, isStoredValue_of_head hv hd⟩, hc]
    refine ⟨rfl, ?_⟩
    cases hf : mapFind (GetoptLoop GetoptInit args).retCmdValueMap k with
    | none => simp [hf] at hsome
    | some vs =>
      refine ⟨vs, rfl, ?_, ?_⟩
      · simp [mapFind_mapPushBack hwf.1, hf]
      · intro k2 hk2
        simp [mapFind_mapPushBack hwf.1, hk2]

/-- Witness of C8: the token `3` after `-eye 1 2`. -/
theorem value_token_appended_to_last_group_witness :
    Getopt (["prog", "-eye", "1", "2", "3"].map String.toList) =
      mapPushBack (Getopt (["prog", "-eye", "1", "2"].map String.toList))
        "eye".toList "3".toList :=
  (value_token_appended_to_last_group "prog".toList
    (["-eye", "1", "2"].map String.toList) "3".toList (by decide) (by decide)).1

/-- C9. A bare separator token `-` leaves the loop state as it is, table and
current group alike; so for all argument lists `a` and `b`, inserting `-`
between them changes neither the table `Getopt` returns nor the group that is
current at any later point. -/
theorem bare_separator_is_ignored (prog : Str) (a b : List Str) :
    (∀ st : GetoptState, GetoptStep st ['-'] = st) ∧
    GetoptLoop GetoptInit (a ++ [['-']] ++ b) = GetoptLoop GetoptInit (a ++ b) ∧
    Getopt (prog :: (a ++ [['-']] ++ b)) = Getopt (prog :: (a ++ b)) := by
  have h1 : ∀ st : GetoptState, GetoptStep st ['-'] = st := by
    intro st
    simp [GetoptStep]
  have h2 : GetoptLoop GetoptInit (a ++ [['-']] ++ b) = GetoptLoop GetoptInit (a ++ b) := by
    simp [GetoptLoop_append, GetoptLoop_cons, GetoptLoop_nil, h1]
  refine ⟨h1, h2, ?_⟩
  simp only [Getopt, List.tail_cons]
  rw [h2]

/-! ### Argument lists made of flag blocks -/

theorem blockTokens_cons (b : Block) (bs : List Block) :
    blockTokens (b :: bs) = ('-' :: b.1) :: (b.2 ++ blockTokens bs) := by
  simp [blockTokens]

theorem flagNames_of_no_groupStart {ts : List Str} (h : ∀ t ∈ ts, isGroupStart t = false) :
    flagNames ts = [] := by
  simp only [flagNames, List.map_eq_nil_iff, List.filter_eq_nil_iff]
  intro t ht
  simp [h t ht]

theorem flagNames_blockTokens {bs : List Block}
    (h : ∀ b ∈ bs, isGroupStart ('-' :: b.1) = true ∧ ∀ t ∈ b.2, isGroupStart t = false) :
    flagNames (blockTokens bs) = bs.map Prod.fst := by
  induction bs with
  | nil => rfl
  | cons b rest ih =>
    have hb := h b (by simp)
    rw [blockTokens_cons, flagNames_cons, if_pos hb.1, flagNames_append,
      flagNames_of_no_groupStart hb.2, ih (fun b' hb' => h b' (by simp [hb']))]
    simp

theorem groupValues_cons (k cur tok : Str) (rest : List Str) :
    groupValues k cur (tok :: rest) =
      if isGroupStart tok then groupValues k tok.tail rest
      else if cur ≠ [] ∧ cur = k ∧ isStoredValue tok then tok :: groupValues k cur rest
      else groupValues k cur rest := by
  rw [groupValues]

theorem groupValues_append_values (k cur : Str) {vals : List Str} (rest : List Str)
    (h : ∀ t ∈ vals, isGroupStart t = false) :
    groupValues k cur (vals ++ rest) =
      (if cur ≠ [] ∧ cur = k then vals.filter isStoredValue else []) ++
        groupValues k cur rest := by
  induction vals with
  | nil => simp
  | cons t ts ih =>
    have ht : isGroupStart t = false := h t (by simp)
    have ih' := ih (fun t' ht' => h t' (by simp [ht']))
    rw [List.cons_append, groupValues_cons, if_neg (by simp [ht])]
    by_cases hc : cur ≠ [] ∧ cur = k
    · by_cases hv : isStoredValue t = true
      · rw [if_pos ⟨hc.1, hc.2, hv⟩, ih', if_pos hc, if_pos hc]
        simp [List.filter_cons, hv]
      · rw [if_neg (fun h3 => hv h3.2.2), ih', if_pos hc, if_pos hc]
        simp [List.filter_cons, hv]
    · rw [if_neg (fun h3 => hc ⟨h3.1, h3.2.1⟩), ih', if_neg hc, if_neg hc]

theorem groupValues_blockTokens (k cur : Str) {bs : List Block}
    (h : ∀ b ∈ bs, isGroupStart ('-' :: b.1) = true ∧ ∀ t ∈ b.2, isGroupStart t = false) :
    groupValues k cur (blockTokens bs) = blockValues k bs := by
  induction bs generalizing cur with
  | nil => rfl
  | cons b rest ih =>
    have hb := h b (by simp)
    have hne : b.1 ≠ [] := isGroupStart_tail_ne hb.1
    rw [blockTokens_cons, groupValues_cons, if_pos hb.1, List.tail_cons,
      groupValues_append_values k b.1 _ hb.2, ih b.1 (fun b' hb' => h b' (by simp [hb']))]
    by_cases hk : b.1 = k
    · subst hk
      simp [blockValues, List.filter_cons, hne]
    · simp [blockValues, List.filter_cons, hk]

theorem blockValues_of_mem {bs : List Block} (hnd : (bs.map Prod.fst).Nodup) {b : Block}
    (hb : b ∈ bs) : blockValues b.1 bs = b.2.filter isStoredValue := by
  induction bs with
  | nil => simp at hb
  | cons b0 rest ih =>
    simp only [List.map_cons, List.nodup_cons] at hnd
    rcases List.mem_cons.1 hb with h | h
    · subst h
      have hnone : rest.filter (fun x => decide (x.1 = b.1)) = [] := by
        rw [List.filter_eq_nil_iff]
        intro x hx hx1
        simp only [decide_eq_true_eq] at hx1
        exact hnd.1 (List.mem_map.2 ⟨x, hx, hx1⟩)
      simp [blockValues, List.filter_cons, hnone]
    · have hne : b0.1 ≠ b.1 := by
        intro e
        exact hnd.1 (List.mem_map.2 ⟨b, h, e.symm⟩)
      have := ih hnd.2 h
      simpa [blockValues, List.filter_cons, hne] using this

theorem blockValues_perm {bs bs2 : List Block} (hnd : (bs.map Prod.fst).Nodup)
    (hp : bs2.Perm bs) (k : Str) : blockValues k bs2 = blockValues k bs := by
  have hnd2 : (bs2.map Prod.fst).Nodup := (hp.map Prod.fst).nodup_iff.2 hnd
  by_cases hk : k ∈ bs.map Prod.fst
  · obtain ⟨b, hb, rfl⟩ := List.mem_map.1 hk
    rw [blockValues_of_mem hnd hb, blockValues_of_mem hnd2 (hp.mem_iff.2 hb)]
  · have h1 : bs.filter (fun x => decide (x.1 = k)) = [] := by
      rw [List.filter_eq_nil_iff]
      intro x hx hx1
      simp only [decide_eq_true_eq] at hx1
      exact hk (List.mem_map.2 ⟨x, hx, hx1⟩)
    have h2 : bs2.filter (fun x => decide (x.1 = k)) = [] := by
      rw [List.filter_eq_nil_iff]
      intro x hx hx1
      simp only [decide_eq_true_eq] at hx1
      exact hk (List.mem_map.2 ⟨x, hp.mem_iff.1 hx, hx1⟩)
    simp [blockValues, h1, h2]

theorem blocksOk_perm {bs bs2 : List Block} (hok : blocksOk bs) (hp : bs2.Perm bs) :
    blocksOk bs2 :=
  ⟨fun b hb => hok.1 b (hp.mem_iff.1 hb), (hp.map Prod.fst).nodup_iff.2 hok.2⟩

/-- What `find` answers on the table `Getopt` returns for an argument list
made of flag blocks. -/
theorem Getopt_find_blocks (prog : Str) {bs : List Block}
    (h : ∀ b ∈ bs, isGroupStart ('-' :: b.1) = true ∧ ∀ t ∈ b.2, isGroupStart t = false)
    (k : Str) :
    mapFind (Getopt (prog :: blockTokens bs)) k =
      if k ∈ bs.map Prod.fst then some (blockValues k bs) else none := by
  rw [Getopt_find, flagNames_blockTokens h, groupValues_blockTokens k [] h]

theorem Getopt_find_block_mem (prog : Str) {bs : List Block} (hok : blocksOk bs)
    {b : Block} (hb : b ∈ bs) :
    mapFind (Getopt (prog :: blockTokens bs)) b.1 = some (b.2.filter isStoredValue) := by
  rw [Getopt_find_blocks prog hok.1, if_pos (List.mem_map.2 ⟨b, hb, rfl⟩),
    blockValues_of_mem hok.2 hb]

theorem filter_isStoredValue_of_plain {ts : List Str}
    (h : ∀ t ∈ ts, t ≠ [] ∧ t.head? ≠ some '-') : ts.filter isStoredValue = ts := by
  rw [List.filter_eq_self]
  intro t ht
  exact isStoredValue_of_head (h t ht).1 (h t ht).2

/-! ### C10: order of the groups, order of the values -/

/-- C10. For every argument list made of flag blocks with pairwise distinct
flag names, every permutation of the blocks gives the same table; in that
table the keys are the flag names and the value list of each group is exactly
the stored-value tokens of its block, in argument order (the whole block when
its tokens are non-empty and none begins with `-`). -/
theorem block_order_irrelevant_value_order_kept (prog : Str) (bs bs2 : List Block)
    (hok : blocksOk bs) (hp : bs2.Perm bs) :
    Getopt (prog :: blockTokens bs2) = Getopt (prog :: blockTokens bs) ∧
    (∀ b ∈ bs, mapFind (Getopt (prog :: blockTokens bs)) b.1 =
      some (b.2.filter isStoredValue)) ∧
    (∀ b ∈ bs, (∀ t ∈ b.2, t ≠ [] ∧ t.head? ≠ some '-') →
      mapFind (Getopt (prog :: blockTokens bs)) b.1 = some b.2) ∧
    (∀ k, k ∉ bs.map Prod.fst → mapFind (Getopt (prog :: blockTokens bs)) k = none) := by
  have hok2 := blocksOk_perm hok hp
  have hfind : ∀ b ∈ bs, mapFind (Getopt (prog :: blockTokens bs)) b.1 =
      some (b.2.filter isStoredValue) := fun b hb => Getopt_find_block_mem prog hok hb
  refine ⟨?_, hfind, ?_, ?_⟩
  · apply mapSorted_ext (Getopt_sorted _) (Getopt_sorted _)
    intro k
    rw [Getopt_find_blocks prog hok.1, Getopt_find_blocks prog hok2.1,
      blockValues_perm hok.2 hp k]
    have hm : k ∈ bs2.map Prod.fst ↔ k ∈ bs.map Prod.fst := (hp.map Prod.fst).mem_iff
    simp only [hm]
  · intro b hb hplain
    rw [hfind b hb, filter_isStoredValue_of_plain hplain]
  · intro k hk
    rw [Getopt_find_blocks prog hok.1, if_neg hk]

/-- Witness of C10: the blocks `-eye 0 0 3` and `-up 0 1 0` in both orders. -/
theorem block_order_irrelevant_value_order_kept_witness :
    Getopt (["prog", "-up", "0", "1", "0", "-eye", "0", "0", "3"].map String.toList) =
      Getopt (["prog", "-eye", "0", "0", "3", "-up", "0", "1", "0"].map String.toList) :=
  (block_order_irrelevant_value_order_kept "prog".toList
    [("eye".toList, ["0", "0", "3"].map String.toList),
     ("up".toList, ["0", "1", "0"].map String.toList)]
    [("up".toList, ["0", "1", "0"].map String.toList),
     ("eye".toList, ["0", "0", "3"].map String.toList)]
    ⟨by decide, by decide⟩ (List.Perm.swap _ _ _)).1

/-! ### `InitGlobalParam` -/

theorem initGroup_fst (Cmds : CmdMap) (k : Str) (n : Nat)
    (assign : List Str → Globals → Globals) (g : Globals) :
    (initGroup Cmds k n assign g).1 = true ↔ hasGroup Cmds k n := by
  unfold initGroup hasGroup
  cases hf : mapFind Cmds k with
  | none => simp
  | some vs =>
    by_cases hn : n = vs.length
    · simp [hn]
    · have hn' : ¬ vs.length = n := fun e => hn e.symm
      simp [hn, hn']

theorem initGroup_snd_of_hasGroup {Cmds : CmdMap} {k : Str} {n : Nat}
    (assign : List Str → Globals → Globals) (g : Globals) {vs : List Str}
    (hf : mapFind Cmds k = some vs) (hn : vs.length = n) :
    initGroup Cmds k n assign g = (true, assign vs g) := by
  simp [initGroup, hf, hn]

theorem InitGlobalParam_fst (Cmds : CmdMap) (g : Globals) :
    (InitGlobalParam Cmds g).1 = true ↔
      hasGroup Cmds "obj".toList 1 ∧ hasGroup Cmds "width".toList 1 ∧
      hasGroup Cmds "height".toList 1 ∧ hasGroup Cmds "light_dir".toList 3 ∧
      hasGroup Cmds "eye".toList 3 ∧ hasGroup Cmds "center".toList 3 ∧
      hasGroup Cmds "up".toList 3 ∧ hasGroup Cmds "new_bgra".toList 4 := by
  simp only [InitGlobalParam, Bool.and_eq_true, initGroup_fst, and_assoc]

theorem InitGlobalParam_false_of_not_hasGroup {Cmds : CmdMap} (g : Globals)
    {kn : Str × Nat} (hkn : kn ∈ requiredGroups) (h : ¬ hasGroup Cmds kn.1 kn.2) :
    (InitGlobalParam Cmds g).1 = false := by
  rw [Bool.eq_false_iff]
  intro ht
  rw [InitGlobalParam_fst] at ht
  simp only [requiredGroups, List.mem_cons, List.mem_singleton, List.not_mem_nil,
    or_false] at hkn
  rcases hkn with e | e | e | e | e | e | e | e <;> subst e <;> simp_all

theorem not_mem_flagNames_of_flag_not_mem {k : Str} {args : List Str}
    (h : ('-' :: k) ∉ args) : k ∉ flagNames args := by
  intro hk
  simp only [flagNames, List.mem_map, List.mem_filter] at hk
  obtain ⟨tok, ⟨hmem, hg⟩, rfl⟩ := hk
  cases tok with
  | nil => simp [isGroupStart] at hg
  | cons c rest =>
    simp only [isGroupStart, Bool.and_eq_true, decide_eq_true_eq] at hg
    apply h
    rw [List.tail_cons, ← hg.1.1]
    exact hmem

/-! ### C2: when acquisition succeeds -/

/-- C2. `InitGlobalParam` returns `true` if and only if the table holds each of
the keys `obj`, `width`, `height` with a value list of length exactly 1,
`light_dir`, `eye`, `center`, `up` with length exactly 3 and `new_bgra` with
length exactly 4. Consequently `Getopt` followed by `InitGlobalParam` returns
`false` for every argument list in which the flag of a required group does not
occur, and for every argument list in which a required group receives a number
of values other than its arity; the example list without `-up` is such a list. -/
theorem acquisition_succeeds_iff_all_groups (Cmds : CmdMap) (g : Globals) :
    ((InitGlobalParam Cmds g).1 = true ↔
      hasGroup Cmds "obj".toList 1 ∧ hasGroup Cmds "width".toList 1 ∧
      hasGroup Cmds "height".toList 1 ∧ hasGroup Cmds "light_dir".toList 3 ∧
      hasGroup Cmds "eye".toList 3 ∧ hasGroup Cmds "center".toList 3 ∧
      hasGroup Cmds "up".toList 3 ∧ hasGroup Cmds "new_bgra".toList 4) ∧
    (∀ (prog : Str) (args : List Str) (kn : Str × Nat), kn ∈ requiredGroups →
      ('-' :: kn.1) ∉ args → (acquire (prog :: args) g).1 = false) ∧
    (∀ (prog : Str) (args : List Str) (kn : Str × Nat), kn ∈ requiredGroups →
      (groupValues kn.1 [] args).length ≠ kn.2 → (acquire (prog :: args) g).1 = false) ∧
    (∀ (prog : Str) (bs : List Block) (b : Block) (n : Nat), blocksOk bs → b ∈ bs →
      (b.1, n) ∈ requiredGroups → (b.2.filter isStoredValue).length ≠ n →
      (acquire (prog :: blockTokens bs) g).1 = false) ∧
    (acquire (withProg "tinyrenderer".toList exampleArgsWithoutUp) g).1 = false := by
  have hmiss : ∀ (prog : Str) (args : List Str) (kn : Str × Nat), kn ∈ requiredGroups →
      ('-' :: kn.1) ∉ args → (acquire (prog :: args) g).1 = false := by
    intro prog args kn hkn hflag
    apply InitGlobalParam_false_of_not_hasGroup g hkn
    rintro ⟨vs, hf, _⟩
    rw [Getopt_find, if_neg (not_mem_flagNames_of_flag_not_mem hflag)] at hf
    exact absurd hf (by simp)
  refine ⟨InitGlobalParam_fst Cmds g, hmiss, ?_, ?_, ?_⟩
  · intro prog args kn hkn hlen
    apply InitGlobalParam_false_of_not_hasGroup g hkn
    rintro ⟨vs, hf, hn⟩
    rw [Getopt_find] at hf
    split_ifs at hf
    simp only [Option.some.injEq] at hf
    rw [← hf] at hn
    exact hlen hn
  · intro prog bs b n hok hb hreq hlen
    apply InitGlobalParam_false_of_not_hasGroup g hreq
    rintro ⟨vs, hf, hn⟩
    rw [Getopt_find_blocks prog hok.1, if_pos (List.mem_map.2 ⟨b, hb, rfl⟩),
      blockValues_of_mem hok.2 hb] at hf
    simp only [Option.some.injEq] at hf
    rw [← hf] at hn
    exact hlen hn
  · have h1 : (("up".toList, 3) : Str × Nat) ∈ requiredGroups := by decide
    have h2 : ('-' :: "up".toList) ∉ exampleArgsWithoutUp := by decide
    exact hmiss "tinyrenderer".toList exampleArgsWithoutUp _ h1 h2

theorem list_length_one {vs : List Str} (h : vs.length = 1) : ∃ a, vs = [a] := by
  match vs, h with
  | [a], _ => exact ⟨a, rfl⟩

theorem list_length_three {vs : List Str} (h : vs.length = 3) : ∃ a b c, vs = [a, b, c] := by
  match vs, h with
  | [a, b, c], _ => exact ⟨a, b, c, rfl⟩

theorem list_length_four {vs : List Str} (h : vs.length = 4) :
    ∃ a b c d, vs = [a, b, c, d] := by
  match vs, h with
  | [a, b, c, d], _ => exact ⟨a, b, c, d, rfl⟩

/-- The result of `InitGlobalParam` on a table that holds the eight groups with
their arities: every global is assigned from the tokens of its group. -/
theorem InitGlobalParam_of_groups {Cmds : CmdMap} (g : Globals)
    {p w h l0 l1 l2 e0 e1 e2 c0 c1 c2 u0 u1 u2 b0 b1 b2 b3 : Str}
    (ho : mapFind Cmds "obj".toList = some [p])
    (hw : mapFind Cmds "width".toList = some [w])
    (hh : mapFind Cmds "height".toList = some [h])
    (hl : mapFind Cmds "light_dir".toList = some [l0, l1, l2])
    (he : mapFind Cmds "eye".toList = some [e0, e1, e2])
    (hc : mapFind Cmds "center".toList = some [c0, c1, c2])
    (hu : mapFind Cmds "up".toList = some [u0, u1, u2])
    (hb : mapFind Cmds "new_bgra".toList = some [b0, b1, b2, b3]) :
    InitGlobalParam Cmds g =
      (true,
        { obj := p, width := TryStoi w, height := TryStoi h,
          light_dir := ⟨TryStod l0, TryStod l1, TryStod l2⟩,
          eye := ⟨TryStod e0, TryStod e1, TryStod e2⟩,
          center := ⟨TryStod c0, TryStod c1, TryStod c2⟩,
          up := ⟨TryStod u0, TryStod u1, TryStod u2⟩,
          new_bgra := ⟨toUint8 (TryStod b0), toUint8 (TryStod b1),
                       toUint8 (TryStod b2), toUint8 (TryStod b3)⟩ }) := by
  simp only [InitGlobalParam,
    @initGroup_snd_of_hasGroup Cmds _ 1 _ _ _ ho rfl,
    @initGroup_snd_of_hasGroup Cmds _ 1 _ _ _ hw rfl,
    @initGroup_snd_of_hasGroup Cmds _ 1 _ _ _ hh rfl,
    @initGroup_snd_of_hasGroup Cmds _ 3 _ _ _ hl rfl,
    @initGroup_snd_of_hasGroup Cmds _ 3 _ _ _ he rfl,
    @initGroup_snd_of_hasGroup Cmds _ 3 _ _ _ hc rfl,
    @initGroup_snd_of_hasGroup Cmds _ 3 _ _ _ hu rfl,
    @initGroup_snd_of_hasGroup Cmds _ 4 _ _ _ hb rfl]
  simp [idx, readVec3, readBgra]

/-! ### C5: width and height after a successful call -/

/-- C5 (as stated, refuted). On the example argument list with `-width 0` and
`-height -5`, `Getopt` followed by `InitGlobalParam` returns `true` and leaves
`width = 0` and `height = -5`: neither is positive. -/
theorem zero_width_is_accepted :
    (acquire (withProg "tinyrenderer".toList exampleArgsZeroWidth) Globals.init).1 = true ∧
    (acquire (withProg "tinyrenderer".toList exampleArgsZeroWidth) Globals.init).2.width = 0 ∧
    (acquire (withProg "tinyrenderer".toList exampleArgsZeroWidth) Globals.init).2.height = -5 ∧
    ¬ (0 < (acquire (withProg "tinyrenderer".toList exampleArgsZeroWidth)
      Globals.init).2.width) := by
  decide!

/-- C5 (amended). Whenever `InitGlobalParam` returns `true`, the groups `width`
and `height` hold exactly one token each and the globals `width` and `height`
are what `TryStoi` gives for those tokens; no sign is checked, so each is
positive exactly when `TryStoi` of its token is: the tokens `0` and `abc` give
0 and `-5` gives -5. -/
theorem width_height_are_TryStoi_of_tokens (Cmds : CmdMap) (g : Globals)
    (hret : (InitGlobalParam Cmds g).1 = true) :
    (∃ w h, mapFind Cmds "width".toList = some [w] ∧
      mapFind Cmds "height".toList = some [h] ∧
      (InitGlobalParam Cmds g).2.width = TryStoi w ∧
      (InitGlobalParam Cmds g).2.height = TryStoi h ∧
      (0 < (InitGlobalParam Cmds g).2.width ↔ 0 < TryStoi w) ∧
      (0 < (InitGlobalParam Cmds g).2.height ↔ 0 < TryStoi h)) ∧
    TryStoi "0".toList = 0 ∧ TryStoi "abc".toList = 0 ∧ TryStoi "-5".toList = -5 := by
  refine ⟨?_, by decide, by decide, by decide⟩
  rw [InitGlobalParam_fst] at hret
  obtain ⟨⟨vo, ho, no⟩, ⟨vw, hw, nw⟩, ⟨vh, hh, nh⟩, ⟨vl, hl, nl⟩, ⟨ve, he, ne⟩,
    ⟨vc, hc, nc⟩, ⟨vu, hu, nu⟩, ⟨vb, hb, nb⟩⟩ := hret
  obtain ⟨p, rfl⟩ := list_length_one no
  obtain ⟨w, rfl⟩ := list_length_one nw
  obtain ⟨h, rfl⟩ := list_length_one nh
  obtain ⟨l0, l1, l2, rfl⟩ := list_length_three nl
  obtain ⟨e0, e1, e2, rfl⟩ := list_length_three ne
  obtain ⟨c0, c1, c2, rfl⟩ := list_length_three nc
  obtain ⟨u0, u1, u2, rfl⟩ := list_length_three nu
  obtain ⟨b0, b1, b2, b3, rfl⟩ := list_length_four nb
  rw [InitGlobalParam_of_groups g ho hw hh hl he hc hu hb]
  exact ⟨w, h, hw, hh, rfl, rfl, Iff.rfl, Iff.rfl⟩

/-- Witness of C5 (amended): the table of the example argument list with
`-width 0` and `-height -5`. -/
theorem width_height_are_TryStoi_of_tokens_witness :
    ∃ w h, mapFind (Getopt (withProg "tinyrenderer".toList exampleArgsZeroWidth))
        "width".toList = some [w] ∧
      mapFind (Getopt (withProg "tinyrenderer".toList exampleArgsZeroWidth))
        "height".toList = some [h] ∧
      (InitGlobalParam (Getopt (withProg "tinyrenderer".toList exampleArgsZeroWidth))
        Globals.init).2.width = TryStoi w ∧
      (InitGlobalParam (Getopt (withProg "tinyrenderer".toList exampleArgsZeroWidth))
        Globals.init).2.height = TryStoi h :=
  have h := (width_height_are_TryStoi_of_tokens
    (Getopt (withProg "tinyrenderer".toList exampleArgsZeroWidth)) Globals.init
    (by decide!)).1
  match h with
  | ⟨w, h, h1, h2, h3, h4, _⟩ => ⟨w, h, h1, h2, h3, h4⟩

/-! ### Numeric conversions -/

theorem takeWhile_append_stop {p : Char → Bool} {l1 l2 : Str}
    (h1 : ∀ a ∈ l1, p a = true) (h2 : ∀ c, l2.head? = some c → p c = false) :
    (l1 ++ l2).takeWhile p = l1 := by
  induction l1 with
  | nil =>
    cases l2 with
    | nil => rfl
    | cons c t => simp [List.takeWhile, h2 c rfl]
  | cons a t ih =>
    have ha : p a = true := h1 a (by simp)
    simp only [List.cons_append, List.takeWhile_cons, ha, if_true]
    rw [ih (fun b hb => h1 b (by simp [hb]))]

theorem dropWhile_append_stop {p : Char → Bool} {l1 l2 : Str}
    (h1 : ∀ a ∈ l1, p a = true) (h2 : ∀ c, l2.head? = some c → p c = false) :
    (l1 ++ l2).dropWhile p = l2 := by
  induction l1 with
  | nil =>
    cases l2 with
    | nil => rfl
    | cons c t => simp [List.dropWhile, h2 c rfl]
  | cons a t ih =>
    have ha : p a = true := h1 a (by simp)
    simp only [List.cons_append, List.dropWhile_cons, ha, if_true]
    rw [ih (fun b hb => h1 b (by simp [hb]))]

theorem dropWhile_of_head {p : Char → Bool} {c : Char} {t : Str} (h : p c = false) :
    (c :: t).dropWhile p = c :: t := by
  simp [List.dropWhile, h]

theorem isDigitChar_iff (c : Char) : isDigitChar c = true ↔ 48 ≤ c.toNat ∧ c.toNat ≤ 57 := by
  simp only [isDigitChar, Bool.and_eq_true, decide_eq_true_eq, char_le_iff]
  have e0 : '0'.toNat = 48 := rfl
  have e9 : '9'.toNat = 57 := rfl
  rw [e0, e9]

theorem digitVal_of_isDigitChar {c : Char} (h : isDigitChar c = true) :
    digitVal c = c.toNat - '0'.toNat := by
  rw [isDigitChar_iff] at h
  have ha : ¬ ('a' ≤ c) := by
    rw [char_le_iff]
    have : 'a'.toNat = 97 := rfl
    omega
  have hA : ¬ ('A' ≤ c) := by
    rw [char_le_iff]
    have : 'A'.toNat = 65 := rfl
    omega
  simp [digitVal, ha, hA]

theorem digitsVal_append_singleton (b : Nat) (ds : Str) (c : Char) :
    digitsVal b (ds ++ [c]) = b * digitsVal b ds + digitVal c := by
  simp [digitsVal, List.foldl_append]

theorem digitsVal_append (b : Nat) (xs ys : Str) :
    digitsVal b (xs ++ ys) = digitsVal b xs * b ^ ys.length + digitsVal b ys := by
  induction ys using List.reverseRecOn with
  | nil => simp [digitsVal]
  | append_singleton ys c ih =>
    rw [← List.append_assoc, digitsVal_append_singleton, ih, digitsVal_append_singleton]
    simp only [List.length_append, List.length_singleton, pow_succ]
    ring

theorem digitsVal_eq_decimalValue {ds : Str} (h : ∀ c ∈ ds, isDigitChar c = true) :
    digitsVal 10 ds = decimalValue ds := by
  induction ds using List.reverseRecOn with
  | nil => simp [digitsVal, decimalValue]
  | append_singleton ds c ih =>
    have hc : isDigitChar c = true := h c (by simp)
    rw [digitsVal_append_singleton, ih (fun a ha => h a (by simp [ha])),
      digitVal_of_isDigitChar hc]
    simp only [decimalValue, List.map_append, List.map_cons, List.map_nil,
      List.reverse_append, List.reverse_cons, List.reverse_nil, List.nil_append,
      List.singleton_append, Nat.ofDigits_cons]
    ring

theorem isDigits_iff (ds : Str) :
    isDigits ds = true ↔ ds ≠ [] ∧ ∀ c ∈ ds, isDigitChar c = true := by
  simp [isDigits]

theorem isSpaceChar_false_of_isDigitChar {c : Char} (h : isDigitChar c = true) :
    isSpaceChar c = false := by
  rw [isDigitChar_iff] at h
  rw [Bool.eq_false_iff]
  intro hs
  simp only [isSpaceChar, Bool.or_eq_true, decide_eq_true_eq, char_eq_iff] at hs
  have e1 : ' '.toNat = 32 := rfl
  have e2 : '\t'.toNat = 9 := rfl
  have e3 : '\n'.toNat = 10 := rfl
  have e4 : '\x0b'.toNat = 11 := rfl
  have e5 : '\x0c'.toNat = 12 := rfl
  have e6 : '\r'.toNat = 13 := rfl
  omega

theorem char_ne_of_isDigitChar {c d : Char} (h : isDigitChar c = true)
    (hd : d.toNat < 48 ∨ 57 < d.toNat) : c ≠ d := by
  rw [isDigitChar_iff] at h
  intro e
  subst e
  omega

/-- The sign and the digits `stoi` sees in an integer literal followed by text
that does not start with a digit. -/
theorem stoi_intLit (l : IntLit) (rest : Str) (hw : isDigits l.digits = true)
    (hr : ∀ c, rest.head? = some c → isDigitChar c = false) :
    stoi (l.token ++ rest) =
      if INT_MIN ≤ l.value ∧ l.value ≤ INT_MAX then some l.value else none := by
  obtain ⟨hne, hd⟩ := (isDigits_iff _).1 hw
  obtain ⟨neg, ds⟩ := l
  simp only at hne hd
  cases ds with
  | nil => exact absurd rfl hne
  | cons d ds' =>
    have hd0 : isDigitChar d = true := hd d (by simp)
    have hsp : isSpaceChar d = false := isSpaceChar_false_of_isDigitChar hd0
    have hm : d ≠ '-' := char_ne_of_isDigitChar hd0 (by decide)
    have hp : d ≠ '+' := char_ne_of_isDigitChar hd0 (by decide)
    have htake : ((d :: ds') ++ rest).takeWhile isDigitChar = d :: ds' :=
      takeWhile_append_stop hd hr
    have hval := digitsVal_eq_decimalValue hd
    cases neg with
    | true =>
      have hsm : isSpaceChar '-' = false := by decide
      have h1 : (IntLit.token ⟨true, d :: ds'⟩ ++ rest).dropWhile isSpaceChar =
          '-' :: ((d :: ds') ++ rest) := by
        simp [IntLit.token, List.dropWhile, hsm]
      simp only [stoi, h1, takeSign, htake, hval, IntLit.value]
      simp
    | false =>
      have h1 : (IntLit.token ⟨false, d :: ds'⟩ ++ rest).dropWhile isSpaceChar =
          (d :: ds') ++ rest := by
        simp [IntLit.token, List.dropWhile, hsp]
      have h2 : takeSign ((d :: ds') ++ rest) = (false, (d :: ds') ++ rest) := by
        simp only [List.cons_append]
        rw [takeSign]
        · exact fun r e => hm (by injection e)
        · exact fun r e => hp (by injection e)
      simp only [stoi, h1, h2, htake, hval, IntLit.value]
      simp

theorem dropWhile_append_all {p : Char → Bool} {l1 : Str} (l2 : Str)
    (h1 : ∀ a ∈ l1, p a = true) : (l1 ++ l2).dropWhile p = l2.dropWhile p := by
  induction l1 with
  | nil => rfl
  | cons a t ih =>
    have ha : p a = true := h1 a (by simp)
    simp only [List.cons_append, List.dropWhile_cons, ha, if_true]
    exact ih (fun b hb => h1 b (by simp [hb]))

theorem takeWhile_nil_of_noDigitAhead {s : Str} (h : noDigitAhead s = true) :
    s.takeWhile isDigitChar = [] := by
  cases s with
  | nil => rfl
  | cons c t =>
    simp only [noDigitAhead, Bool.not_eq_eq_eq_not, Bool.not_true] at h
    simp [List.takeWhile, h]

theorem takeSign_of_noSpaceOrSignAhead {s : Str} (h : noSpaceOrSignAhead s = true) :
    s.dropWhile isSpaceChar = s ∧ takeSign s = (false, s) := by
  cases s with
  | nil => exact ⟨rfl, rfl⟩
  | cons c t =>
    simp only [noSpaceOrSignAhead, Bool.not_eq_eq_eq_not, Bool.not_true,
      Bool.or_eq_false_iff, decide_eq_false_iff_not] at h
    obtain ⟨⟨hs, hm⟩, hp⟩ := h
    refine ⟨dropWhile_of_head hs, ?_⟩
    rw [takeSign]
    · exact fun r e => hm (by injection e)
    · exact fun r e => hp (by injection e)

/-- The sign `strtol` and `strtod` read after the white space, and the text
left for the number. -/
theorem takeSign_after_space {ws : Str} (sg : Option Bool) {rest : Str}
    (hws : ∀ c ∈ ws, isSpaceChar c = true)
    (hsg : sg = none → noSpaceOrSignAhead rest = true) :
    takeSign ((ws ++ signText sg ++ rest).dropWhile isSpaceChar) =
      (decide (sg = some true), rest) := by
  rw [List.append_assoc, dropWhile_append_all _ hws]
  match sg, hsg with
  | none, hsg =>
    obtain ⟨h1, h2⟩ := takeSign_of_noSpaceOrSignAhead (hsg rfl)
    simp only [signText, List.nil_append, h1, h2]
    simp
  | some true, _ =>
    have hsm : isSpaceChar '-' = false := by decide
    simp [signText, List.dropWhile, hsm, takeSign]
  | some false, _ =>
    have hsm : isSpaceChar '+' = false := by decide
    simp [signText, List.dropWhile, hsm, takeSign]

theorem stoi_none_of_no_number {ws : Str} (sg : Option Bool) {rest : Str}
    (hws : ∀ c ∈ ws, isSpaceChar c = true)
    (hsg : sg = none → noSpaceOrSignAhead rest = true) (hr : noDigitAhead rest = true) :
    stoi (ws ++ signText sg ++ rest) = none := by
  simp only [stoi, takeSign_after_space sg hws hsg, takeWhile_nil_of_noDigitAhead hr,
    if_true]

/-! ### Rounding to the nearest double -/

theorem roundHalfEven_spec (x : ℚ) :
    (roundHalfEven x : ℚ) - 1 / 2 ≤ x ∧ x ≤ (roundHalfEven x : ℚ) + 1 / 2 := by
  have h1 : (Int.floor x : ℚ) ≤ x := Int.floor_le x
  have h2 : x < (Int.floor x : ℚ) + 1 := Int.lt_floor_add_one x
  unfold roundHalfEven
  split_ifs with a b c
  · constructor <;> linarith
  · push_cast
    constructor <;> linarith
  · constructor <;> linarith
  · push_cast
    constructor <;> linarith

theorem roundHalfEven_intCast (n : Int) : roundHalfEven (n : ℚ) = n := by
  unfold roundHalfEven
  rw [Int.floor_intCast]
  norm_num

theorem roundHalfEven_mono {x y : ℚ} (h : x ≤ y) : roundHalfEven x ≤ roundHalfEven y := by
  by_contra hlt
  push_neg at hlt
  have hx := (roundHalfEven_spec x).1
  have hy := (roundHalfEven_spec y).2
  have h1 : (roundHalfEven y : ℚ) + 1 ≤ (roundHalfEven x : ℚ) := by exact_mod_cast hlt
  have hxy : x = y := le_antisymm h (by linarith)
  rw [hxy] at hlt
  exact lt_irrefl _ hlt

theorem expSearch_spec (q : ℚ) (k : Nat) (lo : Int) :
    lo ≤ expSearch q k lo ∧ expSearch q k lo ≤ lo + 2 ^ k - 1 ∧
    ((lo < expSearch q k lo ∨ (2 : ℚ) ^ lo ≤ q) → (2 : ℚ) ^ expSearch q k lo ≤ q) ∧
    ((expSearch q k lo < lo + 2 ^ k - 1 ∨ q < (2 : ℚ) ^ (lo + 2 ^ k)) →
      q < (2 : ℚ) ^ (expSearch q k lo + 1)) := by
  induction k generalizing lo with
  | zero =>
    simp only [expSearch, pow_zero]
    refine ⟨le_refl _, by omega, ?_, ?_⟩
    · rintro (h | h)
      · exact absurd h (lt_irrefl _)
      · exact h
    · rintro (h | h)
      · omega
      · exact h
  | succ k ih =>
    have hk : (0 : Int) < 2 ^ k := by positivity
    have h2 : (2 : Int) ^ (k + 1) = 2 ^ k + 2 ^ k := by ring
    unfold expSearch
    split_ifs with hc
    · obtain ⟨i1, i2, i3, i4⟩ := ih (lo + 2 ^ k)
      refine ⟨by omega, by omega, fun _ => i3 (Or.inr hc), ?_⟩
      rintro (h | h)
      · exact i4 (Or.inl (by omega))
      · apply i4
        right
        rw [h2, ← add_assoc] at h
        exact h
    · obtain ⟨i1, i2, i3, i4⟩ := ih lo
      push_neg at hc
      refine ⟨i1, by omega, i3, fun _ => i4 (Or.inr hc)⟩

theorem binade_bounds (q : ℚ) : -1022 ≤ binade q ∧ binade q ≤ 1025 := by
  have h := expSearch_spec |q| 11 (-1022)
  unfold binade
  constructor
  · exact h.1
  · have := h.2.1
    norm_num at this
    exact this

theorem binade_le (q : ℚ) (h : -1022 < binade q ∨ (2 : ℚ) ^ (-1022 : Int) ≤ |q|) :
    (2 : ℚ) ^ binade q ≤ |q| :=
  (expSearch_spec |q| 11 (-1022)).2.2.1 h

theorem lt_binade_succ (q : ℚ) (h : binade q < 1025 ∨ |q| < (2 : ℚ) ^ (1026 : Int)) :
    |q| < (2 : ℚ) ^ (binade q + 1) := by
  apply (expSearch_spec |q| 11 (-1022)).2.2.2
  rcases h with h | h
  · left
    unfold binade at h
    norm_num
    exact h
  · right
    norm_num
    norm_num at h
    exact h

theorem binade_mono {a b : ℚ} (h : |a| ≤ |b|) : binade a ≤ binade b := by
  by_contra hlt
  push_neg at hlt
  have ha := binade_le a (Or.inl (lt_of_le_of_lt (binade_bounds b).1 hlt))
  have hb := lt_binade_succ b (Or.inl (lt_of_lt_of_le hlt (binade_bounds a).2))
  have h3 : (2 : ℚ) ^ (binade b + 1) ≤ (2 : ℚ) ^ binade a :=
    zpow_le_zpow_right₀ (by norm_num) (by omega)
  linarith

theorem two_zpow_add_natCast (e : Int) (k : Nat) :
    (2 : ℚ) ^ (e + (k : Int)) = ((2 ^ k : Int) : ℚ) * (2 : ℚ) ^ e := by
  rw [zpow_add₀ (by norm_num : (2 : ℚ) ≠ 0), zpow_natCast]
  push_cast
  ring

theorem two_zpow_eq_mul_ulp (q : ℚ) (k : Nat) :
    (2 : ℚ) ^ (binade q - 52 + (k : Int)) = ((2 ^ k : Int) : ℚ) * ulp q :=
  two_zpow_add_natCast _ _

theorem ulp_pos (q : ℚ) : 0 < ulp q := by
  unfold ulp
  positivity

theorem roundQ_mono {a b : ℚ} (ha : 0 ≤ a) (h : a ≤ b) : roundQ a ≤ roundQ b := by
  have hb : 0 ≤ b := le_trans ha h
  have hab : |a| ≤ |b| := by rwa [abs_of_nonneg ha, abs_of_nonneg hb]
  have he := binade_mono hab
  rcases eq_or_lt_of_le he with heq | hlt
  · have hu : ulp a = ulp b := by
      unfold ulp
      rw [heq]
    unfold roundQ
    rw [hu]
    apply mul_le_mul_of_nonneg_right _ (le_of_lt (ulp_pos b))
    exact_mod_cast roundHalfEven_mono (div_le_div_of_nonneg_right h (le_of_lt (ulp_pos b)))
  · have h1 := lt_binade_succ a (Or.inl (lt_of_lt_of_le hlt (binade_bounds b).2))
    have h2 := binade_le b (Or.inl (lt_of_le_of_lt (binade_bounds a).1 hlt))
    rw [abs_of_nonneg ha] at h1
    rw [abs_of_nonneg hb] at h2
    have hmid : (2 : ℚ) ^ (binade a + 1) ≤ (2 : ℚ) ^ binade b :=
      zpow_le_zpow_right₀ (by norm_num) (by omega)
    have hA : roundQ a ≤ (2 : ℚ) ^ (binade a + 1) := by
      unfold roundQ
      have e1 : (2 : ℚ) ^ (binade a + 1) = ((2 ^ 53 : Int) : ℚ) * ulp a := by
        rw [← two_zpow_eq_mul_ulp]
        congr 1
        push_cast
        ring
      rw [e1]
      apply mul_le_mul_of_nonneg_right _ (le_of_lt (ulp_pos a))
      have : a / ulp a ≤ ((2 ^ 53 : Int) : ℚ) := by
        rw [div_le_iff₀ (ulp_pos a), ← e1]
        exact le_of_lt h1
      have h3 := roundHalfEven_mono this
      rw [roundHalfEven_intCast] at h3
      exact_mod_cast h3
    have hB : (2 : ℚ) ^ binade b ≤ roundQ b := by
      unfold roundQ
      have e1 : (2 : ℚ) ^ binade b = ((2 ^ 52 : Int) : ℚ) * ulp b := by
        rw [← two_zpow_eq_mul_ulp]
        congr 1
        push_cast
        ring
      rw [e1]
      apply mul_le_mul_of_nonneg_right _ (le_of_lt (ulp_pos b))
      have : ((2 ^ 52 : Int) : ℚ) ≤ b / ulp b := by
        rw [le_div_iff₀ (ulp_pos b), ← e1]
        exact h2
      have h3 := roundHalfEven_mono this
      rw [roundHalfEven_intCast] at h3
      exact_mod_cast h3
    linarith

theorem roundQ_zero : roundQ 0 = 0 := by
  unfold roundQ
  rw [zero_div]
  have : roundHalfEven 0 = 0 := by
    have := roundHalfEven_intCast 0
    simpa using this
  rw [this]
  simp

theorem roundQ_nonneg {q : ℚ} (h : 0 ≤ q) : 0 ≤ roundQ q := by
  have := roundQ_mono (le_refl (0 : ℚ)) h
  rwa [roundQ_zero] at this

/-- A multiple of its unit in the last place is kept by the rounding. -/
theorem roundQ_of_eq_mul_ulp {q : ℚ} (m : Int) (h : q = (m : ℚ) * ulp q) : roundQ q = q := by
  have hu := ulp_pos q
  have : q / ulp q = (m : ℚ) := by
    rw [div_eq_iff (ne_of_gt hu)]
    exact h
  unfold roundQ
  rw [this, roundHalfEven_intCast]
  exact h.symm

/-- A natural number below `2^53` is a double. -/
theorem roundQ_natCast {n : Nat} (h : n ≤ 2 ^ 53) : roundQ (n : ℚ) = n := by
  rcases Nat.eq_zero_or_pos n with h0 | h0
  · subst h0
    simpa using roundQ_zero
  have hq : (1 : ℚ) ≤ (n : ℚ) := by exact_mod_cast h0
  have habs : |(n : ℚ)| = n := abs_of_nonneg (by linarith)
  have hlo : (2 : ℚ) ^ (-1022 : Int) ≤ |(n : ℚ)| := by
    rw [habs]
    refine le_trans ?_ hq
    exact zpow_le_one_of_nonpos₀ (by norm_num) (by norm_num)
  have h1 := binade_le (n : ℚ) (Or.inr hlo)
  have hup : |(n : ℚ)| < (2 : ℚ) ^ (1026 : Int) := by
    rw [habs]
    have : (n : ℚ) ≤ 2 ^ 53 := by exact_mod_cast h
    refine lt_of_le_of_lt this ?_
    norm_num
  have h2 := lt_binade_succ (n : ℚ) (Or.inr hup)
  rw [habs] at h1 h2
  have e0 : 0 ≤ binade (n : ℚ) := by
    by_contra hneg
    push_neg at hneg
    have : (2 : ℚ) ^ (binade (n : ℚ) + 1) ≤ (2 : ℚ) ^ (0 : Int) :=
      zpow_le_zpow_right₀ (by norm_num) (by omega)
    rw [zpow_zero] at this
    linarith
  have e53 : binade (n : ℚ) ≤ 53 := by
    by_contra hbig
    push_neg at hbig
    have : (2 : ℚ) ^ (54 : Int) ≤ (2 : ℚ) ^ binade (n : ℚ) :=
      zpow_le_zpow_right₀ (by norm_num) (by omega)
    have h53 : (n : ℚ) ≤ 2 ^ 53 := by exact_mod_cast h
    norm_num at this
    linarith
  rcases eq_or_lt_of_le e53 with e | e
  · have hn : (n : ℚ) = 2 ^ 53 := by
      apply le_antisymm (by exact_mod_cast h)
      have h3 : (2 : ℚ) ^ (53 : Int) ≤ (n : ℚ) := by
        rw [← e]
        exact h1
      have h4 : (2 : ℚ) ^ (53 : Int) = 2 ^ 53 := by norm_num
      rw [h4] at h3
      exact h3
    apply roundQ_of_eq_mul_ulp (2 ^ 52)
    unfold ulp
    rw [e, hn]
    norm_num
  · obtain ⟨k, hk⟩ : ∃ k : Nat, (k : Int) = 52 - binade (n : ℚ) := ⟨(52 - binade (n : ℚ)).toNat, by omega⟩
    apply roundQ_of_eq_mul_ulp ((n : Int) * 2 ^ k)
    have hu : ulp (n : ℚ) = ((2 : ℚ) ^ k)⁻¹ := by
      unfold ulp
      rw [← zpow_natCast, ← zpow_neg, hk]
      congr 1
      ring
    rw [hu]
    push_cast
    field_simp

theorem endsNumber_head {rest : Str} (h : endsNumber rest = true) (c : Char)
    (hc : rest.head? = some c) :
    isDigitChar c = false ∧ c ≠ '.' ∧ c ≠ 'e' ∧ c ≠ 'E' ∧ c ≠ 'x' ∧ c ≠ 'X' := by
  cases rest with
  | nil => simp at hc
  | cons a t =>
    simp only [List.head?_cons, Option.some.injEq] at hc
    subst hc
    simpa [endsNumber, not_or, and_assoc] using h

theorem exponentPart_of_endsNumber {rest : Str} (h : endsNumber rest = true) :
    exponentPart 'e' 'E' rest = 0 := by
  cases rest with
  | nil => rfl
  | cons c t =>
    obtain ⟨_, _, he, hE, _, _⟩ := endsNumber_head h c rfl
    simp [exponentPart, he, hE]

/-- What follows the digits and the point of a literal (its exponent part and
then text that cannot continue a number) starts with no digit, point or `x`. -/
theorem expText_append_head (l : DecLit) {rest : Str} (hr : endsNumber rest = true) (c : Char)
    (hc : (l.expText ++ rest).head? = some c) :
    isDigitChar c = false ∧ c ≠ '.' ∧ c ≠ 'x' ∧ c ≠ 'X' := by
  obtain ⟨sg, ip, pt, fp, ex⟩ := l
  cases ex with
  | none =>
    simp only [DecLit.expText, List.nil_append] at hc
    obtain ⟨h1, h2, _, _, h5, h6⟩ := endsNumber_head hr c hc
    exact ⟨h1, h2, h5, h6⟩
  | some x =>
    obtain ⟨up, xs, xd⟩ := x
    simp only [DecLit.expText, ExpLit.text, List.cons_append, List.head?_cons,
      Option.some.injEq] at hc
    subst hc
    cases up
    · simp only [Bool.false_eq_true, if_false]
      decide
    · simp only [if_true]
      decide

/-- The mantissa `strtod` reads from the digits of a decimal literal. -/
theorem mantissa_digits {ip fp tail : Str} (point : Bool)
    (hip : ∀ c ∈ ip, isDigitChar c = true) (hfp : ∀ c ∈ fp, isDigitChar c = true)
    (hpt : point = false → fp = [])
    (ht : ∀ c, tail.head? = some c → isDigitChar c = false ∧ c ≠ '.') :
    mantissa isDigitChar (ip ++ (if point then '.' :: fp else []) ++ tail) =
      (ip, fp, tail) := by
  have hrd : ∀ c, tail.head? = some c → isDigitChar c = false := fun c hc => (ht c hc).1
  have hdot : isDigitChar '.' = false := by decide
  cases point with
  | false =>
    have hfs : fp = [] := hpt rfl
    subst hfs
    simp only [Bool.false_eq_true, if_false, List.append_nil]
    have h1 : (ip ++ tail).takeWhile isDigitChar = ip := takeWhile_append_stop hip hrd
    have h2 : (ip ++ tail).dropWhile isDigitChar = tail := dropWhile_append_stop hip hrd
    simp only [mantissa, h1, h2]
    cases tail with
    | nil => rfl
    | cons c t =>
      have hc := (ht c rfl).2
      simp [hc]
  | true =>
    simp only [if_true, List.append_assoc, List.cons_append]
    have hstop : ∀ c, ('.' :: (fp ++ tail)).head? = some c → isDigitChar c = false := by
      intro c hc
      simp only [List.head?_cons, Option.some.injEq] at hc
      rw [← hc]
      exact hdot
    have h1 : (ip ++ '.' :: (fp ++ tail)).takeWhile isDigitChar = ip :=
      takeWhile_append_stop hip hstop
    have h2 : (ip ++ '.' :: (fp ++ tail)).dropWhile isDigitChar = '.' :: (fp ++ tail) :=
      dropWhile_append_stop hip hstop
    have h3 : (fp ++ tail).takeWhile isDigitChar = fp := takeWhile_append_stop hfp hrd
    have h4 : (fp ++ tail).dropWhile isDigitChar = tail := dropWhile_append_stop hfp hrd
    simp [mantissa, h1, h2, h3, h4]

/-- The exponent `strtod` reads from the exponent part of a literal. -/
theorem exponentPart_expText (l : DecLit) (hw : l.wf = true) {rest : Str}
    (hr : endsNumber rest = true) :
    exponentPart 'e' 'E' (l.expText ++ rest) = l.expValue := by
  obtain ⟨sg, ip, pt, fp, ex⟩ := l
  cases ex with
  | none =>
    simp only [DecLit.expText, DecLit.expValue, List.nil_append]
    exact exponentPart_of_endsNumber hr
  | some x =>
    obtain ⟨up, xs, xd⟩ := x
    have hxd : isDigits xd = true := by
      simp only [DecLit.wf, Bool.and_eq_true] at hw
      exact hw.2
    obtain ⟨hne, hd⟩ := (isDigits_iff _).1 hxd
    have hrd : ∀ c, rest.head? = some c → isDigitChar c = false :=
      fun c hc => (endsNumber_head hr c hc).1
    have htake : (xd ++ rest).takeWhile isDigitChar = xd := takeWhile_append_stop hd hrd
    have hval : digitsVal 10 xd = decimalValue xd := digitsVal_eq_decimalValue hd
    have hsign : takeSign (signText xs ++ (xd ++ rest)) = (decide (xs = some true), xd ++ rest) := by
      match xs with
      | none =>
        match xd, hne, hd with
        | d :: ds', _, hd =>
          have hd0 : isDigitChar d = true := hd d (by simp)
          have hm : d ≠ '-' := char_ne_of_isDigitChar hd0 (by decide)
          have hp : d ≠ '+' := char_ne_of_isDigitChar hd0 (by decide)
          simp only [signText, List.nil_append, List.cons_append]
          rw [takeSign]
          · simp
          · exact fun r e => hm (by injection e)
          · exact fun r e => hp (by injection e)
      | some true => simp [signText, takeSign]
      | some false => simp [signText, takeSign]
    have hmark : (if up = true then 'E' else 'e') = 'e' ∨ (if up = true then 'E' else 'e') = 'E' := by
      cases up <;> simp
    simp only [DecLit.expText, DecLit.expValue, ExpLit.text, ExpLit.value, List.cons_append,
      List.append_assoc, exponentPart, hmark, if_true, hsign, htake, hval, if_neg hne]
    by_cases hs : xs = some true <;> simp [hs]

/-- A decimal literal is not read as a hexadecimal one. -/
theorem readHex_digits {ip fp tail : Str} (point : Bool)
    (hip : ∀ c ∈ ip, isDigitChar c = true) (hne : ip ++ fp ≠ [])
    (hpt : point = false → fp = [])
    (ht : ∀ c, tail.head? = some c → c ≠ 'x' ∧ c ≠ 'X') :
    readHex (ip ++ (if point then '.' :: fp else []) ++ tail) = none := by
  have hdig : ∀ c, isDigitChar c = true → ¬ (c = 'x' ∨ c = 'X') := by
    intro c h e
    rcases e with e | e <;> subst e <;> revert h <;> decide
  match ip, hip with
  | [], _ =>
    cases point with
    | false =>
      have := hpt rfl
      subst this
      exact absurd rfl hne
    | true =>
      have h0 : ¬ ('.' = '0') := by decide
      simp only [List.nil_append, if_true, List.cons_append]
      cases h : fp ++ tail with
      | nil => rfl
      | cons a t => simp only [readHex, h0, false_and, if_false]
  | [d], _ =>
    cases point with
    | false =>
      simp only [Bool.false_eq_true, if_false, List.append_nil, List.singleton_append]
      cases tail with
      | nil => rfl
      | cons x r =>
        obtain ⟨h1, h2⟩ := ht x rfl
        simp [readHex, h1, h2]
    | true =>
      have h1 : ¬ ('.' = 'x' ∨ '.' = 'X') := by decide
      simp only [if_true, List.singleton_append, List.cons_append, List.nil_append,
        List.append_assoc, readHex, h1, and_false, if_false]
  | d :: d2 :: ds3, hip =>
    have h2 := hdig d2 (hip d2 (by simp))
    simp only [List.cons_append, readHex, h2, and_false, if_false]

/-- The number `strtod` reads from the text of a decimal literal (without its
sign) followed by text that cannot continue a number. -/
theorem readFinite_decLit (l : DecLit) (hw : l.wf = true) {rest : Str}
    (hr : endsNumber rest = true) :
    readFinite (l.intPart ++ (if l.point then '.' :: l.fracPart else []) ++
      (l.expText ++ rest)) = some l.magnitude := by
  have hexp := exponentPart_expText l hw hr
  have hhead := expText_append_head l hr
  obtain ⟨sg, ip, pt, fp, ex⟩ := l
  have hw2 := hw
  simp only [DecLit.wf, Bool.and_eq_true, List.all_eq_true, decide_eq_true_eq,
    Bool.or_eq_true] at hw2
  obtain ⟨⟨⟨⟨hip, hfp⟩, hne⟩, hpt⟩, _⟩ := hw2
  have hpt2 : pt = false → fp = [] := by
    intro h
    rcases hpt with h1 | h1
    · rw [h] at h1
      exact absurd h1 (by simp)
    · exact h1
  have hall : ∀ c ∈ ip ++ fp, isDigitChar c = true := by
    intro c hc
    rcases List.mem_append.1 hc with h | h
    · exact hip c h
    · exact hfp c h
  have hv : digitsVal 10 (ip ++ fp) = decimalValue ip * 10 ^ fp.length + decimalValue fp := by
    rw [digitsVal_append, digitsVal_eq_decimalValue hip, digitsVal_eq_decimalValue hfp]
  have hman := @mantissa_digits ip fp (DecLit.expText ⟨sg, ip, pt, fp, ex⟩ ++ rest) pt hip hfp
    hpt2 (fun c hc => ⟨(hhead c hc).1, (hhead c hc).2.1⟩)
  have hhex := @readHex_digits ip fp (DecLit.expText ⟨sg, ip, pt, fp, ex⟩ ++ rest) pt hip hne
    hpt2 (fun c hc => (hhead c hc).2.2)
  simp only [readFinite, hhex, readDecimal, hman, hexp]
  rw [if_neg hne, hv]
  congr 1
  simp only [DecLit.magnitude]
  have h10 : ((10 : ℚ) ^ fp.length) ≠ 0 := pow_ne_zero _ (by norm_num)
  rw [zpow_sub₀ (by norm_num : (10 : ℚ) ≠ 0), zpow_natCast]
  push_cast
  field_simp

/-- The first character of the digits and point of a well-formed literal: a
digit or the point. -/
theorem decLit_body_head (l : DecLit) (hw : l.wf = true) (tail : Str) :
    ∃ c t, l.intPart ++ (if l.point then '.' :: l.fracPart else []) ++ tail = c :: t ∧
      (isDigitChar c = true ∨ c = '.') := by
  obtain ⟨sg, ip, pt, fp, ex⟩ := l
  simp only [DecLit.wf, Bool.and_eq_true, List.all_eq_true, decide_eq_true_eq,
    Bool.or_eq_true] at hw
  obtain ⟨⟨⟨⟨hip, hfp⟩, hne⟩, hpt⟩, _⟩ := hw
  match ip, hip, hne with
  | d :: ds, hip, _ => exact ⟨d, _, rfl, Or.inl (hip d (by simp))⟩
  | [], _, hne =>
    cases pt with
    | true => exact ⟨'.', _, rfl, Or.inr rfl⟩
    | false =>
      rcases hpt with h | h
      · exact absurd h (by simp)
      · exact absurd (by simpa using h) hne

theorem startsWithNoCase_of_digit {w : Str} {a : Char} {c : Char} {t : Str}
    (hc : isDigitChar c = true) (ha : isDigitChar a = false) {w2 : Str} (hw : w = a :: w2) :
    startsWithNoCase w (c :: t) = false := by
  subst hw
  have hl : lowerChar c = c := by
    rw [isDigitChar_iff] at hc
    have : ¬ ('A' ≤ c) := by
      rw [char_le_iff]
      have : 'A'.toNat = 65 := rfl
      omega
    simp [lowerChar, this]
  have hne : c ≠ a := by
    intro e
    subst e
    rw [hc] at ha
    exact absurd ha (by simp)
  simp [startsWithNoCase, hl, hne]

theorem startsWithNoCase_of_point {w : Str} {a : Char} {t : Str}
    (ha : a ≠ '.') {w2 : Str} (hw : w = a :: w2) :
    startsWithNoCase w ('.' :: t) = false := by
  subst hw
  have hl : lowerChar '.' = '.' := by decide
  simp [startsWithNoCase, hl, Ne.symm ha]

/-- What `stod` returns on a decimal literal followed by text that cannot
continue a number. -/
theorem stod_decLit (l : DecLit) (rest : Str) (hw : l.wf = true)
    (hr : endsNumber rest = true) :
    stod (l.token ++ rest) =
      if dblRangeError l.magnitude = true then none else some (binary64 l.value) := by
  have hread := readFinite_decLit l hw hr
  obtain ⟨c, t, hbody, hc⟩ := decLit_body_head l hw (l.expText ++ rest)
  have htok : l.token ++ rest =
      [] ++ signText l.sign ++ (l.intPart ++ (if l.point then '.' :: l.fracPart else []) ++
        (l.expText ++ rest)) := by
    simp [DecLit.token, List.append_assoc]
  have hnosp : noSpaceOrSignAhead (c :: t) = true := by
    rcases hc with hc | hc
    · have h1 := isSpaceChar_false_of_isDigitChar hc
      have h2 : c ≠ '-' := char_ne_of_isDigitChar hc (by decide)
      have h3 : c ≠ '+' := char_ne_of_isDigitChar hc (by decide)
      simp [noSpaceOrSignAhead, h1, h2, h3]
    · subst hc
      rfl
  have hinf : startsWithNoCase ['i', 'n', 'f'] (c :: t) = false := by
    rcases hc with hc | hc
    · exact startsWithNoCase_of_digit hc (by decide) rfl
    · subst hc
      exact startsWithNoCase_of_point (by decide) rfl
  have hnan : startsWithNoCase ['n', 'a', 'n'] (c :: t) = false := by
    rcases hc with hc | hc
    · exact startsWithNoCase_of_digit hc (by decide) rfl
    · subst hc
      exact startsWithNoCase_of_point (by decide) rfl
  have hsign := @takeSign_after_space [] l.sign
    (l.intPart ++ (if l.point then '.' :: l.fracPart else []) ++ (l.expText ++ rest))
    (by simp) (fun _ => by rw [hbody]; exact hnosp)
  rw [htok]
  simp only [stod, hsign]
  rw [hbody] at hread ⊢
  simp only [hinf, hnan, hread, DecLit.value, Bool.false_eq_true, if_false]
  by_cases hs : l.sign = some true <;> by_cases he : dblRangeError l.magnitude = true <;>
    simp [hs, he]

theorem lowerChar_ne {c a up : Char} (h1 : c ≠ a) (h2 : c ≠ up)
    (honly : ∀ n, 65 ≤ n → n ≤ 90 → lowerChar (Char.ofNat n) = a → Char.ofNat n = up) :
    lowerChar c ≠ a := by
  by_cases hu : 'A' ≤ c ∧ c ≤ 'Z'
  · intro e
    have hc : c = Char.ofNat c.toNat := (Char.ofNat_toNat c).symm
    have hA : 'A'.toNat = 65 := rfl
    have hZ : 'Z'.toNat = 90 := rfl
    rw [char_le_iff, char_le_iff, hA, hZ] at hu
    rw [hc] at e
    exact h2 (hc.trans (honly c.toNat hu.1 hu.2 e))
  · have : lowerChar c = c := by
      simp only [lowerChar, Bool.and_eq_true, decide_eq_true_eq]
      rw [if_neg hu]
    rw [this]
    exact h1

theorem upper_i_only (n : Nat) (h1 : 65 ≤ n) (h2 : n ≤ 90)
    (h : lowerChar (Char.ofNat n) = 'i') : Char.ofNat n = 'I' := by
  interval_cases n <;> first | rfl | exact absurd h (by decide)

theorem upper_n_only (n : Nat) (h1 : 65 ≤ n) (h2 : n ≤ 90)
    (h : lowerChar (Char.ofNat n) = 'n') : Char.ofNat n = 'N' := by
  interval_cases n <;> first | rfl | exact absurd h (by decide)

theorem stod_none_of_no_number {ws : Str} (sg : Option Bool) {rest : Str}
    (hws : ∀ c ∈ ws, isSpaceChar c = true)
    (hsg : sg = none → noSpaceOrSignAhead rest = true) (hr : noFloatAhead rest = true) :
    stod (ws ++ signText sg ++ rest) = none := by
  have hfin : startsWithNoCase ['i', 'n', 'f'] rest = false ∧
      startsWithNoCase ['n', 'a', 'n'] rest = false ∧ readFinite rest = none := by
    cases rest with
    | nil => exact ⟨rfl, rfl, rfl⟩
    | cons c t =>
      simp only [noFloatAhead, Bool.not_eq_eq_eq_not, Bool.not_true, Bool.or_eq_false_iff,
        decide_eq_false_iff_not] at hr
      obtain ⟨⟨⟨⟨⟨hd, hdot⟩, hi⟩, hI⟩, hn⟩, hN⟩ := hr
      have hli : lowerChar c ≠ 'i' := lowerChar_ne hi hI upper_i_only
      have hln : lowerChar c ≠ 'n' := lowerChar_ne hn hN upper_n_only
      have h0 : c ≠ '0' := by
        intro e
        subst e
        exact absurd hd (by decide)
      have hhex : readHex (c :: t) = none := by
        cases t with
        | nil => rfl
        | cons x r => simp [readHex, h0]
      have hdec : readDecimal (c :: t) = none := by
        simp [readDecimal, mantissa, List.takeWhile, List.dropWhile, hd, hdot]
      refine ⟨?_, ?_, ?_⟩
      · simp [startsWithNoCase, hli]
      · simp [startsWithNoCase, hln]
      · simp [readFinite, hhex, hdec]
  simp only [stod, takeSign_after_space sg hws hsg, hfin.1, hfin.2.1, hfin.2.2]
  simp

theorem TryStoi_intLit (l : IntLit) (rest : Str) (hw : isDigits l.digits = true)
    (hr : ∀ c, rest.head? = some c → isDigitChar c = false) :
    TryStoi (l.token ++ rest) =
      if INT_MIN ≤ l.value ∧ l.value ≤ INT_MAX then l.value else 0 := by
  rw [TryStoi, stoi_intLit l rest hw hr]
  split_ifs <;> rfl

theorem TryStod_decLit (l : DecLit) (rest : Str) (hw : l.wf = true)
    (hr : endsNumber rest = true) :
    TryStod (l.token ++ rest) =
      if dblRangeError l.magnitude = true then Dbl.fin 0 else binary64 l.value := by
  rw [TryStod, stod_decLit l rest hw hr]
  split_ifs <;> rfl


/-! ### Literals as tokens of `Getopt` -/

theorem digits_token_props {ds : Str} (hw : isDigits ds = true) :
    isGroupStart ds = false ∧ isStoredValue ds = true := by
  obtain ⟨hne, hd⟩ := (isDigits_iff _).1 hw
  match ds, hne, hd with
  | d :: ds', _, hd =>
    have hm : d ≠ '-' := char_ne_of_isDigitChar (hd d (by simp)) (by decide)
    simp [isGroupStart, isStoredValue, hm]

theorem minus_digits_token_props {ds : Str} (hw : isDigits ds = true) :
    isGroupStart ('-' :: ds) = false ∧ isStoredValue ('-' :: ds) = true := by
  obtain ⟨hne, hd⟩ := (isDigits_iff _).1 hw
  have hnum : ∀ c ∈ ds, isNumberChar c = true := fun c hc => isNumberChar_of_isDigitChar (hd c hc)
  constructor
  · match ds, hne, hd with
    | d :: ds', _, hd =>
      have hl : isLetterChar d = false :=
        isLetterChar_false_of_isNumberChar (isNumberChar_of_isDigitChar (hd d (by simp)))
      simp [isGroupStart, hl]
  · have hm : isNumberChar '-' = true := by decide
    simp only [isStoredValue, if_true, List.all_cons, hm, Bool.true_and, Bool.and_eq_true,
      decide_eq_true_eq, List.all_eq_true]
    exact ⟨hne, hnum⟩

theorem intLit_token_props {l : IntLit} (hw : isDigits l.digits = true) :
    isGroupStart l.token = false ∧ isStoredValue l.token = true := by
  obtain ⟨neg, ds⟩ := l
  cases neg with
  | true => exact minus_digits_token_props hw
  | false => exact digits_token_props hw

theorem decLit_token_props {l : DecLit} (h : l.ok) :
    isGroupStart l.token = false ∧ isStoredValue l.token = true := by
  obtain ⟨hw, hneg, _⟩ := h
  obtain ⟨c, t, hbody, hc⟩ := decLit_body_head l hw l.expText
  have hcm : c ≠ '-' := by
    rcases hc with hc | hc
    · exact char_ne_of_isDigitChar hc (by decide)
    · subst hc
      decide
  have htok : l.token = signText l.sign ++ (c :: t) := by
    rw [← hbody]
    simp [DecLit.token, List.append_assoc]
  match hs : l.sign with
  | some true =>
    obtain ⟨hp, he⟩ := hneg hs
    obtain ⟨sg, ip, pt, fp, ex⟩ := l
    simp only at hs hp he
    subst hs hp
    cases ex with
    | some x => simp at he
    | none =>
      simp only [DecLit.wf, Bool.and_eq_true, decide_eq_true_eq, Bool.or_eq_true,
        Bool.false_eq_true, false_or] at hw
      obtain ⟨⟨⟨⟨hip, _⟩, hne⟩, hfp⟩, _⟩ := hw
      subst hfp
      have hd : isDigits ip = true := by
        rw [isDigits_iff]
        exact ⟨by simpa using hne, by simpa using hip⟩
      have := minus_digits_token_props hd
      simpa [DecLit.token, DecLit.expText, signText] using this
  | some false =>
    rw [htok, hs]
    simp [signText, isGroupStart, isStoredValue]
  | none =>
    rw [htok, hs]
    simp [signText, isGroupStart, isStoredValue, hcm]

theorem vecLit_tokens_props {v : VecLit} (h : v.ok) :
    ∀ t ∈ v.tokens, isGroupStart t = false ∧ isStoredValue t = true := by
  intro t ht
  simp only [VecLit.tokens, List.mem_cons, List.mem_singleton, List.not_mem_nil,
    or_false] at ht
  rcases ht with e | e | e
  · rw [e]
    exact decLit_token_props h.1
  · rw [e]
    exact decLit_token_props h.2.1
  · rw [e]
    exact decLit_token_props h.2.2

theorem colorLit_tokens_props {c : ColorLit} (h : c.ok) :
    ∀ t ∈ c.tokens, isGroupStart t = false ∧ isStoredValue t = true := by
  intro t ht
  simp only [ColorLit.tokens, List.mem_cons, List.mem_singleton, List.not_mem_nil,
    or_false] at ht
  rcases ht with e | e | e | e
  · rw [e]
    exact digits_token_props h.1.1
  · rw [e]
    exact digits_token_props h.2.1.1
  · rw [e]
    exact digits_token_props h.2.2.1.1
  · rw [e]
    exact digits_token_props h.2.2.2.1

theorem requiredBlocks_props {p : Str} {w h : IntLit} {l e c u : VecLit} {bg : ColorLit}
    (hp : p ≠ [] ∧ p.head? ≠ some '-') (hw : w.ok) (hh : h.ok) (hl : l.ok) (he : e.ok)
    (hc : c.ok) (hu : u.ok) (hbg : bg.ok) :
    blocksOk (requiredBlocks p w h l e c u bg) ∧
    ∀ b ∈ requiredBlocks p w h l e c u bg, b.2.filter isStoredValue = b.2 := by
  have hall : ∀ b ∈ requiredBlocks p w h l e c u bg,
      ∀ t ∈ b.2, isGroupStart t = false ∧ isStoredValue t = true := by
    intro b hb
    simp only [requiredBlocks, List.mem_cons, List.mem_singleton, List.not_mem_nil,
      or_false] at hb
    rcases hb with e1 | e1 | e1 | e1 | e1 | e1 | e1 | e1 <;> subst e1
    · intro t ht
      simp only [List.mem_singleton] at ht
      subst ht
      exact ⟨isGroupStart_false_of_head hp.2, isStoredValue_of_head hp.1 hp.2⟩
    · intro t ht
      simp only [List.mem_singleton] at ht
      subst ht
      exact intLit_token_props hw.1
    · intro t ht
      simp only [List.mem_singleton] at ht
      subst ht
      exact intLit_token_props hh.1
    · exact vecLit_tokens_props hl
    · exact vecLit_tokens_props he
    · exact vecLit_tokens_props hc
    · exact vecLit_tokens_props hu
    · exact colorLit_tokens_props hbg
  have hnames : ∀ b ∈ requiredBlocks p w h l e c u bg, isGroupStart ('-' :: b.1) = true := by
    intro b hb
    simp only [requiredBlocks, List.mem_cons, List.mem_singleton, List.not_mem_nil,
      or_false] at hb
    rcases hb with e1 | e1 | e1 | e1 | e1 | e1 | e1 | e1 <;> subst e1 <;> dsimp only <;> decide
  refine ⟨⟨fun b hb => ⟨hnames b hb, fun t ht => (hall b hb t ht).1⟩, ?_⟩, ?_⟩
  · simp only [requiredBlocks, List.map_cons, List.map_nil]
    decide
  · intro b hb
    rw [List.filter_eq_self]
    exact fun t ht => (hall b hb t ht).2

theorem dblInRange_natCast {n : Nat} (h : n ≤ 255) : dblInRange (n : ℚ) = true := by
  simp only [dblInRange, Bool.or_eq_true, decide_eq_true_eq, Bool.and_eq_true]
  rcases Nat.eq_zero_or_pos n with h0 | h0
  · left
    simp [h0]
  · right
    have h1 : (1 : ℚ) ≤ (n : ℚ) := by exact_mod_cast h0
    have h2 : (n : ℚ) ≤ 255 := by exact_mod_cast h
    have habs : |(n : ℚ)| = n := abs_of_nonneg (by linarith)
    rw [habs]
    constructor
    · have : dblMinNormal ≤ 1 := by
        unfold dblMinNormal
        norm_num
      linarith
    · have : (255 : ℚ) < dblOverflow := by
        unfold dblOverflow
        norm_num
      linarith

theorem dblRangeError_of_inRange {q : ℚ} (h : dblInRange q = true) :
    dblRangeError q = false := by
  simp only [dblInRange, Bool.or_eq_true, decide_eq_true_eq, Bool.and_eq_true] at h
  simp only [dblRangeError, Bool.or_eq_false_iff, decide_eq_false_iff_not, Bool.and_eq_false_iff,
    not_le, bne_eq_false_iff_eq, not_lt]
  rcases h with h | ⟨h1, h2⟩
  · subst h
    refine ⟨?_, Or.inr ?_⟩
    · rw [abs_zero]
      unfold dblOverflow
      norm_num
    · rw [abs_zero]
      exact roundQ_zero
  · refine ⟨h2, Or.inl ?_⟩
    have : dblMinNormal - 1 / 2 ^ 1076 ≤ dblMinNormal := by norm_num
    linarith

/-- A natural number up to `2^53` is its own nearest double. -/
theorem binary64_natCast {n : Nat} (h : n ≤ 2 ^ 53) : binary64 (n : ℚ) = Dbl.fin n := by
  have h0 : (0 : ℚ) ≤ (n : ℚ) := Nat.cast_nonneg n
  have h1 : (n : ℚ) ≤ 2 ^ 53 := by exact_mod_cast h
  have hov : ¬ dblOverflow ≤ |(n : ℚ)| := by
    rw [abs_of_nonneg h0, not_le]
    refine lt_of_le_of_lt h1 ?_
    unfold dblOverflow
    norm_num
  unfold binary64
  rw [if_neg hov, if_neg (not_lt.2 h0), roundQ_natCast h]

theorem toUint8_TryStod_digits {ds : Str} (hw : isDigits ds = true)
    (h : decimalValue ds ≤ 255) : toUint8 (TryStod ds) = some (decimalValue ds) := by
  obtain ⟨hne, hd⟩ := (isDigits_iff _).1 hw
  have hwf : DecLit.wf ⟨none, ds, false, [], none⟩ = true := by
    simp only [DecLit.wf, Bool.and_eq_true, List.all_eq_true, decide_eq_true_eq,
      Bool.or_eq_true, List.append_nil]
    exact ⟨⟨⟨⟨hd, fun _ h => absurd h (List.not_mem_nil _)⟩, hne⟩, Or.inr trivial⟩, trivial⟩
  have hmag : DecLit.magnitude ⟨none, ds, false, [], none⟩ = (decimalValue ds : ℚ) := by
    simp [DecLit.magnitude, DecLit.expValue, decimalValue]
  have := TryStod_decLit ⟨none, ds, false, [], none⟩ [] hwf rfl
  rw [hmag, dblRangeError_of_inRange (dblInRange_natCast h)] at this
  simp only [DecLit.token, DecLit.value, DecLit.expText, signText, hmag, Bool.false_eq_true,
    if_false, List.nil_append, List.append_nil, reduceCtorEq] at this
  rw [this, binary64_natCast (le_trans h (by norm_num))]
  simp only [toUint8, Rat.num_natCast, Rat.den_natCast, Nat.cast_one, Int.tdiv_one]
  rw [if_pos ⟨by omega, by omega⟩]
  simp

theorem TryStoi_of_ok {l : IntLit} (h : l.ok) : TryStoi l.token = l.value := by
  have := TryStoi_intLit l [] h.1 (by simp)
  rw [List.append_nil, if_pos h.2] at this
  exact this

theorem TryStod_of_ok {l : DecLit} (h : l.ok) : TryStod l.token = binary64 l.value := by
  have := TryStod_decLit l [] h.1 rfl
  rw [List.append_nil, dblRangeError_of_inRange h.2.2] at this
  simpa using this

/-- A value that the rounding keeps is its own nearest double. -/
theorem binary64_of_exact {q : ℚ} (h1 : |q| < dblOverflow) (h2 : roundQ |q| = |q|) :
    binary64 q = Dbl.fin q := by
  unfold binary64
  rw [if_neg (not_le.2 h1)]
  by_cases hq : q < 0
  · rw [if_pos hq]
    rw [abs_of_neg hq] at h2
    rw [h2, neg_neg]
  · rw [if_neg hq]
    rw [abs_of_nonneg (not_lt.1 hq)] at h2
    rw [h2]

/-! ### C4: what `TryStoi` and `TryStod` return -/

/-- C4 (as stated, refuted). The string `12abc` is not a numeric literal in its
entirety, yet `TryStoi` returns 12 for it, not 0, and `TryStod` returns 12.0;
for `1.5x`, `TryStod` returns 1.5 and `TryStoi` returns 1. -/
theorem trailing_text_is_ignored :
    isSignedIntLit "12abc".toList = false ∧ TryStoi "12abc".toList = 12 ∧
    TryStod "12abc".toList = Dbl.fin 12 ∧
    isSignedIntLit "1.5x".toList = false ∧ TryStod "1.5x".toList = Dbl.fin (3 / 2) ∧
    TryStoi "1.5x".toList = 1 := by
  decide!

/-- C4 (amended). `TryStoi` and `TryStod` are total: they return the value of
the library conversion, and 0 when it throws. It throws, so they return 0, on
text that starts no number: white space and an optional sign followed by
nothing, or by a character that is not a digit (nor, for `stod`, a `.` or the
start of `inf`/`nan`), such as `abc` and the empty string; and on a literal
that is out of range (an integer literal outside `int`, a decimal literal that
overflows the doubles). A well-formed in-range integer literal gives the
integer it denotes. A well-formed decimal literal that is zero or in the range
of the normal doubles gives the double nearest to the number it denotes (the
number itself when it is a double: `1.5`, but not `0.1`), also when other text
follows the literal: only the leading literal is converted and the rest is
ignored. -/
theorem numeric_wrappers_fall_back_or_read_prefix :
    (∀ s, TryStoi s = (stoi s).getD 0 ∧ TryStod s = (stod s).getD (Dbl.fin 0)) ∧
    (∀ (ws : Str) (sg : Option Bool) (rest : Str), (∀ c ∈ ws, isSpaceChar c = true) →
      (sg = none → noSpaceOrSignAhead rest = true) → noDigitAhead rest = true →
      TryStoi (ws ++ signText sg ++ rest) = 0) ∧
    (∀ (ws : Str) (sg : Option Bool) (rest : Str), (∀ c ∈ ws, isSpaceChar c = true) →
      (sg = none → noSpaceOrSignAhead rest = true) → noFloatAhead rest = true →
      TryStod (ws ++ signText sg ++ rest) = Dbl.fin 0) ∧
    (∀ (l : IntLit) (rest : Str), isDigits l.digits = true →
      (∀ c, rest.head? = some c → isDigitChar c = false) →
      TryStoi (l.token ++ rest) =
        if INT_MIN ≤ l.value ∧ l.value ≤ INT_MAX then l.value else 0) ∧
    (∀ (l : DecLit) (rest : Str), l.wf = true → endsNumber rest = true →
      dblInRange l.magnitude = true → TryStod (l.token ++ rest) = binary64 l.value) ∧
    (∀ (l : DecLit) (rest : Str), l.wf = true → endsNumber rest = true →
      dblOverflow ≤ l.magnitude → TryStod (l.token ++ rest) = Dbl.fin 0) ∧
    (∀ l : IntLit, isDigits l.digits = true → INT_MIN ≤ l.value → l.value ≤ INT_MAX →
      TryStoi l.token = l.value) ∧
    (∀ l : DecLit, l.wf = true → dblInRange l.magnitude = true →
      TryStod l.token = binary64 l.value) ∧
    (∀ l : DecLit, l.wf = true → dblInRange l.magnitude = true →
      roundQ |l.value| = |l.value| → TryStod l.token = Dbl.fin l.value) ∧
    TryStoi "abc".toList = 0 ∧ TryStoi [] = 0 ∧ TryStoi "99999999999".toList = 0 ∧
    TryStod "abc".toList = Dbl.fin 0 ∧ TryStod [] = Dbl.fin 0 ∧
    TryStod "1e400".toList = Dbl.fin 0 ∧
    TryStoi "12abc".toList = 12 ∧ TryStod "1.5x".toList = Dbl.fin (3 / 2) ∧
    TryStod "0.1".toList = Dbl.fin (3602879701896397 / 36028797018963968) ∧
    TryStod "9007199254740993".toList = Dbl.fin 9007199254740992 ∧
    TryStod "1e23".toList = Dbl.fin 99999999999999991611392 ∧
    TryStod ".5".toList = Dbl.fin (1 / 2) ∧ TryStod "1e3".toList = Dbl.fin 1000 ∧
    TryStod "+2".toList = Dbl.fin 2 ∧
    TryStod "0x1p-1074".toList = Dbl.fin (1 / 2 ^ 1074) := by
  have hval : ∀ l : DecLit, |l.value| = |l.magnitude| := by
    intro l
    unfold DecLit.value
    split_ifs
    · exact abs_neg _
    · rfl
  refine ⟨?_, ?_, ?_, TryStoi_intLit, ?_, ?_, ?_, ?_, ?_, by decide, by decide,
    by decide, by decide!, by decide!, by decide!, by decide, by decide!, by decide!,
    by decide!, by decide!, by decide!, by decide!, by decide!, by decide!⟩
  · intro s
    constructor
    · unfold TryStoi
      cases stoi s <;> rfl
    · unfold TryStod
      cases stod s <;> rfl
  · intro ws sg rest hws hsg hr
    rw [TryStoi, stoi_none_of_no_number sg hws hsg hr]
  · intro ws sg rest hws hsg hr
    rw [TryStod, stod_none_of_no_number sg hws hsg hr]
  · intro l rest hw hr hin
    rw [TryStod_decLit l rest hw hr, dblRangeError_of_inRange hin]
    simp
  · intro l rest hw hr hov
    have herr : dblRangeError l.magnitude = true := by
      simp only [dblRangeError, Bool.or_eq_true, decide_eq_true_eq]
      exact Or.inl (le_trans hov (le_abs_self _))
    rw [TryStod_decLit l rest hw hr, if_pos herr]
  · intro l hw h1 h2
    have := TryStoi_intLit l [] hw (by simp)
    rw [List.append_nil, if_pos ⟨h1, h2⟩] at this
    exact this
  · intro l hw hin
    have := TryStod_decLit l [] hw rfl
    rw [List.append_nil, dblRangeError_of_inRange hin] at this
    simpa using this
  · intro l hw hin hex
    have := TryStod_decLit l [] hw rfl
    rw [List.append_nil, dblRangeError_of_inRange hin] at this
    have hlt : |l.value| < dblOverflow := by
      rw [hval]
      simp only [dblInRange, Bool.or_eq_true, decide_eq_true_eq, Bool.and_eq_true] at hin
      rcases hin with h | h
      · rw [h, abs_zero]
        unfold dblOverflow
        norm_num
      · exact h.2
    rw [binary64_of_exact hlt hex] at this
    simpa using this

/-! ### C1: acquisition on a complete argument list -/

/-- C1 (as stated, refuted). In the example argument list with the light
direction `-0.5 1 1` every flag appears once with its number of value tokens,
each a decimal literal of its type; yet `Getopt` drops the token `-0.5`, the
group `light_dir` is left with two values, and `InitGlobalParam` returns
`false`. -/
theorem negative_fraction_is_dropped :
    mapFind (Getopt (withProg "tinyrenderer".toList exampleArgsNegFraction))
      "light_dir".toList = some ["1".toList, "1".toList] ∧
    (acquire (withProg "tinyrenderer".toList exampleArgsNegFraction) Globals.init).1 =
      false := by
  decide

/-- C1 (amended). For every argument list in which each of the eight flags
appears exactly once, in any order, immediately followed by its value tokens
(1, 1, 1, 3, 3, 3, 3, 4 of them), where the path is a non-empty token that does
not begin with `-`, the width and height tokens are decimal integer literals
in the range of `int`, the vector components are decimal floating literals
(optional sign, digits with an optional point, optional exponent part) that
are zero or in the range of the normal doubles and that, when they begin with
`-`, consist of `-` and digits only, and the background tokens are digit
strings denoting 0..255: `Getopt` followed by `InitGlobalParam` returns `true`
and every global equals the number (or path) its tokens denote, a vector
component being the double nearest to the number its token denotes, component
by component in token order, whatever the globals held before. -/
theorem complete_arguments_acquired (prog : Str) (g : Globals) (p : Str) (w h : IntLit)
    (l e c u : VecLit) (bg : ColorLit) (bs : List Block)
    (hp : p ≠ [] ∧ p.head? ≠ some '-') (hw : w.ok) (hh : h.ok)
    (hl : l.ok) (he : e.ok) (hc : c.ok) (hu : u.ok) (hbg : bg.ok)
    (hperm : bs.Perm (requiredBlocks p w h l e c u bg)) :
    acquire (prog :: blockTokens bs) g =
      (true,
        { obj := p, width := w.value, height := h.value,
          light_dir := ⟨binary64 l.x.value, binary64 l.y.value, binary64 l.z.value⟩,
          eye := ⟨binary64 e.x.value, binary64 e.y.value, binary64 e.z.value⟩,
          center := ⟨binary64 c.x.value, binary64 c.y.value, binary64 c.z.value⟩,
          up := ⟨binary64 u.x.value, binary64 u.y.value, binary64 u.z.value⟩,
          new_bgra := bg.value }) := by
  obtain ⟨hok0, hfil⟩ := requiredBlocks_props hp hw hh hl he hc hu hbg
  have hok : blocksOk bs := blocksOk_perm hok0 hperm
  have hfind : ∀ b ∈ requiredBlocks p w h l e c u bg,
      mapFind (Getopt (prog :: blockTokens bs)) b.1 = some b.2 := by
    intro b hb
    rw [Getopt_find_block_mem prog hok (hperm.mem_iff.2 hb), hfil b hb]
  have f0 := hfind ("obj".toList, [p]) (by simp [requiredBlocks])
  have f1 := hfind ("width".toList, [w.token]) (by simp [requiredBlocks])
  have f2 := hfind ("height".toList, [h.token]) (by simp [requiredBlocks])
  have f3 := hfind ("light_dir".toList, l.tokens) (by simp [requiredBlocks])
  have f4 := hfind ("eye".toList, e.tokens) (by simp [requiredBlocks])
  have f5 := hfind ("center".toList, c.tokens) (by simp [requiredBlocks])
  have f6 := hfind ("up".toList, u.tokens) (by simp [requiredBlocks])
  have f7 := hfind ("new_bgra".toList, bg.tokens) (by simp [requiredBlocks])
  rw [acquire, InitGlobalParam_of_groups g f0 f1 f2 f3 f4 f5 f6 f7,
    TryStoi_of_ok hw, TryStoi_of_ok hh,
    TryStod_of_ok hl.1, TryStod_of_ok hl.2.1, TryStod_of_ok hl.2.2,
    TryStod_of_ok he.1, TryStod_of_ok he.2.1, TryStod_of_ok he.2.2,
    TryStod_of_ok hc.1, TryStod_of_ok hc.2.1, TryStod_of_ok hc.2.2,
    TryStod_of_ok hu.1, TryStod_of_ok hu.2.1, TryStod_of_ok hu.2.2,
    toUint8_TryStod_digits hbg.1.1 hbg.1.2, toUint8_TryStod_digits hbg.2.1.1 hbg.2.1.2,
    toUint8_TryStod_digits hbg.2.2.1.1 hbg.2.2.1.2,
    toUint8_TryStod_digits hbg.2.2.2.1 hbg.2.2.2.2]
  rfl

/-- Witness of C1 (amended): the arguments `-width 800 -obj head.obj -height 600
-light_dir -1 0.1 +2 -eye .5 1e3 3 -center 0 0 0 -up 0 1 0 -new_bgra 0 0 0 255`;
the component `0.1` is acquired as the double nearest to one tenth. -/
theorem complete_arguments_acquired_witness :
    acquire
      (["tinyrenderer", "-width", "800", "-obj", "head.obj", "-height", "600",
        "-light_dir", "-1", "0.1", "+2", "-eye", ".5", "1e3", "3",
        "-center", "0", "0", "0", "-up", "0", "1", "0",
        "-new_bgra", "0", "0", "0", "255"].map String.toList) Globals.init =
      (true,
        { obj := "head.obj".toList, width := 800, height := 600,
          light_dir := ⟨Dbl.fin (-1),
            Dbl.fin (3602879701896397 / 36028797018963968), 2⟩,
          eye := ⟨Dbl.fin (1 / 2), 1000, 3⟩,
          center := ⟨0, 0, 0⟩, up := ⟨0, 1, 0⟩,
          new_bgra := ⟨some 0, some 0, some 0, some 255⟩ }) :=
  (complete_arguments_acquired "tinyrenderer".toList Globals.init "head.obj".toList
    ⟨false, "800".toList⟩ ⟨false, "600".toList⟩
    ⟨⟨some true, "1".toList, false, [], none⟩, ⟨none, "0".toList, true, "1".toList, none⟩,
      ⟨some false, "2".toList, false, [], none⟩⟩
    ⟨⟨none, [], true, "5".toList, none⟩,
      ⟨none, "1".toList, false, [], some ⟨false, none, "3".toList⟩⟩,
      ⟨none, "3".toList, false, [], none⟩⟩
    ⟨⟨none, "0".toList, false, [], none⟩, ⟨none, "0".toList, false, [], none⟩,
      ⟨none, "0".toList, false, [], none⟩⟩
    ⟨⟨none, "0".toList, false, [], none⟩, ⟨none, "1".toList, false, [], none⟩,
      ⟨none, "0".toList, false, [], none⟩⟩
    ⟨"0".toList, "0".toList, "0".toList, "255".toList⟩
    (("width".toList, ["800".toList]) :: ("obj".toList, ["head.obj".toList]) ::
      (requiredBlocks "head.obj".toList ⟨false, "800".toList⟩ ⟨false, "600".toList⟩
        ⟨⟨some true, "1".toList, false, [], none⟩,
          ⟨none, "0".toList, true, "1".toList, none⟩,
          ⟨some false, "2".toList, false, [], none⟩⟩
        ⟨⟨none, [], true, "5".toList, none⟩,
          ⟨none, "1".toList, false, [], some ⟨false, none, "3".toList⟩⟩,
          ⟨none, "3".toList, false, [], none⟩⟩
        ⟨⟨none, "0".toList, false, [], none⟩, ⟨none, "0".toList, false, [], none⟩,
          ⟨none, "0".toList, false, [], none⟩⟩
        ⟨⟨none, "0".toList, false, [], none⟩, ⟨none, "1".toList, false, [], none⟩,
          ⟨none, "0".toList, false, [], none⟩⟩
        ⟨"0".toList, "0".toList, "0".toList, "255".toList⟩).drop 2)
    (by decide) (by decide!) (by decide!)
    (by decide!) (by decide!) (by decide!) (by decide!) (by decide!)
    (List.Perm.swap _ _ _)).trans (by decide!)

/-! ### C19: the table `Getopt` returns -/

theorem mem_mapKeys_iff {m : CmdMap} {k : Str} : k ∈ mapKeys m ↔ ∃ vs, (k, vs) ∈ m := by
  simp [mapKeys]

theorem mem_groupValues {k cur : Str} {toks : List Str} {v : Str}
    (h : v ∈ groupValues k cur toks) : v ∈ toks ∧ isStoredValue v = true := by
  induction toks generalizing cur with
  | nil => simp [groupValues] at h
  | cons tok rest ih =>
    rw [groupValues_cons] at h
    split_ifs at h with h1 h2
    · exact ⟨List.mem_cons_of_mem _ (ih h).1, (ih h).2⟩
    · rcases List.mem_cons.1 h with e | e
      · subst e
        exact ⟨by simp, h2.2.2⟩
      · exact ⟨List.mem_cons_of_mem _ (ih e).1, (ih e).2⟩
    · exact ⟨List.mem_cons_of_mem _ (ih h).1, (ih h).2⟩

theorem mem_flagNames {k : Str} {toks : List Str} (h : k ∈ flagNames toks) :
    ('-' :: k) ∈ toks ∧ k ≠ [] ∧ k.all isLetterChar = true := by
  simp only [flagNames, List.mem_map, List.mem_filter] at h
  obtain ⟨tok, ⟨hmem, hg⟩, rfl⟩ := h
  cases tok with
  | nil => simp [isGroupStart] at hg
  | cons c rest =>
    simp only [isGroupStart, Bool.and_eq_true, decide_eq_true_eq] at hg
    obtain ⟨⟨hc, hne⟩, hall⟩ := hg
    subst hc
    exact ⟨hmem, hne, hall⟩

theorem isStoredValue_shape {v : Str} (h : isStoredValue v = true) :
    v ≠ [] ∧ (v.head? ≠ some '-' ∨ v.all isNumberChar = true) := by
  cases v with
  | nil => simp [isStoredValue] at h
  | cons c rest =>
    refine ⟨by simp, ?_⟩
    by_cases hc : c = '-'
    · right
      subst hc
      simp only [isStoredValue, if_true, Bool.and_eq_true] at h
      exact h.2
    · left
      simpa using hc

theorem head_ne_minus_of_all_letter {k : Str} (h : k.all isLetterChar = true) :
    k.head? ≠ some '-' := by
  cases k with
  | nil => simp
  | cons c rest =>
    simp only [List.all_cons, Bool.and_eq_true] at h
    intro e
    simp only [List.head?_cons, Option.some.injEq] at e
    subst e
    exact absurd h.1 (by decide)

theorem tableSize_cons (p : Str × List Str) (m : CmdMap) :
    tableSize (p :: m) = tableSize m + 1 + p.2.length := by
  simp only [tableSize, List.length_cons, List.map_cons, List.sum_cons]
  omega

theorem tableSize_mapInsert_le (m : CmdMap) (k : Str) :
    tableSize (mapInsert m k []) ≤ tableSize m + 1 := by
  induction m with
  | nil => simp [mapInsert, tableSize]
  | cons p rest ih =>
    obtain ⟨k', vs'⟩ := p
    simp only [mapInsert]
    split_ifs
    · rw [tableSize_cons]
      simp
    · rw [tableSize_cons, tableSize_cons]
      omega
    · omega

theorem tableSize_mapPushBack {m : CmdMap} (hm : mapSorted m) {k : Str} (v : Str)
    (hk : (mapFind m k).isSome = true) :
    tableSize (mapPushBack m k v) = tableSize m + 1 := by
  induction m with
  | nil => simp [mapFind] at hk
  | cons p rest ih =>
    obtain ⟨k', vs'⟩ := p
    obtain ⟨hlt, hrest⟩ := mapSorted_cons.1 hm
    by_cases h1 : strLt k k' = true
    · have hnone : mapFind ((k', vs') :: rest) k = none := by
        apply mapFind_none_of_lt
        intro q hq
        rcases List.mem_cons.1 hq with e | e
        · rw [e]
          exact h1
        · exact strLt_trans h1 (hlt q e)
      rw [hnone] at hk
      exact absurd hk (by simp)
    · by_cases h2 : strLt k' k = true
      · have hne : k' ≠ k := strLt_ne h2
        simp only [mapFind, hne, if_false] at hk
        simp only [mapPushBack, h1, h2, if_true, if_false, Bool.false_eq_true]
        rw [tableSize_cons, tableSize_cons, ih hrest hk]
        omega
      · simp only [mapPushBack, h1, h2, if_false, Bool.false_eq_true]
        rw [tableSize_cons, tableSize_cons]
        simp only [List.length_append, List.length_singleton]
        omega

theorem tableSize_GetoptStep_le {st : GetoptState} (h : st.wf) (tok : Str) :
    tableSize (GetoptStep st tok).retCmdValueMap ≤ tableSize st.retCmdValueMap + 1 := by
  rw [GetoptStep_eq]
  split_ifs with h1 h2
  · exact tableSize_mapInsert_le _ _
  · exact le_of_eq (tableSize_mapPushBack h.1 tok (h.2 h2.1))
  · omega

theorem tableSize_GetoptLoop_le {st : GetoptState} (h : st.wf) (toks : List Str) :
    tableSize (GetoptLoop st toks).retCmdValueMap ≤ tableSize st.retCmdValueMap + toks.length := by
  induction toks generalizing st with
  | nil => simp [GetoptLoop_nil]
  | cons tok rest ih =>
    rw [GetoptLoop_cons]
    have h1 := ih (GetoptStep_wf h tok)
    have h2 := tableSize_GetoptStep_le h tok
    simp only [List.length_cons]
    omega

/-- C19. For every argument list (a program name `argv[0]` and `argc - 1`
tokens), every key of the table `Getopt` returns is a non-empty string made of
letters, `.` and `_` only (so it does not start with `-`) whose flag `-key` is
one of the tokens; every stored value is a non-empty token of the list that
does not begin with `-` or consists of digits and `-` characters only; the
table does not depend on `argv[0]`; and the number of keys plus the number of
stored values is at most `argc - 1`. -/
theorem getopt_table_invariant (prog : Str) (args : List Str) :
    (∀ k ∈ mapKeys (Getopt (prog :: args)),
      k ≠ [] ∧ k.all isLetterChar = true ∧ k.head? ≠ some '-' ∧ ('-' :: k) ∈ args) ∧
    (∀ p ∈ Getopt (prog :: args), ∀ v ∈ p.2,
      v ≠ [] ∧ v ∈ args ∧ (v.head? ≠ some '-' ∨ v.all isNumberChar = true)) ∧
    (∀ prog2 : Str, Getopt (prog2 :: args) = Getopt (prog :: args)) ∧
    tableSize (Getopt (prog :: args)) ≤ args.length ∧
    tableSize (Getopt (prog :: args)) ≤ (prog :: args).length - 1 := by
  have hentry : ∀ p ∈ Getopt (prog :: args),
      p.1 ∈ flagNames args ∧ p.2 = groupValues p.1 [] args := by
    intro p hp
    have hf := mapFind_of_mem (Getopt_sorted (prog :: args)) (show (p.1, p.2) ∈ _ from hp)
    rw [Getopt_find] at hf
    split_ifs at hf with hk
    simp only [Option.some.injEq] at hf
    exact ⟨hk, hf.symm⟩
  have hsize : tableSize (Getopt (prog :: args)) ≤ args.length := by
    have := tableSize_GetoptLoop_le GetoptInit_wf args
    simpa [Getopt, GetoptInit, tableSize] using this
  refine ⟨?_, ?_, fun _ => rfl, hsize, by simpa using hsize⟩
  · intro k hk
    obtain ⟨vs, hmem⟩ := mem_mapKeys_iff.1 hk
    obtain ⟨h1, h2, h3⟩ := mem_flagNames (hentry _ hmem).1
    exact ⟨h2, h3, head_ne_minus_of_all_letter h3, h1⟩
  · intro p hp v hv
    rw [(hentry p hp).2] at hv
    obtain ⟨h1, h2⟩ := mem_groupValues hv
    exact ⟨(isStoredValue_shape h2).1, h1, (isStoredValue_shape h2).2⟩

/-! ### C17: what `InitGlobalParam` writes -/

theorem initGroup_snd (Cmds : CmdMap) (k : Str) (n : Nat)
    (assign : List Str → Globals → Globals) (g : Globals) :
    (initGroup Cmds k n assign g).2 =
      match acceptedGroup Cmds k n with
      | some vs => assign vs g
      | none => g := by
  unfold initGroup acceptedGroup
  cases mapFind Cmds k with
  | none => rfl
  | some vs =>
    by_cases hn : n = vs.length
    · simp [hn]
    · have hn' : ¬ vs.length = n := fun e => hn e.symm
      simp [hn, hn']

theorem initGroup_keeps {α : Type} (f : Globals → α) (Cmds : CmdMap) (k : Str) (n : Nat)
    (assign : List Str → Globals → Globals) (g : Globals)
    (h : ∀ vs g2, f (assign vs g2) = f g2) :
    f (initGroup Cmds k n assign g).2 = f g := by
  rw [initGroup_snd]
  cases acceptedGroup Cmds k n with
  | none => rfl
  | some vs => exact h vs g

theorem Globals_eq {a b : Globals} (h1 : a.obj = b.obj) (h2 : a.width = b.width)
    (h3 : a.height = b.height) (h4 : a.light_dir = b.light_dir) (h5 : a.eye = b.eye)
    (h6 : a.center = b.center) (h7 : a.up = b.up) (h8 : a.new_bgra = b.new_bgra) :
    a = b := by
  cases a
  cases b
  simp only at h1 h2 h3 h4 h5 h6 h7 h8
  subst h1 h2 h3 h4 h5 h6 h7 h8
  rfl

/-- The globals after `InitGlobalParam`, field by field: the value read from
the group's tokens when the group is accepted, the value before the call
otherwise. -/
theorem InitGlobalParam_snd (Cmds : CmdMap) (g : Globals) :
    (InitGlobalParam Cmds g).2 =
      { obj := match acceptedGroup Cmds "obj".toList 1 with
          | some vs => idx vs 0
          | none => g.obj,
        width := match acceptedGroup Cmds "width".toList 1 with
          | some vs => TryStoi (idx vs 0)
          | none => g.width,
        height := match acceptedGroup Cmds "height".toList 1 with
          | some vs => TryStoi (idx vs 0)
          | none => g.height,
        light_dir := match acceptedGroup Cmds "light_dir".toList 3 with
          | some vs => readVec3 vs
          | none => g.light_dir,
        eye := match acceptedGroup Cmds "eye".toList 3 with
          | some vs => readVec3 vs
          | none => g.eye,
        center := match acceptedGroup Cmds "center".toList 3 with
          | some vs => readVec3 vs
          | none => g.center,
        up := match acceptedGroup Cmds "up".toList 3 with
          | some vs => readVec3 vs
          | none => g.up,
        new_bgra := match acceptedGroup Cmds "new_bgra".toList 4 with
          | some vs => readBgra vs
          | none => g.new_bgra } := by
  apply Globals_eq
  · simp only [InitGlobalParam]
    repeat
      rw [initGroup_keeps Globals.obj _ _ _ _ _ ?_]
      rotate_left
      exact fun _ _ => rfl
    rw [initGroup_snd]
    cases acceptedGroup Cmds "obj".toList 1 with
    | some vs => rfl
    | none =>
      rfl
  · simp only [InitGlobalParam]
    repeat
      rw [initGroup_keeps Globals.width _ _ _ _ _ ?_]
      rotate_left
      exact fun _ _ => rfl
    rw [initGroup_snd]
    cases acceptedGroup Cmds "width".toList 1 with
    | some vs => rfl
    | none =>
      simp only []
      rw [initGroup_keeps Globals.width _ _ _ _ _ ?_]
      exact fun _ _ => rfl
  · simp only [InitGlobalParam]
    repeat
      rw [initGroup_keeps Globals.height _ _ _ _ _ ?_]
      rotate_left
      exact fun _ _ => rfl
    rw [initGroup_snd]
    cases acceptedGroup Cmds "height".toList 1 with
    | some vs => rfl
    | none =>
      simp only []
      repeat
        rw [initGroup_keeps Globals.height _ _ _ _ _ ?_]
        first
          | exact fun _ _ => rfl
          | (rotate_left; exact fun _ _ => rfl)
  · simp only [InitGlobalParam]
    repeat
      rw [initGroup_keeps Globals.light_dir _ _ _ _ _ ?_]
      rotate_left
      exact fun _ _ => rfl
    rw [initGroup_snd]
    cases acceptedGroup Cmds "light_dir".toList 3 with
    | some vs => rfl
    | none =>
      simp only []
      repeat
        rw [initGroup_keeps Globals.light_dir _ _ _ _ _ ?_]
        first
          | exact fun _ _ => rfl
          | (rotate_left; exact fun _ _ => rfl)
  · simp only [InitGlobalParam]
    repeat
      rw [initGroup_keeps Globals.eye _ _ _ _ _ ?_]
      rotate_left
      exact fun _ _ => rfl
    rw [initGroup_snd]
    cases acceptedGroup Cmds "eye".toList 3 with
    | some vs => rfl
    | none =>
      simp only []
      repeat
        rw [initGroup_keeps Globals.eye _ _ _ _ _ ?_]
        first
          | exact fun _ _ => rfl
          | (rotate_left; exact fun _ _ => rfl)
  · simp only [InitGlobalParam]
    repeat
      rw [initGroup_keeps Globals.center _ _ _ _ _ ?_]
      rotate_left
      exact fun _ _ => rfl
    rw [initGroup_snd]
    cases acceptedGroup Cmds "center".toList 3 with
    | some vs => rfl
    | none =>
      simp only []
      repeat
        rw [initGroup_keeps Globals.center _ _ _ _ _ ?_]
        first
          | exact fun _ _ => rfl
          | (rotate_left; exact fun _ _ => rfl)
  · simp only [InitGlobalParam]
    repeat
      rw [initGroup_keeps Globals.up _ _ _ _ _ ?_]
      rotate_left
      exact fun _ _ => rfl
    rw [initGroup_snd]
    cases acceptedGroup Cmds "up".toList 3 with
    | some vs => rfl
    | none =>
      simp only []
      repeat
        rw [initGroup_keeps Globals.up _ _ _ _ _ ?_]
        first
          | exact fun _ _ => rfl
          | (rotate_left; exact fun _ _ => rfl)
  · simp only [InitGlobalParam]
    rw [initGroup_snd]
    cases acceptedGroup Cmds "new_bgra".toList 4 with
    | some vs => rfl
    | none =>
      simp only []
      repeat
        rw [initGroup_keeps Globals.new_bgra _ _ _ _ _ ?_]
        first
          | exact fun _ _ => rfl
          | (rotate_left; exact fun _ _ => rfl)

/-- C17. `InitGlobalParam` changes a global only when its group is present with
exactly the required arity: after the call every global is the value read from
its group's tokens when the group is accepted, and the value it had before the
call when the group is missing or has another number of values. The returned
flag plays no part in this: on the example list without `-up` the call returns
`false` and has overwritten the seven other globals, leaving only `up` as it
was. -/
theorem InitGlobalParam_writes_accepted_groups_only (Cmds : CmdMap) (g : Globals) :
    (InitGlobalParam Cmds g).2 =
      { obj := match acceptedGroup Cmds "obj".toList 1 with
          | some vs => idx vs 0
          | none => g.obj,
        width := match acceptedGroup Cmds "width".toList 1 with
          | some vs => TryStoi (idx vs 0)
          | none => g.width,
        height := match acceptedGroup Cmds "height".toList 1 with
          | some vs => TryStoi (idx vs 0)
          | none => g.height,
        light_dir := match acceptedGroup Cmds "light_dir".toList 3 with
          | some vs => readVec3 vs
          | none => g.light_dir,
        eye := match acceptedGroup Cmds "eye".toList 3 with
          | some vs => readVec3 vs
          | none => g.eye,
        center := match acceptedGroup Cmds "center".toList 3 with
          | some vs => readVec3 vs
          | none => g.center,
        up := match acceptedGroup Cmds "up".toList 3 with
          | some vs => readVec3 vs
          | none => g.up,
        new_bgra := match acceptedGroup Cmds "new_bgra".toList 4 with
          | some vs => readBgra vs
          | none => g.new_bgra } ∧
    (∀ (k : Str) (n : Nat), (acceptedGroup Cmds k n).isSome = true ↔ hasGroup Cmds k n) ∧
    acquire (withProg "tinyrenderer".toList exampleArgsWithoutUp) g =
      (false,
        { obj := "head.obj".toList, width := 800, height := 800,
          light_dir := ⟨1, 1, 1⟩, eye := ⟨0, 0, 3⟩, center := ⟨0, 0, 0⟩,
          up := g.up,
          new_bgra := ⟨some 0, some 0, some 0, some 255⟩ }) := by
  refine ⟨InitGlobalParam_snd Cmds g, ?_, ?_⟩
  · intro k n
    unfold acceptedGroup hasGroup
    cases mapFind Cmds k with
    | none => simp
    | some vs =>
      by_cases hn : vs.length = n
      · simp [hn]
      · simp [hn]
  · have hfst : (acquire (withProg "tinyrenderer".toList exampleArgsWithoutUp) g).1 = false := by
      rw [Bool.eq_false_iff]
      intro ht
      rw [acquire, InitGlobalParam_fst] at ht
      exact absurd ht.2.2.2.2.2.2.1 (by
        rintro ⟨vs, hf, _⟩
        have : mapFind (Getopt (withProg "tinyrenderer".toList exampleArgsWithoutUp))
            "up".toList = none := by decide
        rw [this] at hf
        exact absurd hf (by simp))
    have hsnd := InitGlobalParam_snd
      (Getopt (withProg "tinyrenderer".toList exampleArgsWithoutUp)) g
    have a0 : acceptedGroup (Getopt (withProg "tinyrenderer".toList exampleArgsWithoutUp))
        "obj".toList 1 = some ["head.obj".toList] := by decide
    have a1 : acceptedGroup (Getopt (withProg "tinyrenderer".toList exampleArgsWithoutUp))
        "width".toList 1 = some ["800".toList] := by decide
    have a2 : acceptedGroup (Getopt (withProg "tinyrenderer".toList exampleArgsWithoutUp))
        "height".toList 1 = some ["800".toList] := by decide
    have a3 : acceptedGroup (Getopt (withProg "tinyrenderer".toList exampleArgsWithoutUp))
        "light_dir".toList 3 = some ["1".toList, "1".toList, "1".toList] := by decide
    have a4 : acceptedGroup (Getopt (withProg "tinyrenderer".toList exampleArgsWithoutUp))
        "eye".toList 3 = some ["0".toList, "0".toList, "3".toList] := by decide
    have a5 : acceptedGroup (Getopt (withProg "tinyrenderer".toList exampleArgsWithoutUp))
        "center".toList 3 = some ["0".toList, "0".toList, "0".toList] := by decide
    have a6 : acceptedGroup (Getopt (withProg "tinyrenderer".toList exampleArgsWithoutUp))
        "up".toList 3 = none := by decide
    have a7 : acceptedGroup (Getopt (withProg "tinyrenderer".toList exampleArgsWithoutUp))
        "new_bgra".toList 4 = some ["0".toList, "0".toList, "0".toList, "255".toList] := by
      decide
    rw [a0, a1, a2, a3, a4, a5, a6, a7] at hsnd
    have hw : TryStoi (idx ["800".toList] 0) = 800 := by decide
    have v1 : readVec3 ["1".toList, "1".toList, "1".toList] = ⟨1, 1, 1⟩ := by decide!
    have v2 : readVec3 ["0".toList, "0".toList, "3".toList] = ⟨0, 0, 3⟩ := by decide!
    have v3 : readVec3 ["0".toList, "0".toList, "0".toList] = ⟨0, 0, 0⟩ := by decide!
    have v4 : readBgra ["0".toList, "0".toList, "0".toList, "255".toList] =
        ⟨some 0, some 0, some 0, some 255⟩ := by decide!
    have ho : idx ["head.obj".toList] 0 = "head.obj".toList := by decide
    simp only [hw, v1, v2, v3, v4, ho] at hsnd
    exact Prod.ext hfst hsnd

/-! ### C16: the names of the placeholder files -/

theorem take_dot_eq_baseName {p : Str} {i : Nat}
    (h : find_last_of_dot (finalComponent p) = some i) :
    ∃ dot, find_last_of_dot p = some dot ∧ p.take dot = baseName p := by
  induction p with
  | nil => simp [finalComponent, find_last_of_dot] at h
  | cons c rest ih =>
    by_cases hc : c = '/' ∨ rest.contains '/' = true
    · have hfc : finalComponent (c :: rest) = finalComponent rest := by
        rcases hc with e | e
        · simp [finalComponent, e]
        · by_cases e2 : c = '/'
          · simp [finalComponent, e2]
          · simp only [finalComponent, e2, if_false, e, if_true]
      have hbn : baseName (c :: rest) = c :: baseName rest := by
        rcases hc with e | e
        · simp [baseName, e]
        · by_cases e2 : c = '/'
          · simp [baseName, e2]
          · simp only [baseName, e2, if_false, e, if_true]
      rw [hfc] at h
      obtain ⟨dot, hd, ht⟩ := ih h
      refine ⟨dot + 1, ?_, ?_⟩
      · simp [find_last_of_dot, hd]
      · rw [hbn, List.take_succ_cons, ht]
    · have h1 : ¬ c = '/' := fun e => hc (Or.inl e)
      have h2 : ¬ rest.contains '/' = true := fun e => hc (Or.inr e)
      have hfc : finalComponent (c :: rest) = c :: rest := by
        simp only [finalComponent, h1, if_false, h2, Bool.false_eq_true]
      have hbn : baseName (c :: rest) = (c :: rest).take i := by
        rw [hfc] at h
        simp only [baseName, h1, if_false, h2, h, Bool.false_eq_true]
      rw [hfc] at h
      exact ⟨i, h, hbn.symm⟩

/-- C16 (where the code and the claim part). For the model path
`./models/head`, whose final component has no extension, the last `.` of the
path is its first character: `CreateTgaFiles` takes the empty string as base
and opens `_diffuse.tga`, `_nm_tangent.tga` and `_spec.tga` (in the working
directory), while the documented base name is `./models/head`. For a path with
no `.` at all no file is opened. The names are the documented ones,
`baseName p` followed by the suffix, whenever the final component of the path
has a `.`. -/
theorem placeholder_names_cut_at_last_dot_of_path :
    CreateTgaFiles "./models/head".toList "./models/head".toList =
      ["_diffuse.tga".toList, "_nm_tangent.tga".toList, "_spec.tga".toList] ∧
    baseName "./models/head".toList = "./models/head".toList ∧
    CreateTgaFiles "models.v2/head".toList "models.v2/head".toList =
      ["models_diffuse.tga".toList, "models_nm_tangent.tga".toList,
       "models_spec.tga".toList] ∧
    CreateTgaFiles "head".toList "head".toList = [] ∧
    (∀ (filename p : Str), (find_last_of_dot (finalComponent p)).isSome = true →
      CreateTgaFiles filename p =
        [baseName p ++ "_diffuse.tga".toList, baseName p ++ "_nm_tangent.tga".toList,
         baseName p ++ "_spec.tga".toList]) := by
  refine ⟨by decide, by decide, by decide, by decide, ?_⟩
  intro filename p hp
  cases hf : find_last_of_dot (finalComponent p) with
  | none => simp [hf] at hp
  | some i =>
    obtain ⟨dot, hd, ht⟩ := take_dot_eq_baseName hf
    simp only [CreateTgaFiles, hd, ht]

/-! ### C11 and C18: what `main` does -/

theorem set_col_apply {K : Type} {nrows ncols : Nat} (M : mat nrows ncols K)
    (idx : Fin ncols) (v : Fin nrows → K) (i : Fin nrows) (j : Fin ncols) :
    set_col M idx v i j = if j = idx then v i else M i j := rfl

/-- The three matrices after the three vertex calls of a face: each column is
the value computed for its vertex from the mesh, `ModelView` and the face
index. -/
theorem vertexStage_columns {K : Type} [Field K] (model : Model K)
    (ModelView Projection : mat 4 4 K) (invert_transpose : mat 4 4 K → mat 4 4 K)
    (sh : Shader K) (iface : Int) :
    (vertexStage model ModelView Projection invert_transpose sh iface).uniform_l =
      sh.uniform_l ∧
    (vertexStage model ModelView Projection invert_transpose sh iface).varying_uv =
      (fun i j => model.uv iface j i) ∧
    (vertexStage model ModelView Projection invert_transpose sh iface).varying_nrm =
      (fun i j => proj3 (Matrix.mulVec (invert_transpose ModelView)
        (embed4 (model.normal iface j) 0)) i) ∧
    (vertexStage model ModelView Projection invert_transpose sh iface).view_tri =
      (fun i j => proj3 (Matrix.mulVec ModelView (embed4 (model.vert iface j) 1)) i) := by
  refine ⟨rfl, ?_, ?_, ?_⟩
  · funext i j
    fin_cases j <;> simp [vertexStage, vertex, set_col_apply]
  · funext i j
    fin_cases j <;> simp [vertexStage, vertex, set_col_apply]
  · funext i j
    fin_cases j <;> simp [vertexStage, vertex, set_col_apply]

/-- C15. A call `vertex(iface, k, _)` leaves `uniform_l` and, in `varying_uv`,
`varying_nrm` and `view_tri`, every column other than `k` as they were; column
`k` of each receives the value computed from the mesh, `ModelView` and
`iface`. After the three calls for the vertices 0, 1, 2 that `main` makes
before `triangle`, the three matrices are the same whatever the shader state
was before (they are determined by the mesh, `ModelView` and `iface`), and
`uniform_l` is still the one set at construction. -/
theorem vertex_overwrites_only_its_column {K : Type} [Field K] (model : Model K)
    (ModelView Projection : mat 4 4 K) (invert_transpose : mat 4 4 K → mat 4 4 K)
    (sh : Shader K) (iface : Int) (k : Fin 3) :
    (vertex model ModelView Projection invert_transpose sh iface k).1.uniform_l =
      sh.uniform_l ∧
    (∀ i j, j ≠ k →
      (vertex model ModelView Projection invert_transpose sh iface k).1.varying_uv i j =
        sh.varying_uv i j) ∧
    (∀ i j, j ≠ k →
      (vertex model ModelView Projection invert_transpose sh iface k).1.varying_nrm i j =
        sh.varying_nrm i j) ∧
    (∀ i j, j ≠ k →
      (vertex model ModelView Projection invert_transpose sh iface k).1.view_tri i j =
        sh.view_tri i j) ∧
    col (vertex model ModelView Projection invert_transpose sh iface k).1.varying_uv k =
      model.uv iface k ∧
    col (vertex model ModelView Projection invert_transpose sh iface k).1.varying_nrm k =
      proj3 (Matrix.mulVec (invert_transpose ModelView)
        (embed4 (model.normal iface k) 0)) ∧
    col (vertex model ModelView Projection invert_transpose sh iface k).1.view_tri k =
      proj3 (Matrix.mulVec ModelView (embed4 (model.vert iface k) 1)) ∧
    (∀ sh2 : Shader K,
      (vertexStage model ModelView Projection invert_transpose sh iface).varying_uv =
        (vertexStage model ModelView Projection invert_transpose sh2 iface).varying_uv ∧
      (vertexStage model ModelView Projection invert_transpose sh iface).varying_nrm =
        (vertexStage model ModelView Projection invert_transpose sh2 iface).varying_nrm ∧
      (vertexStage model ModelView Projection invert_transpose sh iface).view_tri =
        (vertexStage model ModelView Projection invert_transpose sh2 iface).view_tri) ∧
    (vertexStage model ModelView Projection invert_transpose sh iface).uniform_l =
      sh.uniform_l ∧
    (∀ j, col (vertexStage model ModelView Projection invert_transpose sh iface).varying_uv j
      = model.uv iface j) := by
  have hs := vertexStage_columns model ModelView Projection invert_transpose sh iface
  refine ⟨rfl, ?_, ?_, ?_, ?_, ?_, ?_, ?_, rfl, ?_⟩
  · intro i j hj
    simp [vertex, set_col_apply, hj]
  · intro i j hj
    simp [vertex, set_col_apply, hj]
  · intro i j hj
    simp [vertex, set_col_apply, hj]
  · funext i
    simp [col, vertex, set_col_apply]
  · funext i
    simp [col, vertex, set_col_apply]
  · funext i
    simp [col, vertex, set_col_apply]
  · intro sh2
    have hs2 := vertexStage_columns model ModelView Projection invert_transpose sh2 iface
    exact ⟨hs.2.1.trans hs2.2.1.symm, hs.2.2.1.trans hs2.2.2.1.symm,
      hs.2.2.2.trans hs2.2.2.2.symm⟩
  · intro j
    funext i
    rw [hs.2.1]
    rfl

/-! ### C13: the diffuse term -/

/-- The dot product of two unit vectors is at most 1. -/
theorem dot_le_one_of_unit {K : Type} [LinearOrderedField K] (n l : vec3 K)
    (hn : dot n n = 1) (hl : dot l l = 1) : dot n l ≤ 1 := by
  unfold dot at *
  nlinarith [sq_nonneg (n 0 - l 0), sq_nonneg (n 1 - l 1), sq_nonneg (n 2 - l 2)]

/-- The diffuse term of two unit vectors lies in `[0, 1]`. -/
theorem diffuseTerm_bounds {K : Type} [LinearOrderedField K] (n l : vec3 K)
    (hn : dot n n = 1) (hl : dot l l = 1) :
    0 ≤ diffuseTerm n l ∧ diffuseTerm n l ≤ 1 :=
  ⟨le_max_left _ _, max_le zero_le_one (dot_le_one_of_unit n l hn hl)⟩

/-- C13. For all unit vectors `n` and `l` the diffuse term
`std::max(0., n*uniform_l)` of the fragment stage is `n·l` cut off at 0 from
below, and lies between 0 and 1. -/
theorem diffuse_term_in_unit_interval {K : Type} [LinearOrderedField K] (n l : vec3 K)
    (hn : dot n n = 1) (hl : dot l l = 1) :
    diffuseTerm n l = max 0 (n 0 * l 0 + n 1 * l 1 + n 2 * l 2) ∧
    0 ≤ diffuseTerm n l ∧ diffuseTerm n l ≤ 1 :=
  ⟨rfl, diffuseTerm_bounds n l hn hl⟩

/-- Witness of C13: two rational unit vectors, with diffuse term 12/25. -/
theorem diffuse_term_in_unit_interval_witness :
    dot (![3/5, 4/5, 0] : vec3 ℚ) ![3/5, 4/5, 0] = 1 ∧
    dot (![0, 3/5, 4/5] : vec3 ℚ) ![0, 3/5, 4/5] = 1 ∧
    diffuseTerm (![3/5, 4/5, 0] : vec3 ℚ) ![0, 3/5, 4/5] = 12/25 ∧
    diffuseTerm (![3/5, 4/5, 0] : vec3 ℚ) ![0, 3/5, 4/5] ≤ 1 :=
  ⟨by decide!, by decide!, by decide!,
   (diffuse_term_in_unit_interval (![3/5, 4/5, 0] : vec3 ℚ) ![0, 3/5, 4/5]
      (by decide!) (by decide!)).2.2⟩

/-! ### C12: the colour channels of the fragment stage -/

/-- The nearest double of a non-negative number: an infinity, or the rounded
value, which is not negative. -/
theorem binary64_of_nonneg {q : ℚ} (h : 0 ≤ q) :
    (dblOverflow ≤ q ∧ binary64 q = Dbl.inf false) ∨
    (q < dblOverflow ∧ binary64 q = Dbl.fin (roundQ q)) := by
  have hn : ¬ q < 0 := not_lt.2 h
  unfold binary64
  rw [abs_of_nonneg h]
  by_cases ho : dblOverflow ≤ q
  · left
    rw [if_pos ho]
    simp [hn, ho]
  · right
    rw [if_neg ho, if_neg hn]
    exact ⟨not_le.1 ho, rfl⟩

/-- The double `10 + c*(d+s)` for finite terms `d ≥ 0` and `s ≥ 0`: when it is
finite it is at least 10. -/
theorem ten_le_channelValue (c : Nat) {d s x : ℚ} (hd : 0 ≤ d) (hs : 0 ≤ s)
    (hx : channelValue c (Dbl.fin d) (Dbl.fin s) = Dbl.fin x) : 10 ≤ x := by
  have hc : (0 : ℚ) ≤ (c : ℚ) := Nat.cast_nonneg c
  have h10 : roundQ 10 = 10 := by
    have := @roundQ_natCast 10 (by norm_num)
    simpa using this
  simp only [channelValue, Dbl.add] at hx
  rcases binary64_of_nonneg (add_nonneg hd hs) with ⟨_, h1⟩ | ⟨_, h1⟩
  · rw [h1] at hx
    simp only [Dbl.mul] at hx
    split_ifs at hx
  · rw [h1] at hx
    simp only [Dbl.mul] at hx
    have hr1 : 0 ≤ roundQ (d + s) := roundQ_nonneg (add_nonneg hd hs)
    rcases binary64_of_nonneg (mul_nonneg hc hr1) with ⟨_, h2⟩ | ⟨_, h2⟩
    · rw [h2] at hx
      simp [Dbl.add] at hx
    · rw [h2] at hx
      simp only [Dbl.add] at hx
      have hr2 : 0 ≤ roundQ ((c : ℚ) * roundQ (d + s)) := roundQ_nonneg (mul_nonneg hc hr1)
      rcases binary64_of_nonneg (add_nonneg (by norm_num : (0 : ℚ) ≤ 10) hr2) with
        ⟨_, h3⟩ | ⟨_, h3⟩
      · rw [h3] at hx
        exact absurd hx (by simp)
      · rw [h3] at hx
        injection hx with hx
        rw [← hx, ← h10]
        apply roundQ_mono (by norm_num)
        rw [h10]
        linarith

/-- The double `10 + c*(d+s)` for a byte `c` and terms between 0 and 2: it is
finite and at most 1030. -/
theorem channelValue_le (c : Nat) {d s : ℚ} (hc : c ≤ 255) (hd : 0 ≤ d) (hs : 0 ≤ s)
    (hd2 : d ≤ 2) (hs2 : s ≤ 2) :
    ∃ x, channelValue c (Dbl.fin d) (Dbl.fin s) = Dbl.fin x ∧ x ≤ 1030 := by
  have hc0 : (0 : ℚ) ≤ (c : ℚ) := Nat.cast_nonneg c
  have hcK : (c : ℚ) ≤ 255 := by exact_mod_cast hc
  have h4 : roundQ 4 = 4 := by
    have := @roundQ_natCast 4 (by norm_num)
    simpa using this
  have h1020 : roundQ 1020 = 1020 := by
    have := @roundQ_natCast 1020 (by norm_num)
    simpa using this
  have h1030 : roundQ 1030 = 1030 := by
    have := @roundQ_natCast 1030 (by norm_num)
    simpa using this
  have hbig : (1030 : ℚ) < dblOverflow := by
    unfold dblOverflow
    norm_num
  have hr1 : 0 ≤ roundQ (d + s) := roundQ_nonneg (add_nonneg hd hs)
  have hr1u : roundQ (d + s) ≤ 4 := by
    rw [← h4]
    exact roundQ_mono (add_nonneg hd hs) (by linarith)
  have hm : (c : ℚ) * roundQ (d + s) ≤ 1020 := by
    have := mul_le_mul hcK hr1u hr1 (by norm_num : (0 : ℚ) ≤ 255)
    linarith
  have hr2 : 0 ≤ roundQ ((c : ℚ) * roundQ (d + s)) := roundQ_nonneg (mul_nonneg hc0 hr1)
  have hr2u : roundQ ((c : ℚ) * roundQ (d + s)) ≤ 1020 := by
    rw [← h1020]
    exact roundQ_mono (mul_nonneg hc0 hr1) hm
  have hr3u : roundQ (10 + roundQ ((c : ℚ) * roundQ (d + s))) ≤ 1030 := by
    rw [← h1030]
    exact roundQ_mono (by linarith) (by linarith)
  have e1 : binary64 (d + s) = Dbl.fin (roundQ (d + s)) := by
    rcases binary64_of_nonneg (add_nonneg hd hs) with ⟨h, _⟩ | ⟨_, h⟩
    · linarith
    · exact h
  have e2 : binary64 ((c : ℚ) * roundQ (d + s)) =
      Dbl.fin (roundQ ((c : ℚ) * roundQ (d + s))) := by
    rcases binary64_of_nonneg (mul_nonneg hc0 hr1) with ⟨h, _⟩ | ⟨_, h⟩
    · linarith
    · exact h
  have e3 : binary64 (10 + roundQ ((c : ℚ) * roundQ (d + s))) =
      Dbl.fin (roundQ (10 + roundQ ((c : ℚ) * roundQ (d + s)))) := by
    rcases binary64_of_nonneg (add_nonneg (by norm_num : (0 : ℚ) ≤ 10) hr2) with
      ⟨h, _⟩ | ⟨_, h⟩
    · linarith
    · exact h
  refine ⟨roundQ (10 + roundQ ((c : ℚ) * roundQ (d + s))), ?_, hr3u⟩
  simp only [channelValue, Dbl.add, Dbl.mul, e1, e2, e3]

/-- The truncation of a rational number that is at least 10. -/
theorem ten_le_trunc {x : ℚ} (h : 10 ≤ x) : 10 ≤ trunc x := by
  have h0 : (0 : ℚ) ≤ x := le_trans (by norm_num) h
  unfold trunc
  rw [if_pos h0]
  exact Int.le_floor.2 (by exact_mod_cast h)

/-- The truncation of a number between 0 and a whole number `n`. -/
theorem trunc_le {x : ℚ} {n : Int} (h0 : 0 ≤ x) (h : x ≤ n) : trunc x ≤ n := by
  unfold trunc
  rw [if_pos h0]
  have h3 : ((Int.floor x : Int) : ℚ) ≤ n := le_trans (Int.floor_le _) h
  exact_mod_cast h3

/-- The channel stored for a finite value of at least 10. -/
theorem fragColorChannel_of_fin {c : Nat} {d s : Dbl} {x : ℚ}
    (hx : channelValue c d s = Dbl.fin x) (h10 : 10 ≤ trunc x) :
    fragColorChannel c d s =
      if trunc x ≤ INT_MAX then some (min (trunc x) 255).toNat else none := by
  unfold fragColorChannel toInt
  rw [hx]
  by_cases h1 : trunc x ≤ INT_MAX
  · have h2 : INT_MIN ≤ trunc x := by
      unfold INT_MIN
      omega
    simp only [if_pos (And.intro h2 h1), if_pos h1, intToUint8]
    congr 1
    omega
  · simp only [if_neg (fun hh : INT_MIN ≤ trunc x ∧ trunc x ≤ INT_MAX => h1 hh.2), if_neg h1]

/-- C12 (as stated, refuted). The stage can produce a specular term that is not
`≥ 0`: `InitGlobalParam` accepts the light direction `0 0 0`; normalising the
zero vector divides 0 by 0, a NaN, so that `n*uniform_l` and `r.z` are NaN;
then `diff = std::max(0., NaN)` is 0, but `std::max(-r.z, 0.)` returns its
first argument, the NaN, and `spec` is NaN. The double `10 + c*(diff + spec)`
is then a NaN for every byte `c` (also for `c = 0`), and its conversion to
`int` for `std::min<int>` is not defined: the value stored is not
`clamp(trunc(10 + c*(d+s)), 0, 255)`. -/
theorem nan_specular_term_is_not_clamped :
    (acquire (withProg "tinyrenderer".toList exampleArgsZeroLight) Globals.init).1 = true ∧
    (acquire (withProg "tinyrenderer".toList exampleArgsZeroLight) Globals.init).2.light_dir
      = ⟨0, 0, 0⟩ ∧
    Dbl.div (Dbl.fin 0) (Dbl.fin 0) = Dbl.nan ∧
    diff Dbl.nan = Dbl.fin 0 ∧
    spec powRounded Dbl.nan 0 = Dbl.nan ∧
    Dbl.le (Dbl.fin 0) (spec powRounded Dbl.nan 0) = false ∧
    channelValue 255 (diff Dbl.nan) (spec powRounded Dbl.nan 0) = Dbl.nan ∧
    channelValue 0 (diff Dbl.nan) (spec powRounded Dbl.nan 0) = Dbl.nan ∧
    fragColorChannel 255 (diff Dbl.nan) (spec powRounded Dbl.nan 0) = none ∧
    fragColorChannel 0 (diff Dbl.nan) (spec powRounded Dbl.nan 0) = none := by
  decide!

/-- C12 (amended). For every byte `c` of the diffuse map and all finite terms
`d ≥ 0` and `s ≥ 0`: when the double `x` computed for `10 + c*(d+s)` is finite,
it is at least 10, so `min(trunc x, 255)` is an integer in `[10, 255]` and
equals `clamp(trunc x, 0, 255)` (the lower bound of the clamp is not reached),
and the channel stored is that value whenever `trunc x` is an `int`; it is not
defined when `trunc x` exceeds `int` or `x` is not finite. For terms up to 2
the double `x` is finite, at most 1030, and the channel is stored as said. -/
theorem fragment_channel_is_clamped (c : Nat) (d s : ℚ) (hc : c ≤ 255) (hd : 0 ≤ d)
    (hs : 0 ≤ s) :
    (∀ x, channelValue c (Dbl.fin d) (Dbl.fin s) = Dbl.fin x →
      10 ≤ trunc x ∧
      min (trunc x) 255 = clamp (trunc x) 0 255 ∧
      10 ≤ min (trunc x) 255 ∧ min (trunc x) 255 ≤ 255 ∧
      (trunc x ≤ INT_MAX →
        fragColorChannel c (Dbl.fin d) (Dbl.fin s) = some (min (trunc x) 255).toNat) ∧
      (INT_MAX < trunc x → fragColorChannel c (Dbl.fin d) (Dbl.fin s) = none)) ∧
    ((∀ x, channelValue c (Dbl.fin d) (Dbl.fin s) ≠ Dbl.fin x) →
      fragColorChannel c (Dbl.fin d) (Dbl.fin s) = none) ∧
    (∀ v, fragColorChannel c (Dbl.fin d) (Dbl.fin s) = some v → 10 ≤ v ∧ v ≤ 255) ∧
    (d ≤ 2 → s ≤ 2 →
      ∃ x, channelValue c (Dbl.fin d) (Dbl.fin s) = Dbl.fin x ∧ trunc x ≤ 1030 ∧
        fragColorChannel c (Dbl.fin d) (Dbl.fin s) = some (min (trunc x) 255).toNat) := by
  have hfin : ∀ x, channelValue c (Dbl.fin d) (Dbl.fin s) = Dbl.fin x →
      10 ≤ trunc x ∧
      fragColorChannel c (Dbl.fin d) (Dbl.fin s) =
        if trunc x ≤ INT_MAX then some (min (trunc x) 255).toNat else none := by
    intro x hx
    have h10 := ten_le_trunc (ten_le_channelValue c hd hs hx)
    exact ⟨h10, fragColorChannel_of_fin hx h10⟩
  refine ⟨?_, ?_, ?_, ?_⟩
  · intro x hx
    obtain ⟨h10, heq⟩ := hfin x hx
    refine ⟨h10, ?_, by omega, by omega, ?_, ?_⟩
    · unfold clamp
      split_ifs <;> omega
    · intro hmax
      rw [heq, if_pos hmax]
    · intro hmax
      rw [heq, if_neg (not_le.2 hmax)]
  · intro hno
    unfold fragColorChannel toInt
    cases hv : channelValue c (Dbl.fin d) (Dbl.fin s) with
    | fin x => exact absurd hv (hno x)
    | inf neg => rfl
    | nan => rfl
  · intro v hv
    cases hch : channelValue c (Dbl.fin d) (Dbl.fin s) with
    | fin x =>
      obtain ⟨h10, heq⟩ := hfin x hch
      rw [heq] at hv
      split_ifs at hv
      cases hv
      omega
    | inf neg =>
      simp [fragColorChannel, toInt, hch] at hv
    | nan =>
      simp [fragColorChannel, toInt, hch] at hv
  · intro hd2 hs2
    obtain ⟨x, hx, hle⟩ := channelValue_le c hc hd hs hd2 hs2
    obtain ⟨h10, heq⟩ := hfin x hx
    have h0 : (0 : ℚ) ≤ x := le_trans (by norm_num) (ten_le_channelValue c hd hs hx)
    have ht : trunc x ≤ 1030 := trunc_le h0 (by exact_mod_cast hle)
    refine ⟨x, hx, ht, ?_⟩
    rw [heq, if_pos]
    unfold INT_MAX
    omega

/-- Witness of C12 (amended): the byte 100 with diffuse term 1/2 and specular
term 0 gives the channel 60; with the diffuse term 1/10 (as a double) and the
specular term 1 it gives 120. -/
theorem fragment_channel_is_clamped_witness :
    (100 ≤ 255 ∧ (0 : ℚ) ≤ 1 / 2 ∧ (0 : ℚ) ≤ 0) ∧
    channelValue 100 (Dbl.fin (1 / 2)) (Dbl.fin 0) = Dbl.fin 60 ∧
    fragColorChannel 100 (Dbl.fin (1 / 2)) (Dbl.fin 0) = some 60 ∧
    fragColorChannel 100 (binary64 (1 / 10)) (Dbl.fin 1) = some 120 ∧
    (∀ v, fragColorChannel 100 (Dbl.fin (1 / 2)) (Dbl.fin 0) = some v → 10 ≤ v ∧ v ≤ 255) :=
  ⟨⟨by decide, by decide!, by decide!⟩, by decide!, by decide!, by decide!,
   (fragment_channel_is_clamped 100 (1 / 2) 0 (by decide) (by decide!) (by decide!)).2.2.1⟩

/-! ### C14: the matrix of the tangent basis -/

/-- The determinant of the matrix the fragment stage inverts is the triple
product of the two edges of the triangle and the interpolated normal. -/
theorem det_tangentMatrix {K : Type} [Field K] (view_tri : mat 3 3 K) (bn : vec3 K) :
    Matrix.det (tangentMatrix view_tri bn) =
      dot (cross (col view_tri 1 - col view_tri 0) (col view_tri 2 - col view_tri 0)) bn := by
  rw [Matrix.det_fin_three]
  simp [tangentMatrix, col, dot, cross]
  ring

/-- C14 (as stated, refuted). The face of `inPlaneNormalModel` after the vertex
stage: its view-space positions (0,0,0), (1,0,0), (0,1,0) are not collinear,
its texture coordinates (0,0), (1,0), (0,1) are not collinear, and the
interpolated normal at the barycentre is the unit vector (1,0,0); yet the
matrix built from the two edges and that normal has determinant 0. -/
theorem tangent_matrix_singular_for_in_plane_normal :
    inPlaneNormalShader.view_tri = Matrix.of ![![0, 1, 0], ![0, 0, 1], ![0, 0, 0]] ∧
    inPlaneNormalShader.varying_nrm = Matrix.of ![![1, 1, 1], ![0, 0, 0], ![0, 0, 0]] ∧
    inPlaneNormalShader.varying_uv = Matrix.of ![![0, 1, 0], ![0, 0, 1]] ∧
    ¬ collinear3 (col inPlaneNormalShader.view_tri 0) (col inPlaneNormalShader.view_tri 1)
        (col inPlaneNormalShader.view_tri 2) ∧
    ¬ collinear2 (col inPlaneNormalShader.varying_uv 0)
        (col inPlaneNormalShader.varying_uv 1) (col inPlaneNormalShader.varying_uv 2) ∧
    isNormalized (Matrix.mulVec inPlaneNormalShader.varying_nrm ![1/3, 1/3, 1/3])
      ![1, 0, 0] ∧
    Matrix.det (tangentMatrix inPlaneNormalShader.view_tri ![1, 0, 0]) = 0 := by
  refine ⟨by decide!, by decide!, by decide!, ?_, ?_, ⟨by decide!, 1, by decide!, by decide!⟩,
    by decide!⟩
  · unfold collinear3
    decide!
  · unfold collinear2
    decide!

/-- C14 (amended). For every triangle and every interpolated normal `bn`, the
determinant of the matrix built from `view_tri.col(1) - view_tri.col(0)`,
`view_tri.col(2) - view_tri.col(0)` and `bn` is the triple product
`((p1 - p0) × (p2 - p0)) · bn`. The matrix is invertible exactly when `bn` is
not orthogonal to the face normal `(p1 - p0) × (p2 - p0)`; this requires the
three positions not to be collinear. The texture coordinates do not enter. -/
theorem tangent_matrix_invertible_iff {K : Type} [Field K] (view_tri : mat 3 3 K)
    (bn : vec3 K) :
    Matrix.det (tangentMatrix view_tri bn) =
      dot (cross (col view_tri 1 - col view_tri 0) (col view_tri 2 - col view_tri 0)) bn ∧
    (IsUnit (tangentMatrix view_tri bn) ↔
      dot (cross (col view_tri 1 - col view_tri 0) (col view_tri 2 - col view_tri 0)) bn
        ≠ 0) ∧
    (Matrix.det (tangentMatrix view_tri bn) ≠ 0 ↔
      dot (cross (col view_tri 1 - col view_tri 0) (col view_tri 2 - col view_tri 0)) bn
        ≠ 0) ∧
    (Matrix.det (tangentMatrix view_tri bn) ≠ 0 →
      ¬ collinear3 (col view_tri 0) (col view_tri 1) (col view_tri 2)) := by
  have hdet := det_tangentMatrix view_tri bn
  refine ⟨hdet, ?_, ?_, ?_⟩
  · rw [Matrix.isUnit_iff_isUnit_det, isUnit_iff_ne_zero, hdet]
  · rw [hdet]
  · intro h hc
    apply h
    rw [hdet]
    unfold collinear3 at hc
    rw [hc]
    simp [dot]

/-! ### C3: the example of the specification -/


/-- C3. On the example argument list `-obj head.obj -width 800 -height 800
-light_dir 1 1 1 -eye 0 0 3 -center 0 0 0 -up 0 1 0 -new_bgra 0 0 0 255`
(after a program name), `Getopt` followed by `InitGlobalParam` returns `true`
and leaves `obj = "head.obj"`, `width = 800`, `height = 800`,
`light_dir = (1,1,1)`, `eye = (0,0,3)`, `center = (0,0,0)`, `up = (0,1,0)` and
`new_bgra = (0,0,0,255)`. -/
theorem example_arguments_acquired :
    acquire (withProg "tinyrenderer".toList exampleArgs) Globals.init =
      (true,
        { obj := "head.obj".toList, width := 800, height := 800,
          light_dir := ⟨1, 1, 1⟩, eye := ⟨0, 0, 3⟩, center := ⟨0, 0, 0⟩,
          up := ⟨0, 1, 0⟩,
          new_bgra := ⟨some 0, some 0, some 0, some 255⟩ }) := by
  decide!

end TinyRenderer
